import Mathlib

/-!
Shallow embedding of the rusty_diff_match_patch library (src/dmp.rs) and
verification of the specification claims about it.

Modelling conventions:
* A Rust `String` / `Vec<char>` is modelled as `List Char` (Unicode scalars).
* `String::len()` (UTF-8 byte length) is modelled by `utf8Len`.
* `usize`, `i32`, `u32` integers are modelled by `Nat` / `Int`; bit rows of the
  Bitap scanner are modelled by `Nat` reduced `% 2 ^ 32` where the Rust `i32`
  arithmetic can wrap.
* `f32` score arithmetic of the matcher is modelled by exact rationals,
  represented as integer numerator/denominator pairs (`F32`) compared by
  cross-multiplication so that every comparison is kernel-computable.
* Loops whose Rust termination argument is not structural are given an explicit
  fuel parameter chosen at the call site; running out of fuel returns the same
  value the Rust code produces when its wall-clock deadline expires (for the
  diff family) or the state reached so far.
* The wall clock polled by `diff_bisect` is modelled by a `clock : Nat → Bool`
  parameter ("has the deadline expired at poll number d"); the public
  `diff_main` entry point, which creates a fresh `Instant`, uses the clock that
  never expires, and every theorem below is stated for the default
  configuration whose `diff_timeout` is `none`, where the clock is never read.
-/

namespace Dmp

/-- Texts are sequences of Unicode scalar values, as in `Vec<char>`. -/
abbrev Str := List Char

/-- UTF-8 byte length of a text: models Rust `String::len()`. -/
def utf8Len (s : Str) : Nat := (s.map Char.utf8Size).sum

/-- The diff element type of the library: `Diff::Add`, `Diff::Keep`,
`Diff::Delete`, each carrying its text. -/
inductive Diff : Type where
  | Add : Str → Diff
  | Keep : Str → Diff
  | Delete : Str → Diff
deriving DecidableEq, Repr

namespace Diff

/-- `Diff::text`. -/
def text : Diff → Str
  | Add t => t
  | Keep t => t
  | Delete t => t

/-- `Diff::with_text`: same tag, new text. -/
def with_text : Diff → Str → Diff
  | Add _, t => Add t
  | Keep _, t => Keep t
  | Delete _, t => Delete t

/-- Tag for adjacency comparisons. -/
def tag : Diff → Nat
  | Add _ => 0
  | Keep _ => 1
  | Delete _ => 2

def isKeep : Diff → Bool
  | Keep _ => true
  | _ => false

def isAdd : Diff → Bool
  | Add _ => true
  | _ => false

def isDelete : Diff → Bool
  | Delete _ => true
  | _ => false

end Diff

/-- The `Patch` record. -/
structure Patch : Type where
  diffs : List Diff
  start1 : Nat
  start2 : Nat
  length1 : Nat
  length2 : Nat
deriving DecidableEq, Repr

/-- Exact rational value of an `f32` computation: numerator over a positive
denominator.  Every `f32` the library computes is a quotient of small
integers, which `f32` represents and compares exactly at the sizes the
claims exercise, so comparisons are modelled by exact cross-multiplication. -/
structure F32 : Type where
  num : Int
  den : Int
deriving DecidableEq, Repr

/-- Comparison `a ≤ b` of score values (denominators are positive at every
construction site). -/
def fle (a b : F32) : Bool := a.num * b.den ≤ b.num * a.den

/-- Comparison `a > b` of score values. -/
def fgt (a b : F32) : Bool := b.num * a.den < a.num * b.den

/-- The configuration structure `Dmp` (the fields that carry options).
`f32` fields are modelled as exact rationals (`F32`). -/
structure Config : Type where
  diff_timeout : Option F32
  edit_cost : Nat
  match_distance : Nat
  patch_margin : Nat
  match_maxbits : Nat
  match_threshold : F32
  patch_delete_threshold : F32
deriving DecidableEq, Repr

/-- `impl Default for Dmp` (src/dmp.rs lines 183-195). -/
def dmpDefault : Config :=
  { diff_timeout := none
    patch_delete_threshold := F32.mk 1 2
    edit_cost := 0
    match_distance := 1000
    patch_margin := 4
    match_maxbits := 32
    match_threshold := F32.mk 1 2 }

/-- `min1`: minimum of two scores. -/
def min1 (x y : F32) : F32 := if fgt x y then y else x

/-- `find_char`: first index of `cha` in `text` at or after `start`, else -1. -/
def find_char (cha : Char) (text : Str) (start : Nat) : Int :=
  match text.drop start |>.findIdx? (fun c => c = cha) with
  | some i => (start + i : Nat)
  | none => -1

/-- `diff_text1`: concatenation of the `Keep` and `Delete` texts. -/
def diff_text1 (diffs : List Diff) : Str :=
  diffs.foldr (fun d acc =>
    match d with
    | Diff.Keep t => t ++ acc
    | Diff.Delete t => t ++ acc
    | Diff.Add _ => acc) []

/-- `diff_text2`: concatenation of the `Keep` and `Add` texts. -/
def diff_text2 (diffs : List Diff) : Str :=
  diffs.foldr (fun d acc =>
    match d with
    | Diff.Keep t => t ++ acc
    | Diff.Add t => t ++ acc
    | Diff.Delete _ => acc) []

/-- Helper loop of `diff_levenshtein` carrying the running insertion and
deletion byte counts (the Rust code counts `txt.len()`, i.e. UTF-8 bytes). -/
def levenshteinGo : List Diff → Nat → Nat → Nat
  | [], insertions, deletions => max insertions deletions
  | Diff.Add t :: rest, insertions, deletions =>
      levenshteinGo rest (insertions + utf8Len t) deletions
  | Diff.Delete t :: rest, insertions, deletions =>
      levenshteinGo rest insertions (deletions + utf8Len t)
  | Diff.Keep _ :: rest, insertions, deletions =>
      max insertions deletions + levenshteinGo rest 0 0

/-- `diff_levenshtein` (src/dmp.rs lines 1851-1873). -/
def diff_levenshtein (diffs : List Diff) : Nat := levenshteinGo diffs 0 0

/-- `diff_common_prefix` returns the length of the common prefix
(src/dmp.rs lines 917-931): the name carries a `Len` suffix in this
embedding. -/
def diffCommonPrefixLen : Str → Str → Nat
  | c1 :: t1, c2 :: t2 => if c1 = c2 then diffCommonPrefixLen t1 t2 + 1 else 0
  | _, _ => 0

/-- `diff_common_suffix` returns the length of the common suffix
(src/dmp.rs lines 941-958). -/
def diff_common_suffix (t1 t2 : Str) : Nat :=
  diffCommonPrefixLen t1.reverse t2.reverse

/-- `endswith` (src/dmp.rs lines 1684-1698). -/
def endswith (first second : Str) : Bool :=
  second.reverse.isPrefixOf first.reverse

/-- `startswith` (src/dmp.rs lines 1707-1719). -/
def startswith (first second : Str) : Bool :=
  second.isPrefixOf first

/-!
## KMP substring search

`kmp` and `rkmp` (src/dmp.rs lines 367-465).  Both of their `while` loops can
move a cursor backwards through the failure table, so they are written with a
fuel parameter; the fuel passed by the wrappers (twice the scanned length plus
a constant) dominates the real number of loop iterations of the Rust code
(the classic amortised bound for KMP), and if it were ever insufficient the
functions answer `none` ("not found"), which is also a value the Rust code can
produce.  All correctness proofs below only use soundness of a `some` answer,
which holds for every fuel.
-/

/-- Failure-table construction loop of `kmp`/`rkmp`: state `(patern, len, i)`,
processing `text2`. -/
def kmpTableGo (text2 : Str) (len2 : Nat) : Nat → List Nat → Nat → Nat → List Nat
  | 0, patern, _, _ => patern
  | fuel + 1, patern, len, i =>
    if i < len2 then
      if text2.getD i ' ' = text2.getD len ' ' then
        kmpTableGo text2 len2 fuel (patern ++ [len + 1]) (len + 1) (i + 1)
      else if len = 0 then
        kmpTableGo text2 len2 fuel (patern ++ [0]) 0 (i + 1)
      else
        kmpTableGo text2 len2 fuel patern (patern.getD (len - 1) 0) i
    else patern

/-- The failure table `patern` built by the preprocessing loops. -/
def kmpTable (text2 : Str) : List Nat :=
  kmpTableGo text2 text2.length (2 * text2.length + 2) [0] 0 1

/-- Matcher loop of `kmp`: state `(i, len)`. -/
def kmpGo (text1 text2 : Str) (len1 len2 : Nat) (patern : List Nat) :
    Nat → Nat → Nat → Option Nat
  | 0, _, _ => none
  | fuel + 1, i, len =>
    if i < len1 then
      if text1.getD i ' ' = text2.getD len ' ' then
        if len + 1 = len2 then some (i + 1 - len2)
        else kmpGo text1 text2 len1 len2 patern fuel (i + 1) (len + 1)
      else if len = 0 then
        kmpGo text1 text2 len1 len2 patern fuel (i + 1) 0
      else
        kmpGo text1 text2 len1 len2 patern fuel i (patern.getD (len - 1) 0)
    else none

/-- `kmp` (src/dmp.rs lines 367-410): first index at or after `ind` where
`text2` occurs in `text1`. -/
def kmp (text1 text2 : Str) (ind : Nat) : Option Nat :=
  if text2.isEmpty then some ind
  else if text1.isEmpty then none
  else
    kmpGo text1 text2 text1.length text2.length (kmpTable text2)
      (2 * text1.length + 2) ind 0

/-- Matcher loop of `rkmp`: scans the whole of `text1[0..=end]` keeping the
last full match found.  State `(i, len, ans)`. -/
def rkmpGo (text1 text2 : Str) (len2 : Nat) (patern : List Nat) (e : Nat) :
    Nat → Nat → Nat → Option Nat → Option Nat
  | 0, _, _, ans => ans
  | fuel + 1, i, len, ans =>
    if i ≤ e then
      if text1.getD i ' ' = text2.getD len ' ' then
        if len + 1 = len2 then
          rkmpGo text1 text2 len2 patern e fuel (i + 1) (patern.getD (len2 - 1) 0)
            (some (i + 1 - len2))
        else rkmpGo text1 text2 len2 patern e fuel (i + 1) (len + 1) ans
      else if len = 0 then
        rkmpGo text1 text2 len2 patern e fuel (i + 1) 0 ans
      else
        rkmpGo text1 text2 len2 patern e fuel i (patern.getD (len - 1) 0) ans
    else ans

/-- `rkmp` (src/dmp.rs lines 421-465): last index `≤ end` where `text2`
starts an occurrence in `text1`.  The Rust scan reads `text1[i]` for
`i ≤ end`; as in the source, callers only pass `end < text1.len()`. -/
def rkmp (text1 text2 : Str) (e : Nat) : Option Nat :=
  if text2.isEmpty then some e
  else if text1.isEmpty then none
  else
    rkmpGo text1 text2 text2.length (kmpTable text2) e
      (2 * (e + text2.length) + 4) 0 0 none

/-!
## `diff_cleanup_merge` (src/dmp.rs lines 1533-1675)

The Rust first pass walks the vector with an index `i`, accumulating the texts
and counts of the pending run of `Delete`/`Add` elements since the previous
`Keep`; the run elements stay in the vector until a `Keep` replaces them.  The
embedding makes that state explicit: `acc` is the already-final portion of the
vector before the run, `pe` the pending run elements themselves, `pd`/`pi` the
accumulated delete/insert texts and `cd`/`ci` the counts.  The prefix `Keep`
inserted at index 0 by the source (`diffs.insert(0, ...)`) is modelled by
consing to `acc`, which coincides with the source because the run always
starts right after the last element of `acc`.
-/

/-- Common-prefix factoring of a pending run (`commonlength != 0` on the
prefix side, src/dmp.rs lines 1560-1579): the prefix moves into the `Keep`
just before the run (`diffs[x-1].text += prefix`) or, when the run starts the
vector, into a fresh `Keep` inserted at index 0.  State `(acc, pd, pi, txt)`. -/
def mergePrefixStep (acc : List Diff) (pd pi txt : Str) :
    List Diff × Str × Str × Str :=
  let c1 := diffCommonPrefixLen pi pd
  if c1 ≠ 0 then
    let pre := pi.take c1
    let acc1 :=
      match acc.getLast? with
      | some (Diff.Keep t) => acc.dropLast ++ [Diff.Keep (t ++ pre)]
      | some _ => Diff.Keep pre :: acc
      | none => Diff.Keep pre :: acc
    (acc1, pd.drop c1, pi.drop c1, txt)
  else (acc, pd, pi, txt)

/-- Common-suffix factoring of a pending run (src/dmp.rs lines 1580-1599):
the suffix moves to the front of the `Keep` text that ends the run. -/
def mergeSuffixStep (st1 : List Diff × Str × Str × Str) :
    List Diff × Str × Str × Str :=
  let c2 := diff_common_suffix st1.2.2.1 st1.2.1
  if c2 ≠ 0 then
    let pi1 := st1.2.2.1
    let pd1 := st1.2.1
    (st1.1, pd1.take (pd1.length - c2), pi1.take (pi1.length - c2),
      pi1.drop (pi1.length - c2) ++ st1.2.2.2)
  else st1

/-- Affix factoring runs only when the run mixes deletions and insertions. -/
def mergeRunSt (acc : List Diff) (pd pi txt : Str) (cd ci : Nat) :
    List Diff × Str × Str × Str :=
  if cd > 0 ∧ ci > 0 then mergeSuffixStep (mergePrefixStep acc pd pi txt)
  else (acc, pd, pi, txt)

/-- Replacement of a pending run at a `Keep` with merged, affix-factored
records (the `count_delete + count_insert > 1` branch of pass one). -/
def mergeRunFactor (acc : List Diff) (pd pi txt : Str) (cd ci : Nat) :
    List Diff :=
  let st := mergeRunSt acc pd pi txt cd ci
  let acc2 := if st.2.1 ≠ [] then st.1 ++ [Diff.Delete st.2.1] else st.1
  let acc3 := if st.2.2.1 ≠ [] then acc2 ++ [Diff.Add st.2.2.1] else acc2
  acc3 ++ [Diff.Keep st.2.2.2]

/-- First pass of `diff_cleanup_merge`. -/
def pass1Go : List Diff → Str → Str → List Diff → Nat → Nat → List Diff →
    List Diff
  | acc, _, _, pe, _, _, [] => acc ++ pe
  | acc, pd, pi, pe, cd, ci, Diff.Delete t :: rest =>
      pass1Go acc (pd ++ t) pi (pe ++ [Diff.Delete t]) (cd + 1) ci rest
  | acc, pd, pi, pe, cd, ci, Diff.Add t :: rest =>
      pass1Go acc pd (pi ++ t) (pe ++ [Diff.Add t]) cd (ci + 1) rest
  | acc, pd, pi, pe, cd, ci, Diff.Keep txt :: rest =>
      if cd + ci > 1 then
        pass1Go (mergeRunFactor acc pd pi txt cd ci) [] [] [] 0 0 rest
      else
        let acc2 := acc ++ pe
        match acc2.getLast? with
        | some (Diff.Keep t) =>
            pass1Go (acc2.dropLast ++ [Diff.Keep (t ++ txt)]) [] [] [] 0 0 rest
        | _ => pass1Go (acc2 ++ [Diff.Keep txt]) [] [] [] 0 0 rest

/-- Pass one together with the dummy sentinel `Keep("")` pushed first and, as
in the source, popped at the end when its text stayed empty. -/
def pass1 (diffs : List Diff) : List Diff :=
  let r := pass1Go [] [] [] [] 0 0 (diffs ++ [Diff.Keep []])
  match r.getLast? with
  | some d => if d.text = [] then r.dropLast else r
  | none => r

/-- Second pass of `diff_cleanup_merge`: shift single edits surrounded by
equalities; returns the new vector and the `changes` flag.  Every iteration
strictly decreases `diffs.length - i`, so the fuel passed by
`cleanupMergeGo`, which exceeds that measure, is never exhausted. -/
def pass2Go : Nat → List Diff → Nat → Bool → List Diff × Bool
  | 0, diffs, _, changes => (diffs, changes)
  | fuel + 1, diffs, i, changes =>
  if i + 1 < diffs.length then
    let prev := diffs.getD (i - 1) (Diff.Keep [])
    let cur := diffs.getD i (Diff.Keep [])
    let next := diffs.getD (i + 1) (Diff.Keep [])
    match prev, next with
    | Diff.Keep prevT, Diff.Keep nextT =>
      let textV := cur.text
      if endswith textV prevT then
        let diffs1 :=
          if prevT ≠ [] then
            (diffs.set i
              (cur.with_text (prevT ++ textV.take (textV.length - prevT.length)))).set
              (i + 1) (Diff.Keep (prevT ++ nextT))
          else diffs
        pass2Go fuel (diffs1.eraseIdx (i - 1)) i true
      else if startswith textV nextT then
        let diffs1 := ((diffs.set (i - 1) (Diff.Keep (prevT ++ nextT))).set i
          (cur.with_text (textV.drop nextT.length ++ nextT)))
        pass2Go fuel (diffs1.eraseIdx (i + 1)) (i + 1) true
      else pass2Go fuel diffs (i + 1) changes
    | _, _ => pass2Go fuel diffs (i + 1) changes
  else (diffs, changes)

/-- Size measure that strictly decreases across the tail-recursive re-run of
`diff_cleanup_merge`: total text length plus element count. -/
def mergeMeasure (diffs : List Diff) : Nat :=
  (diffs.map (fun d => d.text.length + 1)).sum

/-- Body of `diff_cleanup_merge` with fuel for the final re-run
(`if changes { self.diff_cleanup_merge(diffs) }`). -/
def cleanupMergeGo : Nat → List Diff → List Diff
  | 0, diffs => diffs
  | fuel + 1, diffs =>
    if diffs.isEmpty then diffs
    else
      let r1 := pass1 diffs
      let p := pass2Go (r1.length + 2) r1 1 false
      if p.2 then cleanupMergeGo fuel p.1 else p.1

/-- `diff_cleanup_merge` (src/dmp.rs lines 1533-1675).  The fuel
`mergeMeasure diffs + 1` is proved sufficient below (`mergeMeasure` strictly
decreases whenever the second pass reports changes). -/
def diff_cleanup_merge (diffs : List Diff) : List Diff :=
  cleanupMergeGo (mergeMeasure diffs + 1) diffs

/-!
## Semantic cleanup family (src/dmp.rs lines 969-1008, 1114-1526)

These functions sit on the `checklines = true` line-mode path and inside
`patch_apply`/`patch_make1`; no claim proves properties of their output, but
they are embedded so that the public entry points are complete.
-/

/-- Growth loop of `diff_common_overlap`: state `(length, best)`. -/
def commonOverlapGo (t1t t2t : Str) (len : Nat) :
    Nat → Nat → Int → Int
  | 0, _, best => best
  | fuel + 1, length, best =>
    let patern := (t1t.take len).drop (len - length)
    match kmp t2t patern 0 with
    | none => best
    | some found =>
      let length1 := length + found
      if found = 0 then
        commonOverlapGo t1t t2t len fuel (length1 + 1) (length1 : Int)
      else commonOverlapGo t1t t2t len fuel length1 best

/-- `diff_common_overlap` (src/dmp.rs lines 969-1008). -/
def diff_common_overlap (text1 text2 : Str) : Int :=
  if text1.length = 0 ∨ text2.length = 0 then 0
  else
    let len := min text1.length text2.length
    let t1t :=
      if text1.length > text2.length then
        text1.drop (text1.length - text2.length)
      else text1
    let t2t :=
      if text1.length > text2.length then text2 else text2.take text1.length
    if t1t = t2t then (len : Int)
    else commonOverlapGo t1t t2t len (len + 2) 1 0

/-- `diff_cleanup_semantic_score` (src/dmp.rs lines 1364-1428).  The Rust
`char::is_alphanumeric`/`is_whitespace` predicates are modelled by Lean's
`Char.isAlphanum`/`Char.isWhitespace` (they agree on ASCII; the scores are
cosmetic and no claim depends on their values). -/
def diff_cleanup_semantic_score (one two : Str) : Int :=
  if one.isEmpty ∨ two.isEmpty then 6
  else
    let char1 := one.getD (one.length - 1) ' '
    let char2 := two.getD 0 ' '
    let nonalphanumeric1 := ¬ char1.isAlphanum
    let nonalphanumeric2 := ¬ char2.isAlphanum
    let whitespace1 := nonalphanumeric1 ∧ char1.isWhitespace
    let whitespace2 := nonalphanumeric2 ∧ char2.isWhitespace
    let linebreak1 := whitespace1 ∧ (char1 = '\r' ∨ char1 = '\n')
    let linebreak2 := whitespace2 ∧ (char2 = '\r' ∨ char2 = '\n')
    let test1 :=
      (one.length > 1 ∧ one.getD (one.length - 1) ' ' = '\n' ∧
        one.getD (one.length - 2) ' ' = '\n') ∨
      (one.length > 2 ∧ one.getD (one.length - 1) ' ' = '\n' ∧
        one.getD (one.length - 3) ' ' = '\n' ∧
        one.getD (one.length - 2) ' ' = '\r')
    let test2 :=
      (two.length > 1 ∧ two.getD (two.length - 1) ' ' = '\n' ∧
        two.getD (two.length - 2) ' ' = '\n') ∨
      (two.length > 2 ∧ two.getD (two.length - 1) ' ' = '\n' ∧
        two.getD (two.length - 3) ' ' = '\n' ∧
        two.getD (two.length - 2) ' ' = '\r')
    if (linebreak1 ∧ test1) ∨ (linebreak2 ∧ test2) then 5
    else if linebreak1 ∨ linebreak2 then 4
    else if nonalphanumeric1 ∧ ¬ whitespace1 ∧ whitespace2 then 3
    else if whitespace1 ∨ whitespace2 then 2
    else if nonalphanumeric1 ∨ nonalphanumeric2 then 1
    else 0

/-- Left shift of an edit over the preceding equality's common suffix
(first step of `diff_cleanup_semantic_lossless`). -/
def losslessShift (eq1 edit eq2 : Str) : Str × Str × Str :=
  let co := diff_common_suffix eq1 edit
  if co ≠ 0 then
    let common := edit.drop (edit.length - co)
    (eq1.take (eq1.length - co), common ++ edit.take (edit.length - co),
      common ++ eq2)
  else (eq1, edit, eq2)

/-- Character-by-character right stepping of
`diff_cleanup_semantic_lossless`, tracking the best scoring split. -/
def losslessBestGo : Nat → Str → Str → Str → Int × Str × Str × Str →
    Int × Str × Str × Str
  | 0, _, _, _, best => best
  | fuel + 1, eq1, edit, eq2, best =>
    match edit, eq2 with
    | e0 :: _, q0 :: eq2tl =>
      if e0 = q0 then
        let eq1' := eq1 ++ [e0]
        let edit' := edit.tail ++ [e0]
        let score := diff_cleanup_semantic_score eq1' edit' +
          diff_cleanup_semantic_score edit' eq2tl
        let best' := if score ≥ best.1 then (score, eq1', edit', eq2tl) else best
        losslessBestGo fuel eq1' edit' eq2tl best'
      else best
    | _, _ => best

/-- Outer loop of `diff_cleanup_semantic_lossless`.  Every iteration strictly
decreases `diffs.length - pointer` (removals shift `pointer` down by exactly
as much as they shorten the vector), so the fuel passed by the wrapper, which
exceeds the initial value of that measure, is never exhausted. -/
def losslessGo : Nat → List Diff → Nat → List Diff
  | 0, diffs, _ => diffs
  | fuel + 1, diffs, pointer =>
  if pointer + 1 < diffs.length then
    match diffs.getD (pointer - 1) (Diff.Keep []), diffs.getD (pointer + 1) (Diff.Keep []) with
    | Diff.Keep prevT, Diff.Keep nextT =>
      let cur := diffs.getD pointer (Diff.Keep [])
      let s := losslessShift prevT cur.text nextT
      let e1 := s.1
      let ed := s.2.1
      let e2 := s.2.2
      let initScore := diff_cleanup_semantic_score e1 ed +
        diff_cleanup_semantic_score ed e2
      let b := losslessBestGo e2.length e1 ed e2 (initScore, e1, ed, e2)
      let be1 := b.2.1
      let bed := b.2.2.1
      let be2 := b.2.2.2
      if prevT ≠ be1 then
        let st1 :=
          if be1 ≠ [] then
            (diffs.set (pointer - 1)
              ((diffs.getD (pointer - 1) (Diff.Keep [])).with_text be1), pointer)
          else (diffs.eraseIdx (pointer - 1), pointer - 1)
        let d1 := st1.1
        let p1 := st1.2
        let d2 := d1.set p1 ((d1.getD p1 (Diff.Keep [])).with_text bed)
        let st3 :=
          if be2 ≠ [] then
            (d2.set (p1 + 1) ((d2.getD (p1 + 1) (Diff.Keep [])).with_text be2), p1)
          else (d2.eraseIdx (p1 + 1), p1 + 1)
        losslessGo fuel st3.1 (st3.2 + 1)
      else losslessGo fuel diffs (pointer + 1)
    | _, _ => losslessGo fuel diffs (pointer + 1)
  else diffs

/-- `diff_cleanup_semantic_lossless` (src/dmp.rs lines 1258-1351). -/
def diff_cleanup_semantic_lossless (diffs : List Diff) : List Diff :=
  losslessGo (diffs.length + 2) diffs 1

/-- Main loop of `diff_cleanup_semantic` (src/dmp.rs lines 1130-1189).
State: the vector, the stack of equality indices, the last equality's text,
the four byte counts of edits around it (the source adds `txt.len()`, i.e.
UTF-8 bytes), the `i32` pointer and the `changes` flag.  The loop can rewind
the pointer to an earlier equality, hence the fuel; its semantics are only
used definitionally. -/
def semGo : Nat → List Diff → List Int → Str → Nat → Nat → Nat → Nat →
    Int → Bool → List Diff × Bool
  | 0, diffs, _, _, _, _, _, _, _, changes => (diffs, changes)
  | fuel + 1, diffs, eqs, lastEq, li1, ld1, li2, ld2, pointer, changes =>
    if 0 ≤ pointer ∧ pointer.toNat < diffs.length then
      match diffs.getD pointer.toNat (Diff.Keep []) with
      | Diff.Keep txt =>
          semGo fuel diffs (eqs ++ [pointer]) txt li2 ld2 0 0 (pointer + 1)
            changes
      | d =>
        let li2' := if d.isAdd then li2 + utf8Len d.text else li2
        let ld2' := if d.isDelete then ld2 + utf8Len d.text else ld2
        let lastLen := lastEq.length
        if lastLen > 0 ∧ lastLen ≤ max li1 ld1 ∧ lastLen ≤ max li2' ld2' then
          let idx := (eqs.getLastD 0).toNat
          let diffs1 := diffs.insertIdx idx (Diff.Delete lastEq)
          let diffs2 := diffs1.set (idx + 1)
            (Diff.Add ((diffs1.getD (idx + 1) (Diff.Keep [])).text))
          let eqs1 := eqs.dropLast
          let eqs2 := if eqs1 ≠ [] then eqs1.dropLast else eqs1
          let pointer' := eqs2.getLastD (-1)
          semGo fuel diffs2 eqs2 [] 0 0 0 0 (pointer' + 1) true
        else semGo fuel diffs eqs lastEq li1 ld1 li2' ld2' (pointer + 1) changes
    else (diffs, changes)

/-- Final overlap pass of `diff_cleanup_semantic`
(src/dmp.rs lines 1196-1249). -/
def semOverlapGo : Nat → List Diff → Nat → List Diff
  | 0, diffs, _ => diffs
  | fuel + 1, diffs, pointer =>
    if pointer < diffs.length then
      match diffs.getD (pointer - 1) (Diff.Keep []),
        diffs.getD pointer (Diff.Keep []) with
      | Diff.Delete delT, Diff.Add insT =>
        let o1 := diff_common_overlap delT insT
        let o2 := diff_common_overlap insT delT
        if o1 ≥ o2 then
          if fle (F32.mk delT.length 2) (F32.mk o1 1) ∨
              fle (F32.mk insT.length 2) (F32.mk o1 1) then
            let k := o1.toNat
            let diffs1 := diffs.insertIdx pointer (Diff.Keep (insT.take k))
            let diffs2 := diffs1.set (pointer - 1)
              (Diff.Delete (delT.take (delT.length - k)))
            let diffs3 := diffs2.set (pointer + 1) (Diff.Add (insT.drop k))
            semOverlapGo fuel diffs3 (pointer + 3)
          else semOverlapGo fuel diffs (pointer + 2)
        else
          if fle (F32.mk delT.length 2) (F32.mk o2 1) ∨
              fle (F32.mk insT.length 2) (F32.mk o2 1) then
            let k := o2.toNat
            let diffs1 := diffs.insertIdx pointer (Diff.Keep (delT.take k))
            let diffs2 := diffs1.set (pointer - 1)
              (Diff.Add (insT.take (insT.length - k)))
            let diffs3 := diffs2.set (pointer + 1) (Diff.Delete (delT.drop k))
            semOverlapGo fuel diffs3 (pointer + 3)
          else semOverlapGo fuel diffs (pointer + 2)
      | _, _ => semOverlapGo fuel diffs (pointer + 1)
    else diffs

/-- `diff_cleanup_semantic` (src/dmp.rs lines 1119-1250). -/
def diff_cleanup_semantic (diffs : List Diff) : List Diff :=
  let r := semGo ((diffs.length + 2) * (diffs.length + 2)) diffs [] [] 0 0 0 0
    0 false
  let diffs1 := if r.2 then diff_cleanup_merge r.1 else r.1
  let diffs2 := diff_cleanup_semantic_lossless diffs1
  semOverlapGo (diffs2.length + 2) diffs2 1

/-- Main loop of `diff_cleanup_efficiency` (src/dmp.rs lines 1447-1522).
State mirrors the source: equality stack, last equality text, the four
pre/post edit flags, pointer and changes flag. -/
def effGo (cfg : Config) : Nat → List Diff → List Int → Str →
    Bool → Bool → Bool → Bool → Int → Bool → List Diff × Bool
  | 0, diffs, _, _, _, _, _, _, _, changes => (diffs, changes)
  | fuel + 1, diffs, eqs, lastEq, preIns, preDel, postIns, postDel, pointer,
      changes =>
    if 0 ≤ pointer ∧ pointer.toNat < diffs.length then
      match diffs.getD pointer.toNat (Diff.Keep []) with
      | Diff.Keep txt =>
        if utf8Len txt < cfg.edit_cost ∧ (postDel ∨ postIns) then
          effGo cfg fuel diffs (eqs ++ [pointer]) txt postIns postDel false
            false (pointer + 1) changes
        else
          effGo cfg fuel diffs [] [] preIns preDel false false (pointer + 1)
            changes
      | d =>
        let postDel' := if d.isDelete then true else postDel
        let postIns' := if d.isDelete then postIns else true
        if lastEq ≠ [] ∧ ((preIns ∧ preDel ∧ postDel' ∧ postIns') ∨
            (lastEq.length < cfg.edit_cost / 2 ∧
              ((if preIns then 1 else 0) + (if preDel then 1 else 0) +
                (if postDel' then 1 else 0) + (if postIns' then 1 else 0) :
                Nat) = 3)) then
          let idx := (eqs.getLastD 0).toNat
          let diffs1 := diffs.insertIdx idx (Diff.Delete lastEq)
          let diffs2 := diffs1.set (idx + 1)
            (Diff.Add ((diffs1.getD (idx + 1) (Diff.Keep [])).text))
          let eqs1 := eqs.dropLast
          if preIns ∧ preDel then
            effGo cfg fuel diffs2 [] [] preIns preDel true true (pointer + 1)
              true
          else
            let eqs2 := if eqs1 ≠ [] then eqs1.dropLast else eqs1
            let pointer' := eqs2.getLastD (-1)
            effGo cfg fuel diffs2 eqs2 [] preIns preDel false false
              (pointer' + 1) true
        else
          effGo cfg fuel diffs eqs lastEq preIns preDel postIns' postDel'
            (pointer + 1) changes
    else (diffs, changes)

/-- `diff_cleanup_efficiency` (src/dmp.rs lines 1435-1526). -/
def diff_cleanup_efficiency (cfg : Config) (diffs : List Diff) : List Diff :=
  if diffs.isEmpty then diffs
  else
    let r := effGo cfg ((diffs.length + 2) * (diffs.length + 2)) diffs [] []
      false false false false 0 false
    if r.2 then diff_cleanup_merge r.1 else r.1

/-!
## Line tokenization (src/dmp.rs lines 818-907)

`diff_lines_tochars_munge` maps each line to a single scalar: index into
`linearray`, shifted past the surrogate block (`+ 2048` when the raw index
reaches 55296).  `diff_chars_tolines` then indexes `linearray` directly with
the scalar value — without undoing the shift; the Rust code panics
(index out of range) as soon as a shifted token is present, which the total
model renders as an empty-text lookup (`getD _ []`). -/

/-- Lookup in the line hash, modelled as an association list. -/
def hashFind (linehash : List (Str × Int)) (line : Str) : Option Int :=
  (linehash.find? (fun p => p.1 = line)).map Prod.snd

/-- The scan loop of `diff_lines_tochars_munge`. -/
def mungeGo : Nat → Str → Str → List Str → List (Str × Int) → Nat →
    Str × List Str × List (Str × Int)
  | 0, _, chars, linearray, linehash, _ => (chars, linearray, linehash)
  | fuel + 1, text, chars, linearray, linehash, line_start =>
    if line_start < text.length then
      let line_end : Int :=
        match find_char '\n' text line_start with
        | -1 => (text.length : Int) - 1
        | e => e
      let line := (text.take (line_end.toNat + 1)).drop line_start
      match hashFind linehash line with
      | some code =>
          mungeGo fuel text (chars ++ [Char.ofNat code.toNat]) linearray
            linehash (line_end.toNat + 1)
      | none =>
          let u32char : Int :=
            if (linearray.length : Int) ≥ 55296 then
              (linearray.length : Int) + 2048
            else (linearray.length : Int)
          let stop := u32char = 1114111
          let line1 := if stop then text.drop line_start else line
          let nextStart := if stop then text.length else line_end.toNat + 1
          mungeGo fuel text (chars ++ [Char.ofNat u32char.toNat])
            (linearray ++ [line1]) (linehash ++ [(line1, u32char)]) nextStart
    else (chars, linearray, linehash)

/-- `diff_lines_tochars_munge` (src/dmp.rs lines 840-889). -/
def diff_lines_tochars_munge (text : Str) (linearray : List Str)
    (linehash : List (Str × Int)) : Str × List Str × List (Str × Int) :=
  mungeGo (text.length + 2) text [] linearray linehash 0

/-- `diff_lines_tochars` (src/dmp.rs lines 818-829). -/
def diff_lines_tochars (text1 text2 : Str) : Str × Str × List Str :=
  let r1 := diff_lines_tochars_munge text1 [[]] []
  let r2 := diff_lines_tochars_munge text2 r1.2.1 r1.2.2
  (r1.1, r2.1, r2.2.1)

/-- `diff_chars_tolines` (src/dmp.rs lines 897-907): substitute each token
scalar by `line_array[token]`.  The Rust indexing panics when the token was
shifted past the surrogate block; the model returns `[]` there. -/
def diff_chars_tolines (diffs : List Diff) (line_array : List Str) :
    List Diff :=
  diffs.map (fun d =>
    d.with_text ((d.text.map (fun c => line_array.getD c.toNat [])).flatten))

/-!
## Half match (src/dmp.rs lines 1022-1113)
-/

/-- Occurrence loop of `diff_half_matchi`: the internal best tuple is
`(common, longtext_a, longtext_b, shorttext_a, shorttext_b)`. -/
def halfMatchIGo (long_text short_text seed : Str) (i : Nat) :
    Nat → Nat → Str × Str × Str × Str × Str → Str × Str × Str × Str × Str
  | 0, _, best => best
  | fuel + 1, jstart, best =>
    match kmp short_text seed jstart with
    | none => best
    | some j =>
      let pl := diffCommonPrefixLen (long_text.drop i) (short_text.drop j)
      let sl := diff_common_suffix (long_text.take i) (short_text.take j)
      let best' :=
        if utf8Len best.1 < sl + pl then
          ((short_text.take (j + pl)).drop (j - sl),
            long_text.take (i - sl), long_text.drop (i + pl),
            short_text.take (j - sl), short_text.drop (j + pl))
        else best
      halfMatchIGo long_text short_text seed i fuel (j + 1) best'

/-- `diff_half_matchi` (src/dmp.rs lines 1075-1113); result tuple ordered as
in the source: `(longtext_a, longtext_b, shorttext_a, shorttext_b, common)`. -/
def diff_half_matchi (long_text short_text : Str) (i : Nat) :
    Option (Str × Str × Str × Str × Str) :=
  let seed := (long_text.take (i + long_text.length / 4)).drop i
  let b := halfMatchIGo long_text short_text seed i (short_text.length + 2) 0
    ([], [], [], [], [])
  if b.1.length * 2 ≥ long_text.length then
    some (b.2.1, b.2.2.1, b.2.2.2.1, b.2.2.2.2, b.1)
  else none

/-- `diff_half_match` (src/dmp.rs lines 1022-1060).  `self.diff_timeout?`
makes the whole heuristic return `None` when no deadline is configured. -/
def diff_half_match (cfg : Config) (text1 text2 : Str) :
    Option (Str × Str × Str × Str × Str) :=
  match cfg.diff_timeout with
  | none => none
  | some _ =>
    let long_text := if text1.length > text2.length then text1 else text2
    let short_text := if text1.length > text2.length then text2 else text1
    if long_text.length < 4 ∨ short_text.length * 2 < long_text.length then
      none
    else
      let hm1 := diff_half_matchi long_text short_text
        ((long_text.length + 3) / 4)
      let hm2 := diff_half_matchi long_text short_text
        ((long_text.length + 1) / 2)
      let hm :=
        match hm1, hm2 with
        | none, none => none
        | none, some h2 => some h2
        | some h1, none => some h1
        | some h1, some h2 =>
          if utf8Len h1.2.2.2.2 > utf8Len h2.2.2.2.2 then some h1 else some h2
      match hm with
      | none => none
      | some h =>
        if text1.length > text2.length then some h
        else some (h.2.2.1, h.2.2.2.1, h.1, h.2.1, h.2.2.2.2)

/-!
## Bisect (src/dmp.rs lines 563-737)

The Myers middle-snake search.  The embedding mirrors the `i32` index
arithmetic of the source, including its Python-inherited negative-index
fallbacks in the snake loops.  Reads of the `v1`/`v2` arrays use `-1` as the
out-of-range default (their fill value).  The search itself only determines
*where* the problem is split; the reconstruction theorems do not depend on
the computed split point.
-/

/-- Read of a `v` array at an `i32` index. -/
def vGet (v : List Int) (i : Int) : Int := v.getD i.toNat (-1)

/-- Forward snake extension (src/dmp.rs lines 617-625). -/
def snakeFwd (c1 c2 : Str) (len1 len2 : Int) :
    Nat → Int → Int → Int × Int
  | 0, x1, y1 => (x1, y1)
  | fuel + 1, x1, y1 =>
    if x1 < len1 ∧ y1 < len2 then
      let i1 := if x1 < 0 then len1 + x1 else x1
      let i2 := if y1 < 0 then len2 + y1 else y1
      if c1.getD i1.toNat ' ' = c2.getD i2.toNat ' ' then
        snakeFwd c1 c2 len1 len2 fuel (x1 + 1) (y1 + 1)
      else (x1, y1)
    else (x1, y1)

/-- Reverse snake extension (src/dmp.rs lines 659-675). -/
def snakeRev (c1 c2 : Str) (len1 len2 : Int) :
    Nat → Int → Int → Int × Int
  | 0, x2, y2 => (x2, y2)
  | fuel + 1, x2, y2 =>
    if x2 < len1 ∧ y2 < len2 then
      let i1 := if len1 - x2 > 0 then len1 - x2 - 1 else x2 + 1
      let i2 := if len2 - y2 > 0 then len2 - y2 - 1 else y2 + 1
      if c1.getD i1.toNat ' ' = c2.getD i2.toNat ' ' then
        snakeRev c1 c2 len1 len2 fuel (x2 + 1) (y2 + 1)
      else (x2, y2)
    else (x2, y2)

/-- One walk of the front path (src/dmp.rs lines 600-645): either an overlap
split point or the updated `(v1, k1start, k1end)`. -/
def bisectFrontK (c1 c2 : Str) (len1 len2 v_offset v_length delta : Int)
    (front : Bool) (d : Int) (v2 : List Int) :
    Nat → Int → List Int → Int → Int →
    Sum (Int × Int) (List Int × Int × Int)
  | 0, _, v1, k1start, k1end => Sum.inr (v1, k1start, k1end)
  | fuel + 1, k1, v1, k1start, k1end =>
    if k1 < d + 1 - k1end then
      let k1_offset := v_offset + k1
      let x1 :=
        if k1 = -d ∨ (k1 ≠ d ∧
            vGet v1 (k1_offset - 1) < vGet v1 (k1_offset + 1)) then
          vGet v1 (k1_offset + 1)
        else vGet v1 (k1_offset - 1) + 1
      let s := snakeFwd c1 c2 len1 len2 (len1 + len2 + 2).toNat x1 (x1 - k1)
      let x1' := s.1
      let y1' := s.2
      let v1' := v1.set k1_offset.toNat x1'
      if x1' > len1 then
        bisectFrontK c1 c2 len1 len2 v_offset v_length delta front d v2 fuel
          (k1 + 2) v1' k1start (k1end + 2)
      else if y1' > len2 then
        bisectFrontK c1 c2 len1 len2 v_offset v_length delta front d v2 fuel
          (k1 + 2) v1' (k1start + 2) k1end
      else if front then
        let k2_offset := v_offset + delta - k1
        if 0 ≤ k2_offset ∧ k2_offset < v_length ∧
            vGet v2 k2_offset ≠ -1 then
          let x2 := len1 - vGet v2 k2_offset
          if x1' ≥ x2 then Sum.inl (x1', y1')
          else
            bisectFrontK c1 c2 len1 len2 v_offset v_length delta front d v2
              fuel (k1 + 2) v1' k1start k1end
        else
          bisectFrontK c1 c2 len1 len2 v_offset v_length delta front d v2
            fuel (k1 + 2) v1' k1start k1end
      else
        bisectFrontK c1 c2 len1 len2 v_offset v_length delta front d v2 fuel
          (k1 + 2) v1' k1start k1end
    else Sum.inr (v1, k1start, k1end)

/-- One walk of the reverse path (src/dmp.rs lines 646-697). -/
def bisectRevK (c1 c2 : Str) (len1 len2 v_offset v_length delta : Int)
    (front : Bool) (d : Int) (v1 : List Int) :
    Nat → Int → List Int → Int → Int →
    Sum (Int × Int) (List Int × Int × Int)
  | 0, _, v2, k2start, k2end => Sum.inr (v2, k2start, k2end)
  | fuel + 1, k2, v2, k2start, k2end =>
    if k2 < d + 1 - k2end then
      let k2_offset := v_offset + k2
      let x2 :=
        if k2 = -d ∨ (k2 ≠ d ∧
            vGet v2 (k2_offset - 1) < vGet v2 (k2_offset + 1)) then
          vGet v2 (k2_offset + 1)
        else vGet v2 (k2_offset - 1) + 1
      let s := snakeRev c1 c2 len1 len2 (len1 + len2 + 2).toNat x2 (x2 - k2)
      let x2' := s.1
      let y2' := s.2
      let v2' := v2.set k2_offset.toNat x2'
      if x2' > len1 then
        bisectRevK c1 c2 len1 len2 v_offset v_length delta front d v1 fuel
          (k2 + 2) v2' k2start (k2end + 2)
      else if y2' > len2 then
        bisectRevK c1 c2 len1 len2 v_offset v_length delta front d v1 fuel
          (k2 + 2) v2' (k2start + 2) k2end
      else if front then
        bisectRevK c1 c2 len1 len2 v_offset v_length delta front d v1 fuel
          (k2 + 2) v2' k2start k2end
      else
        let k1_offset := v_offset + delta - k2
        if 0 ≤ k1_offset ∧ k1_offset < v_length ∧
            vGet v1 k1_offset ≠ -1 then
          let x1 := vGet v1 k1_offset
          let y1 := v_offset + x1 - k1_offset
          let x2m := len1 - x2'
          if x1 ≥ x2m then Sum.inl (x1, y1)
          else
            bisectRevK c1 c2 len1 len2 v_offset v_length delta front d v1
              fuel (k2 + 2) v2' k2start k2end
        else
          bisectRevK c1 c2 len1 len2 v_offset v_length delta front d v1 fuel
            (k2 + 2) v2' k2start k2end
    else Sum.inr (v2, k2start, k2end)

/-- The `d` loop of `diff_bisect` (src/dmp.rs lines 592-698): `some (x, y)`
when an overlap split was found, `none` for the no-commonality (or expired
deadline) fallback. -/
def bisectD (cfg : Config) (clock : Nat → Bool) (c1 c2 : Str)
    (len1 len2 max_d v_offset v_length delta : Int) (front : Bool) :
    Nat → Int → List Int → List Int → Int → Int → Int → Int →
    Option (Int × Int)
  | 0, _, _, _, _, _, _, _ => none
  | fuel + 1, d, v1, v2, k1start, k1end, k2start, k2end =>
    if d < max_d then
      if cfg.diff_timeout.isSome ∧ clock d.toNat then none
      else
        match bisectFrontK c1 c2 len1 len2 v_offset v_length delta front d v2
          (d + 2).toNat (-d + k1start) v1 k1start k1end with
        | Sum.inl xy => some xy
        | Sum.inr st1 =>
          match bisectRevK c1 c2 len1 len2 v_offset v_length delta front d
            st1.1 (d + 2).toNat (-d + k2start) v2 k2start k2end with
          | Sum.inl xy => some xy
          | Sum.inr st2 =>
            bisectD cfg clock c1 c2 len1 len2 max_d v_offset v_length delta
              front fuel (d + 1) st1.1 st2.1 st1.2.1 st1.2.2 st2.2.1 st2.2.2
    else none

/-- Re-diff loop of `diff_linemode_internal` (src/dmp.rs lines 501-549),
parameterised by the character-level sub-diff function. -/
def linemodeRediffGo (subdiff : Str → Str → List Diff) :
    List Diff → Nat → Nat → Str → Str → List Diff → List Diff
  | [], _, _, _, _, temp => temp
  | Diff.Add t :: rest, cd, ci, td, ti, temp =>
      linemodeRediffGo subdiff rest cd (ci + 1) td (ti ++ t) temp
  | Diff.Delete t :: rest, cd, ci, td, ti, temp =>
      linemodeRediffGo subdiff rest (cd + 1) ci (td ++ t) ti temp
  | Diff.Keep t :: rest, cd, ci, td, ti, temp =>
      if cd ≥ 1 ∧ ci ≥ 1 then
        linemodeRediffGo subdiff rest 0 0 [] []
          (temp ++ subdiff td ti ++ [Diff.Keep t])
      else
        linemodeRediffGo subdiff rest 0 0 [] []
          (temp ++ (if td ≠ [] then [Diff.Delete td] else []) ++
            (if ti ≠ [] then [Diff.Add ti] else []) ++ [Diff.Keep t])

mutual

/-- `diff_main_internal` (src/dmp.rs lines 213-265), with fuel for the
mutual recursion; exhausted fuel returns the same coarse
`[Delete text1, Add text2]` fallback that an expired deadline produces. -/
def diff_main_internal (cfg : Config) (clock : Nat → Bool) :
    Nat → Str → Str → Bool → List Diff
  | 0, text1, text2, _ => [Diff.Delete text1, Diff.Add text2]
  | fuel + 1, text1, text2, checklines =>
    if text1.isEmpty ∧ text2.isEmpty then []
    else if text1.isEmpty then [Diff.Add text2]
    else if text2.isEmpty then [Diff.Delete text1]
    else if text1 = text2 then [Diff.Keep text1]
    else
      let commonlength := diffCommonPrefixLen text1 text2
      let commonprefix := text1.take commonlength
      let t1 := text1.drop commonlength
      let t2 := text2.drop commonlength
      let sl := diff_common_suffix t1 t2
      let commonsuffix := t1.drop (t1.length - sl)
      let t1' := t1.take (t1.length - sl)
      let t2' := t2.take (t2.length - sl)
      let middle := diff_compute cfg clock fuel t1' t2' checklines
      diff_cleanup_merge
        ((if commonprefix ≠ [] then [Diff.Keep commonprefix] else []) ++
          middle ++
          (if commonsuffix ≠ [] then [Diff.Keep commonsuffix] else []))

/-- `diff_compute` (src/dmp.rs lines 279-356). -/
def diff_compute (cfg : Config) (clock : Nat → Bool) :
    Nat → Str → Str → Bool → List Diff
  | 0, t1, t2, _ => [Diff.Delete t1, Diff.Add t2]
  | fuel + 1, t1, t2, checklines =>
    if t1.isEmpty then [Diff.Add t2]
    else if t2.isEmpty then [Diff.Delete t1]
    else
      let longtext := if t1.length ≥ t2.length then t1 else t2
      let shorttext := if t1.length ≥ t2.length then t2 else t1
      match kmp longtext shorttext 0 with
      | some i =>
        if t1.length > t2.length then
          (if i ≠ 0 then [Diff.Delete (t1.take i)] else []) ++
            [Diff.Keep t2] ++
            (if i + t2.length ≠ t1.length then
              [Diff.Delete (t1.drop (i + t2.length))] else [])
        else
          (if i ≠ 0 then [Diff.Add (t2.take i)] else []) ++
            [Diff.Keep t1] ++
            (if i + t1.length ≠ t2.length then
              [Diff.Add (t2.drop (i + t1.length))] else [])
      | none =>
        if shorttext.length = 1 then [Diff.Delete t1, Diff.Add t2]
        else
          match diff_half_match cfg t1 t2 with
          | some hm =>
            let diffs_a := diff_main_internal cfg clock fuel hm.1 hm.2.2.1
              checklines
            let diffs_b := diff_main_internal cfg clock fuel hm.2.1
              hm.2.2.2.1 checklines
            diffs_a ++ [Diff.Keep hm.2.2.2.2] ++ diffs_b
          | none =>
            if checklines ∧ t1.length > 100 ∧ t2.length > 100 then
              diff_linemode_internal cfg clock fuel t1 t2
            else diff_bisect_internal cfg clock fuel t1 t2

/-- `diff_bisect_internal` (src/dmp.rs lines 567-704). -/
def diff_bisect_internal (cfg : Config) (clock : Nat → Bool) :
    Nat → Str → Str → List Diff
  | 0, c1, c2 => [Diff.Delete c1, Diff.Add c2]
  | fuel + 1, c1, c2 =>
    let len1 : Int := c1.length
    let len2 : Int := c2.length
    let max_d : Int := (len1 + len2 + 1) / 2
    let v_offset := max_d
    let v_length := 2 * max_d
    let v1 := (List.replicate v_length.toNat (-1 : Int)).set
      (v_offset + 1).toNat 0
    let v2 := (List.replicate v_length.toNat (-1 : Int)).set
      (v_offset + 1).toNat 0
    let delta := len1 - len2
    let front := delta % 2 ≠ 0
    match bisectD cfg clock c1 c2 len1 len2 max_d v_offset v_length delta
      front (max_d.toNat + 1) 0 v1 v2 0 0 0 0 with
    | some xy => diff_bisect_split cfg clock fuel c1 c2 xy.1 xy.2
    | none => [Diff.Delete c1, Diff.Add c2]

/-- `diff_bisect_split` (src/dmp.rs lines 717-737). -/
def diff_bisect_split (cfg : Config) (clock : Nat → Bool) :
    Nat → Str → Str → Int → Int → List Diff
  | 0, c1, c2, _, _ => [Diff.Delete c1, Diff.Add c2]
  | fuel + 1, c1, c2, x, y =>
    diff_main_internal cfg clock fuel (c1.take x.toNat) (c2.take y.toNat)
      false ++
    diff_main_internal cfg clock fuel (c1.drop x.toNat) (c2.drop y.toNat)
      false

/-- `diff_linemode_internal` (src/dmp.rs lines 481-551); the inner surrogate
diff runs with `Dmp::default()` as in the source. -/
def diff_linemode_internal (cfg : Config) (clock : Nat → Bool) :
    Nat → Str → Str → List Diff
  | 0, t1, t2 => [Diff.Delete t1, Diff.Add t2]
  | fuel + 1, t1, t2 =>
    let r := diff_lines_tochars t1 t2
    let diffs0 := diff_main_internal dmpDefault clock fuel r.1 r.2.1 false
    let diffs1 := diff_chars_tolines diffs0 r.2.2
    let diffs2 := diff_cleanup_semantic diffs1
    (linemodeRediffGo
      (fun a b => diff_main_internal cfg clock fuel a b false)
      (diffs2 ++ [Diff.Keep []]) 0 0 [] [] []).dropLast

end

/-- Canonical fuel for the public diff entry points: the recursion depth of
the Rust implementation is bounded by the combined text length. -/
def diffFuel (text1 text2 : Str) : Nat := text1.length + text2.length + 4

/-- `diff_main` (src/dmp.rs lines 209-211): public entry point; the fresh
`Instant::now()` start time is modelled by the clock that never reports the
deadline as expired. -/
def diff_main (cfg : Config) (text1 text2 : Str) (checklines : Bool) :
    List Diff :=
  diff_main_internal cfg (fun _ => false) (diffFuel text1 text2) text1 text2
    checklines

/-!
## Percent encoding and UTF helpers

The percent-encoding primitive is the external collaborator of the library
(the `url` crate's `utf8_percent_encode` / `percent_decode` with
`USERINFO_ENCODE_SET`); it is modelled here byte-for-byte: encoding replaces
every UTF-8 byte of a character in the encode set by an uppercase `%XX`
escape, decoding replaces every valid `%XX` triple by its byte and passes
everything else through unchanged.
-/

/-- UTF-8 bytes of a scalar value. -/
def utf8Bytes (c : Char) : List Nat :=
  let n := c.toNat
  if n < 128 then [n]
  else if n < 2048 then [192 + n / 64, 128 + n % 64]
  else if n < 65536 then
    [224 + n / 4096, 128 + (n / 64) % 64, 128 + n % 64]
  else
    [240 + n / 262144, 128 + (n / 4096) % 64, 128 + (n / 64) % 64,
      128 + n % 64]

/-- UTF-8 bytes of a text (`str::as_bytes`). -/
def strBytes (s : Str) : List Nat := s.flatMap utf8Bytes

/-- Strict UTF-8 decoding of one scalar: returns the scalar and the rest,
rejecting truncated sequences, continuation errors, overlong forms,
surrogates and out-of-range values, as Rust's `str::from_utf8` does. -/
def utf8DecodeOne : List Nat → Option (Nat × List Nat)
  | [] => none
  | b0 :: bs =>
    if b0 < 128 then some (b0, bs)
    else if b0 < 192 then none
    else if b0 < 224 then
      match bs with
      | b1 :: bs1 =>
        if 128 ≤ b1 ∧ b1 < 192 then
          let n := (b0 - 192) * 64 + (b1 - 128)
          if 128 ≤ n then some (n, bs1) else none
        else none
      | _ => none
    else if b0 < 240 then
      match bs with
      | b1 :: b2 :: bs2 =>
        if (128 ≤ b1 ∧ b1 < 192) ∧ (128 ≤ b2 ∧ b2 < 192) then
          let n := (b0 - 224) * 4096 + (b1 - 128) * 64 + (b2 - 128)
          if 2048 ≤ n ∧ (n < 55296 ∨ 57344 ≤ n) then some (n, bs2) else none
        else none
      | _ => none
    else if b0 < 248 then
      match bs with
      | b1 :: b2 :: b3 :: bs3 =>
        if (128 ≤ b1 ∧ b1 < 192) ∧ (128 ≤ b2 ∧ b2 < 192) ∧
            (128 ≤ b3 ∧ b3 < 192) then
          let n := (b0 - 240) * 262144 + (b1 - 128) * 4096 +
            (b2 - 128) * 64 + (b3 - 128)
          if 65536 ≤ n ∧ n < 1114112 then some (n, bs3) else none
        else none
      | _ => none
    else none

/-- Strict UTF-8 decoding of a byte sequence (with fuel: each step consumes
at least one byte). -/
def utf8DecodeGo : Nat → List Nat → Option Str
  | _, [] => some []
  | 0, _ => none
  | fuel + 1, bs =>
    match utf8DecodeOne bs with
    | none => none
    | some nr =>
      match utf8DecodeGo fuel nr.2 with
      | none => none
      | some s => some (Char.ofNat nr.1 :: s)

/-- `String::from_utf8` / `decode_utf8`. -/
def utf8Decode (bs : List Nat) : Option Str := utf8DecodeGo (bs.length + 1) bs

/-- Uppercase hex digit. -/
def hexDigit (n : Nat) : Char :=
  if n < 10 then Char.ofNat (48 + n) else Char.ofNat (55 + n)

/-- `%XX` escape of one byte. -/
def byteHex (b : Nat) : Str := ['%', hexDigit (b / 16), hexDigit (b % 16)]

/-- Value of one hex digit (either case), as the decoder accepts. -/
def hexVal (c : Char) : Option Nat :=
  let n := c.toNat
  if 48 ≤ n ∧ n ≤ 57 then some (n - 48)
  else if 65 ≤ n ∧ n ≤ 70 then some (n - 55)
  else if 97 ≤ n ∧ n ≤ 102 then some (n - 87)
  else none

/-- The url crate's `USERINFO_ENCODE_SET`: C0 controls, non-ASCII, and the
listed ASCII punctuation (`{`/`}` written numerically: 123 and 125). -/
def inUserinfoSet (c : Char) : Bool :=
  let n := c.toNat
  n < 32 ∨ n > 126 ∨ n = 123 ∨ n = 125 ∨
    c ∈ [' ', '"', '#', '<', '>', '?', '`', '/', ':', ';', '=', '@', '[',
      '\\', ']', '^', '|']

/-- `utf8_percent_encode` of a single character with `USERINFO_ENCODE_SET`:
characters in the set are replaced by the escapes of their UTF-8 bytes. -/
def utf8PercentEncodeChar (c : Char) : Str :=
  if inUserinfoSet c then (utf8Bytes c).flatMap byteHex else [c]

/-- Lenient `percent_decode` on bytes: every valid `%XX` triple becomes its
byte, anything else passes through. -/
def percentDecodeBytes : List Nat → List Nat
  | [] => []
  | 37 :: h1 :: h2 :: bs =>
    match hexVal (Char.ofNat h1), hexVal (Char.ofNat h2) with
    | some v1, some v2 => (v1 * 16 + v2) :: percentDecodeBytes bs
    | _, _ => 37 :: percentDecodeBytes (h1 :: h2 :: bs)
  | b :: bs => b :: percentDecodeBytes bs

/-- `percent_decode(s.as_bytes()).decode_utf8()`. -/
def percentDecodeStr (s : Str) : Option Str :=
  utf8Decode (percentDecodeBytes (strBytes s))

/-- UTF-16 code units of a text (`str::encode_utf16`). -/
def utf16Units (s : Str) : List Nat :=
  s.flatMap (fun c =>
    let n := c.toNat
    if n < 65536 then [n]
    else [55296 + (n - 65536) / 1024, 56320 + (n - 65536) % 1024])

/-- UTF-16 code-unit length of a text. -/
def utf16Len (s : Str) : Nat := (utf16Units s).length

/-- `String::from_utf16`: fails on lone surrogates. -/
def utf16Decode : List Nat → Option Str
  | [] => some []
  | u :: us =>
    if u < 55296 ∨ 57344 ≤ u then
      match utf16Decode us with
      | some s => some (Char.ofNat u :: s)
      | none => none
    else if u < 56320 then
      match us with
      | u2 :: us2 =>
        if 56320 ≤ u2 ∧ u2 < 57344 then
          match utf16Decode us2 with
          | some s =>
            some (Char.ofNat (65536 + (u - 55296) * 1024 + (u2 - 56320)) :: s)
          | none => none
        else none
      | [] => none
    else none

/-!
## Delta codec (src/dmp.rs lines 1805-2027)
-/

/-- `LengthUnit` (src/dmp.rs lines 20-23). -/
inductive LengthUnit : Type where
  | UnicodeScalar : LengthUnit
  | UTF16 : LengthUnit

/-- Length of a diff text in the given unit (src/dmp.rs lines 1929-1932). -/
def unitCount (u : LengthUnit) (t : Str) : Nat :=
  match u with
  | LengthUnit.UnicodeScalar => t.length
  | LengthUnit.UTF16 => utf16Len t

/-- The reserved characters kept literal by the delta encoder
(src/dmp.rs lines 1899-1902). -/
def deltaLiteralSet : Str :=
  ['!', '~', '*', '(', ')', ';', '/', '?', ':', '@', '&', '=', '+', '$',
    ',', '#', ' ', '\'']

/-- Decimal digits of a natural number (Rust `usize::to_string`). -/
def natToDigitsGo : Nat → Nat → Str
  | 0, _ => []
  | fuel + 1, n =>
    if n < 10 then [Char.ofNat (48 + n)]
    else natToDigitsGo fuel (n / 10) ++ [Char.ofNat (48 + n % 10)]

/-- Decimal representation of a natural number. -/
def natRepr (n : Nat) : Str := natToDigitsGo (n + 1) n

/-- One delta token (src/dmp.rs lines 1896-1934). -/
def deltaToken (u : LengthUnit) (d : Diff) : Str :=
  match d with
  | Diff.Add t =>
    '+' :: t.flatMap (fun c =>
      if c ∈ deltaLiteralSet then [c] else utf8PercentEncodeChar c)
  | Diff.Delete t => '-' :: natRepr (unitCount u t)
  | Diff.Keep t => '=' :: natRepr (unitCount u t)

/-- `diff_todelta_unit` (src/dmp.rs lines 1893-1941): tokens joined by a
single tab. -/
def diff_todelta_unit (diffs : List Diff) (u : LengthUnit) : Str :=
  (List.intersperse ['\t'] (diffs.map (deltaToken u))).flatten

/-- `diff_todelta` (src/dmp.rs lines 1875-1877). -/
def diff_todelta (diffs : List Diff) : Str :=
  diff_todelta_unit diffs LengthUnit.UnicodeScalar

/-- Result of a fallible Rust call in this embedding: a returned value, an
error value surfaced to the caller (`Err(_)`), or an abort of the process
(`panic!` / `unwrap` on a failure). -/
inductive PRes (α : Type) : Type where
  | ok : α → PRes α
  | err : PRes α
  | crash : PRes α
deriving DecidableEq, Repr

/-- A `StringView` (src/dmp.rs lines 134-181): a length and a slicing
function over `start..stop`; slicing out of range is a Rust panic (`crash`),
and the UTF-16 view's slice can fail with `FromUtf16Error` (`err`). -/
structure SView : Type where
  len : Nat
  slice : Nat → Nat → PRes Str

/-- `StringScalarView` (src/dmp.rs lines 139-159). -/
def scalarView (t : Str) : SView :=
  { len := t.length
    slice := fun a b =>
      if b ≤ t.length then PRes.ok ((t.take b).drop a) else PRes.crash }

/-- `StringUTF16View` (src/dmp.rs lines 161-181). -/
def utf16View (t : Str) : SView :=
  let units := utf16Units t
  { len := units.length
    slice := fun a b =>
      if b ≤ units.length then
        match utf16Decode ((units.take b).drop a) with
        | some s => PRes.ok s
        | none => PRes.err
      else PRes.crash }

/-- Split on a single character (Rust `str::split`). -/
def splitOnChar (sep : Char) : Str → List Str
  | [] => [[]]
  | c :: rest =>
    let r := splitOnChar sep rest
    if c = sep then [] :: r
    else
      match r with
      | s :: ss => (c :: s) :: ss
      | [] => [[c]]

/-- Rust `usize` parsing (`str::parse::<usize>`): optional `+` sign followed
by at least one ASCII digit.  (Overflow of the 64-bit range is not modelled;
the claims never involve such lengths.) -/
def parseUsize (s : Str) : Option Nat :=
  let digits := match s with
    | '+' :: rest => rest
    | _ => s
  if digits ≠ [] ∧ digits.all (fun c => 48 ≤ c.toNat ∧ c.toNat ≤ 57) then
    some (digits.foldl (fun acc c => acc * 10 + (c.toNat - 48)) 0)
  else none

/-- Token loop of `diff_from_delta_string_view`
(src/dmp.rs lines 1993-2019).  Tokens are processed left to right carrying
the running `text_offset`; a malformed numeric field hits
`parse::<usize>().unwrap()` (a crash), slice failures are surfaced with
`?`. -/
def fromDeltaGo (view : SView) :
    List Str → Nat → List Diff → PRes (List Diff × Nat)
  | [], offset, diffs => PRes.ok (diffs, offset)
  | token :: rest, offset, diffs =>
    if token.isEmpty then fromDeltaGo view rest offset diffs
    else
      let op := token.headD ' '
      if op.toNat ≥ 128 then PRes.crash
      else
        let content := token.tail
        if op = '+' then
          match percentDecodeStr content with
          | some text => fromDeltaGo view rest offset (diffs ++ [Diff.Add text])
          | none => PRes.err
        else
          match parseUsize content with
          | none => PRes.crash
          | some n =>
            match view.slice offset (n + offset) with
            | PRes.ok text =>
              fromDeltaGo view rest (offset + n)
                (diffs ++ [if op = '=' then Diff.Keep text else Diff.Delete text])
            | PRes.err => PRes.err
            | PRes.crash => PRes.crash

/-- `diff_from_delta_string_view` (src/dmp.rs lines 1984-2027).  The final
total-length check fails with `panic!("wrong patern or text")`, i.e. a
crash, never an error value. -/
def diff_from_delta_string_view (view : SView) (delta : Str) :
    PRes (List Diff) :=
  match fromDeltaGo view (splitOnChar '\t' delta) 0 [] with
  | PRes.ok r => if view.len ≠ r.2 then PRes.crash else PRes.ok r.1
  | PRes.err => PRes.err
  | PRes.crash => PRes.crash

/-- Modelled from the spec: `percent_decode_u16` of the repository's
`percent_encoding` module, whose source file is not under `src/`.  Following
§4.6 of the specification it percent-decodes the bytes and reconstructs
UTF-16 code units while "permitting ill-formed halves": scalars become their
UTF-16 units, and surrogate code points decoded from the (WTF-8 style) byte
stream stay as lone units; invalid byte sequences are an error. -/
def percentDecodeU16Go : Nat → List Nat → Option (List Nat)
  | _, [] => some []
  | 0, _ => none
  | fuel + 1, bs =>
    let step :=
      match utf8DecodeOne bs with
      | some nr => some nr
      | none =>
        match bs with
        | b0 :: b1 :: b2 :: bs2 =>
          if 224 ≤ b0 ∧ b0 < 240 ∧ (128 ≤ b1 ∧ b1 < 192) ∧
              (128 ≤ b2 ∧ b2 < 192) then
            let n := (b0 - 224) * 4096 + (b1 - 128) * 64 + (b2 - 128)
            if 55296 ≤ n ∧ n < 57344 then some (n, bs2) else none
          else none
        | _ => none
    match step with
    | none => none
    | some nr =>
      match percentDecodeU16Go fuel nr.2 with
      | none => none
      | some us =>
        some ((if nr.1 < 65536 ∧ ¬ (55296 ≤ nr.1 ∧ nr.1 < 57344) then [nr.1]
          else if nr.1 < 65536 then [nr.1]
          else [55296 + (nr.1 - 65536) / 1024, 56320 + (nr.1 - 65536) % 1024])
          ++ us)

/-- Modelled from the spec: `percent_decode_u16` (see
`percentDecodeU16Go`). -/
def percent_decode_u16 (bytes : List Nat) : Option (List Nat) :=
  percentDecodeU16Go (bytes.length + 1) (percentDecodeBytes bytes)

/-- Token loop of `diff_text2_from_delta_u16`
(src/dmp.rs lines 1812-1833). -/
def text2FromDeltaGo (units1 : List Nat) :
    List Str → Nat → List Nat → PRes (List Nat × Nat)
  | [], offset, acc => PRes.ok (acc, offset)
  | token :: rest, offset, acc =>
    if token.isEmpty then text2FromDeltaGo units1 rest offset acc
    else
      let op := token.headD ' '
      if op.toNat ≥ 128 then PRes.crash
      else
        let content := token.tail
        if op = '+' then
          match percent_decode_u16 (strBytes content) with
          | some us => text2FromDeltaGo units1 rest offset (acc ++ us)
          | none => PRes.crash
        else
          match parseUsize content with
          | none => PRes.crash
          | some n =>
            if op = '=' then
              if n + offset ≤ units1.length then
                text2FromDeltaGo units1 rest (offset + n)
                  (acc ++ ((units1.take (n + offset)).drop offset))
              else PRes.crash
            else text2FromDeltaGo units1 rest (offset + n) acc

/-- `diff_text2_from_delta_u16` (src/dmp.rs lines 1805-1841): every failure
in this function is an `unwrap` or `panic!`, i.e. a crash. -/
def diff_text2_from_delta_u16 (text1 delta : Str) : PRes Str :=
  let units1 := utf16Units text1
  match text2FromDeltaGo units1 (splitOnChar '\t' delta) 0 [] with
  | PRes.ok r =>
    if units1.length ≠ r.2 then PRes.crash
    else
      match utf16Decode r.1 with
      | some s => PRes.ok s
      | none => PRes.crash
  | PRes.err => PRes.err
  | PRes.crash => PRes.crash

/-- `diff_from_delta_unit` (src/dmp.rs lines 1960-1982): in scalar mode the
`Err` of the view decoder is `unwrap`ped (a crash); in UTF-16 mode it falls
back to the unit-splicing reconstruction followed by a fresh diff. -/
def diff_from_delta_unit (cfg : Config) (text1 delta : Str)
    (u : LengthUnit) : PRes (List Diff) :=
  match u with
  | LengthUnit.UnicodeScalar =>
    match diff_from_delta_string_view (scalarView text1) delta with
    | PRes.ok d => PRes.ok d
    | PRes.err => PRes.crash
    | PRes.crash => PRes.crash
  | LengthUnit.UTF16 =>
    match diff_from_delta_string_view (utf16View text1) delta with
    | PRes.ok d => PRes.ok d
    | PRes.err =>
      match diff_text2_from_delta_u16 text1 delta with
      | PRes.ok text2 => PRes.ok (diff_main cfg text1 text2 true)
      | PRes.err => PRes.err
      | PRes.crash => PRes.crash
    | PRes.crash => PRes.crash

/-- `diff_from_delta` (src/dmp.rs lines 1943-1945). -/
def diff_from_delta (cfg : Config) (text1 delta : Str) : PRes (List Diff) :=
  diff_from_delta_unit cfg text1 delta LengthUnit.UnicodeScalar

/-!
## Match (src/dmp.rs lines 2038-2224)

Bit rows are `i32` in the source; they are modelled as `Nat` reduced
`% 2 ^ 32` at the shifts (the only operations that can wrap).  The `f32`
scores are modelled as exact rationals.
-/

/-- Insert-or-replace in the alphabet map (`HashMap<char, i32>`). -/
def alphaInsert (s : List (Char × Nat)) (c : Char) (v : Nat) :
    List (Char × Nat) :=
  if s.any (fun p => p.1 = c) then
    s.map (fun p => if p.1 = c then (c, v) else p)
  else s ++ [(c, v)]

/-- Alphabet lookup (`s.get(&ch)`). -/
def alphaGet (s : List (Char × Nat)) (c : Char) : Option Nat :=
  (s.find? (fun p => p.1 = c)).map Prod.snd

/-- `match_alphabet` (src/dmp.rs lines 2210-2224). -/
def match_alphabet (patern : Str) : List (Char × Nat) :=
  let s0 := patern.foldl (fun s c => alphaInsert s c 0) []
  patern.enum.foldl (fun s ci =>
    let temp :=
      match alphaGet s ci.2 with
      | some num => num ||| 2 ^ (patern.length - ci.1 - 1)
      | none => 0
    alphaInsert s ci.2 temp) s0

/-- `match_bitap_score` (src/dmp.rs lines 2190-2202): the value
`e / len(patern) + proximity / match_distance` as an exact rational. -/
def match_bitap_score (cfg : Config) (e x loc : Int) (patern : Str) : F32 :=
  let proximity : Int := (loc - x).natAbs
  if cfg.match_distance = 0 then
    if proximity = 0 then F32.mk e patern.length else F32.mk 1 1
  else
    F32.mk (e * cfg.match_distance + proximity * patern.length)
      (patern.length * cfg.match_distance)

/-- Binary search for the scan radius (src/dmp.rs lines 2111-2121);
returns the final `bin_mid`. -/
def bitapBinGo (cfg : Config) (loc : Int) (d : Int) (patern : Str)
    (thr : F32) : Nat → Int → Int → Int → Int
  | 0, _, bin_mid, _ => bin_mid
  | fuel + 1, bin_min, bin_mid, bin_max =>
    if bin_min < bin_mid then
      let p :=
        if fle (match_bitap_score cfg d (loc + bin_mid) loc patern) thr then
          (bin_mid, bin_max)
        else (bin_min, bin_mid)
      bitapBinGo cfg loc d patern thr fuel p.1
        (p.1 + (p.2 - p.1) / 2) p.2
    else bin_mid

/-- The inner `j` loop of `match_bitap` (src/dmp.rs lines 2127-2171);
returns the finished row together with the updated threshold and best
location. -/
def bitapJGo (cfg : Config) (text patern : Str) (s : List (Char × Nat))
    (matchmask : Nat) (loc : Int) (d : Nat) (last_rd : List Nat)
    (finish : Int) : Nat → Int → List Nat → Int → F32 → Int →
    List Nat × F32 × Int
  | 0, _, rd, _, thr, best_loc => (rd, thr, best_loc)
  | fuel + 1, j, rd, start, thr, best_loc =>
    if j ≥ start then
      let char_match : Nat :=
        if text.length < j.toNat then 0
        else
          match alphaGet s (text.getD (j.toNat - 1) ' ') with
          | some num => num
          | none => 0
      let rdj :=
        if d = 0 then
          ((rd.getD (j.toNat + 1) 0 * 2) % 2 ^ 32 ||| 1) &&& char_match
        else
          (((rd.getD (j.toNat + 1) 0 * 2) % 2 ^ 32 ||| 1) &&& char_match) |||
            ((((last_rd.getD (j.toNat + 1) 0 ||| last_rd.getD j.toNat 0) * 2)
              % 2 ^ 32) ||| 1) ||| last_rd.getD (j.toNat + 1) 0
      let rd' := rd.set j.toNat rdj
      if rdj &&& matchmask ≠ 0 then
        let score := match_bitap_score cfg d (j - 1) loc patern
        if fle score thr then
          let best' := j - 1
          if best' > loc then
            bitapJGo cfg text patern s matchmask loc d last_rd finish fuel
              (j - 1) rd' (max 1 (2 * loc - best')) score best'
          else (rd', score, best')
        else
          bitapJGo cfg text patern s matchmask loc d last_rd finish fuel
            (j - 1) rd' start thr best_loc
      else
        bitapJGo cfg text patern s matchmask loc d last_rd finish fuel
          (j - 1) rd' start thr best_loc
    else (rd, thr, best_loc)

/-- The outer `d` loop of `match_bitap` (src/dmp.rs lines 2104-2177). -/
def bitapDGo (cfg : Config) (text patern : Str) (s : List (Char × Nat))
    (matchmask : Nat) (loc : Int) :
    Nat → Nat → Int → F32 → Int → List Nat → Int
  | 0, _, _, _, best_loc, _ => best_loc
  | fuel + 1, d, bin_max, thr, best_loc, last_rd =>
    if d < patern.length then
      let bin_mid := bitapBinGo cfg loc d patern thr
        (bin_max.toNat + 66) 0 bin_max bin_max
      let start := max 1 (loc - bin_mid + 1)
      let finish := min (loc + bin_mid) (text.length : Int) +
        (patern.length : Int)
      let rd0 := (List.replicate (finish + 2).toNat 0).set (finish + 1).toNat
        ((2 ^ d - 1) % 2 ^ 32)
      let r := bitapJGo cfg text patern s matchmask loc d last_rd finish
        ((finish + 2).toNat) finish rd0 start thr best_loc
      if fgt (match_bitap_score cfg (d + 1) loc loc patern) r.2.1 then r.2.2
      else bitapDGo cfg text patern s matchmask loc fuel (d + 1) bin_mid
        r.2.1 r.2.2 r.1
    else best_loc

/-- `match_bitap` (src/dmp.rs lines 2070-2179).  A pattern longer than
`match_maxbits` (when non-zero) is a `panic!`. -/
def match_bitap (cfg : Config) (text patern : Str) (loc : Int) : PRes Int :=
  if ¬ (cfg.match_maxbits = 0 ∨ patern.length ≤ cfg.match_maxbits) then
    PRes.crash
  else
    let s := match_alphabet patern
    let thr1 :=
      match kmp text patern loc.toNat with
      | some best =>
        let t := min1 (match_bitap_score cfg 0 best loc patern)
          cfg.match_threshold
        match rkmp text patern (loc.toNat + patern.length) with
        | some best2 => min1 t (match_bitap_score cfg 0 best2 loc patern)
        | none => t
      | none => cfg.match_threshold
    let matchmask := 2 ^ (patern.length - 1) % 2 ^ 32
    PRes.ok (bitapDGo cfg text patern s matchmask loc (patern.length + 1) 0
      ((patern.length + text.length : Nat) : Int) thr1 (-1) [])

/-- `match_main` (src/dmp.rs lines 2038-2058).  The clamp at line 2039 uses
`text1.len()`, the UTF-8 byte length of the `&str`, although `loc` is used
as a `Vec<char>` index afterwards. -/
def match_main (cfg : Config) (text1 patern1 : Str) (loc0 : Int) : PRes Int :=
  let loc := max 0 (min loc0 ((utf8Len text1 : Nat) : Int))
  if patern1.isEmpty then PRes.ok loc
  else if text1.isEmpty then PRes.ok (-1)
  else if text1 = patern1 then PRes.ok 0
  else if loc.toNat + patern1.length ≤ text1.length ∧
      (text1.take (loc.toNat + patern1.length)).drop loc.toNat = patern1 then
    PRes.ok loc
  else match_bitap cfg text1 patern1 loc

/-!
## Patch construction and application (src/dmp.rs lines 1730-1760, 2232-2786)

Several loops in this family mix `String::len()` (UTF-8 bytes) with
`Vec<char>` indices exactly as the source does; where the Rust code would
panic on an out-of-range slice produced by that mixture, the embedding uses
clamping `take`/`drop` (the panic sites are noted at the claims that touch
them).
-/

/-- Accumulating loop of `diff_xindex` (src/dmp.rs lines 1737-1753): returns
`(last_chars1, last_chars2, lastdiff)` (all counts in UTF-8 bytes). -/
def xindexGo (loc : Int) : List Diff → Int → Int → Int × Int × Diff
  | [], l1, l2 => (l1, l2, Diff.Keep [])
  | d :: rest, l1, l2 =>
    let c1 := l1 + (match d with
      | Diff.Keep t => (utf8Len t : Int)
      | Diff.Delete t => (utf8Len t : Int)
      | Diff.Add _ => 0)
    let c2 := l2 + (match d with
      | Diff.Keep t => (utf8Len t : Int)
      | Diff.Add t => (utf8Len t : Int)
      | Diff.Delete _ => 0)
    if c1 > loc then (l1, l2, d) else xindexGo loc rest c1 c2

/-- `diff_xindex` (src/dmp.rs lines 1730-1760). -/
def diff_xindex (diffs : List Diff) (loc : Int) : Int :=
  let r := xindexGo loc diffs 0 0
  if r.2.2.isDelete ∧ diffs.length ≠ 0 then r.2.1
  else r.2.1 + (loc - r.1)

/-- Context-growth loop of `patch_add_context`
(src/dmp.rs lines 2241-2257); returns the final padding. -/
def addContextLoop (cfg : Config) (text : Str) (start2 len1 : Nat) :
    Nat → Nat → Nat → Nat
  | 0, padding, _ => padding
  | fuel + 1, padding, rst =>
    let patt := (text.take (min text.length (start2 + len1 + padding))).drop
      (start2 - padding)
    if kmp text patt 0 ≠ rkmp text patt (text.length - 1) ∧
        patt.length < cfg.match_maxbits - cfg.patch_margin * 2 then
      let padding' := padding + cfg.patch_margin
      let rst' := rst + 1
      if rst' > 5 then padding'
      else addContextLoop cfg text start2 len1 fuel padding' rst'
    else padding

/-- `patch_add_context` (src/dmp.rs lines 2232-2288). -/
def patch_add_context (cfg : Config) (patch : Patch) (text : Str) : Patch :=
  if text.isEmpty then patch
  else
    let padding := addContextLoop cfg text patch.start2 patch.length1 8 0 0 +
      cfg.patch_margin
    let pre := (text.take patch.start2).drop (patch.start2 - padding)
    let suf := (text.take (min text.length
      (patch.start2 + patch.length1 + padding))).drop
      (patch.start2 + patch.length1)
    let diffs1 :=
      if pre ≠ [] then Diff.Keep pre :: patch.diffs else patch.diffs
    let diffs2 := if suf ≠ [] then diffs1 ++ [Diff.Keep suf] else diffs1
    { diffs := diffs2
      start1 := patch.start1 - pre.length
      start2 := patch.start2 - pre.length
      length1 := patch.length1 + pre.length + suf.length
      length2 := patch.length2 + pre.length + suf.length }

/-- Main loop of `patch_make4` (src/dmp.rs lines 2347-2414).  `char_count1`
advances by UTF-8 bytes, `char_count2` by scalars, and the `length1`/
`length2` accumulation inside the loop is in bytes, exactly as in the
source. -/
def patchMake4Go (cfg : Config) :
    List Diff → Patch → Nat → Nat → Str → Str → List Patch → List Patch
  | [], patch, _, _, prepatch, _, patches =>
    if patch.diffs ≠ [] then patches ++ [patch_add_context cfg patch prepatch]
    else patches
  | d :: rest, patch, cc1, cc2, prepatch, postpatch, patches =>
    let patch0 :=
      if patch.diffs.isEmpty ∧ ¬ d.isKeep then
        { patch with start1 := cc1, start2 := cc2 }
      else patch
    match d with
    | Diff.Add txt =>
      let patch1 := { patch0 with
        diffs := patch0.diffs ++ [d],
        length2 := patch0.length2 + utf8Len txt }
      let postpatch1 := postpatch.take cc2 ++ txt ++ postpatch.drop cc2
      patchMake4Go cfg rest patch1 cc1 (cc2 + txt.length) prepatch postpatch1
        patches
    | Diff.Delete txt =>
      let patch1 := { patch0 with
        diffs := patch0.diffs ++ [d],
        length1 := patch0.length1 + utf8Len txt }
      let postpatch1 := postpatch.take cc2 ++ postpatch.drop (utf8Len txt + cc2)
      patchMake4Go cfg rest patch1 (cc1 + utf8Len txt) cc2 prepatch postpatch1
        patches
    | Diff.Keep txt =>
      let patch1 :=
        if utf8Len txt ≤ cfg.patch_margin * 2 ∧ patch0.diffs ≠ [] ∧
            rest ≠ [] then
          { patch0 with
            diffs := patch0.diffs ++ [d],
            length1 := patch0.length1 + utf8Len txt,
            length2 := patch0.length2 + utf8Len txt }
        else patch0
      if utf8Len txt ≥ 2 * cfg.patch_margin ∧ patch1.diffs ≠ [] then
        patchMake4Go cfg rest (Patch.mk [] 0 0 0 0) (cc2 + utf8Len txt)
          (cc2 + txt.length) postpatch postpatch
          (patches ++ [patch_add_context cfg patch1 prepatch])
      else
        patchMake4Go cfg rest patch1 (cc1 + utf8Len txt) (cc2 + txt.length)
          prepatch postpatch patches

/-- `patch_make4` (src/dmp.rs lines 2337-2416). -/
def patch_make4 (cfg : Config) (text1 : Str) (diffs : List Diff) :
    List Patch :=
  if diffs.isEmpty then []
  else patchMake4Go cfg diffs (Patch.mk [] 0 0 0 0) 0 0 text1 text1 []

/-- `patch_make3` (src/dmp.rs lines 2327-2329). -/
def patch_make3 (cfg : Config) (text1 _text2 : Str) (diffs : List Diff) :
    List Patch :=
  patch_make4 cfg text1 diffs

/-- `patch_make2` (src/dmp.rs lines 2313-2316). -/
def patch_make2 (cfg : Config) (diffs : List Diff) : List Patch :=
  patch_make4 cfg (diff_text1 diffs) diffs

/-- `patch_make1` (src/dmp.rs lines 2297-2304). -/
def patch_make1 (cfg : Config) (text1 text2 : Str) : List Patch :=
  let diffs := diff_main cfg text1 text2 true
  let diffs1 :=
    if diffs.length > 2 then
      diff_cleanup_efficiency cfg (diff_cleanup_semantic diffs)
    else diffs
  patch_make4 cfg text1 diffs1

/-- `patch_deep_copy` (src/dmp.rs lines 2425-2441). -/
def patch_deep_copy (patches : List Patch) : List Patch :=
  patches.map (fun p =>
    Patch.mk (p.diffs.map (fun d => d.with_text d.text)) p.start1 p.start2
      p.length1 p.length2)

/-- Front half of `patch_add_padding` (src/dmp.rs lines 2613-2637).  As in
the source, `text_len` is read from `diffs[0]` before the emptiness test
(the Rust code would panic on an empty diff list; the model reads a
default). -/
def padPatchFront (cfg : Config) (nullpadding : Str) (patch : Patch) :
    Patch :=
  let diffs := patch.diffs
  let text_len := (diffs.getD 0 (Diff.Keep [])).text.length
  if diffs.isEmpty ∨ ¬ (diffs.getD 0 (Diff.Keep [])).isKeep then
    { patch with
      diffs := Diff.Keep nullpadding :: diffs,
      start1 := patch.start1 - cfg.patch_margin,
      start2 := patch.start2 - cfg.patch_margin,
      length1 := patch.length1 + cfg.patch_margin,
      length2 := patch.length2 + cfg.patch_margin }
  else if cfg.patch_margin > text_len then
    let extra := cfg.patch_margin - text_len
    let d0 := diffs.getD 0 (Diff.Keep [])
    { patch with
      diffs := diffs.set 0 (d0.with_text (nullpadding.drop text_len ++ d0.text)),
      start1 := patch.start1 - extra,
      start2 := patch.start2 - extra,
      length1 := patch.length1 + extra,
      length2 := patch.length2 + extra }
  else patch

/-- Back half of `patch_add_padding` (src/dmp.rs lines 2638-2658). -/
def padPatchBack (cfg : Config) (nullpadding : Str) (patch : Patch) :
    Patch :=
  let diffs := patch.diffs
  let text_len := (diffs.getD (diffs.length - 1) (Diff.Keep [])).text.length
  if diffs.isEmpty ∨
      ¬ (diffs.getD (diffs.length - 1) (Diff.Keep [])).isKeep then
    { patch with
      diffs := diffs ++ [Diff.Keep nullpadding],
      length1 := patch.length1 + cfg.patch_margin,
      length2 := patch.length2 + cfg.patch_margin }
  else if cfg.patch_margin > text_len then
    let extra := cfg.patch_margin - text_len
    let dl := diffs.getD (diffs.length - 1) (Diff.Keep [])
    { patch with
      diffs := diffs.set (diffs.length - 1)
        (dl.with_text (dl.text ++ nullpadding.take extra)),
      length1 := patch.length1 + extra,
      length2 := patch.length2 + extra }
  else patch

/-- `patch_add_padding` (src/dmp.rs lines 2599-2660): returns the padding
and the adjusted patches. -/
def patch_add_padding (cfg : Config) (patches : List Patch) :
    Str × List Patch :=
  let nullpadding := (List.range cfg.patch_margin).map
    (fun i => Char.ofNat (1 + i))
  let bumped := patches.map (fun p =>
    { p with start1 := p.start1 + cfg.patch_margin,
             start2 := p.start2 + cfg.patch_margin })
  let withFront := bumped.set 0
    (padPatchFront cfg nullpadding (bumped.headD (Patch.mk [] 0 0 0 0)))
  let withBack := withFront.set (withFront.length - 1)
    (padPatchBack cfg nullpadding
      ((withFront.getLast?).getD (Patch.mk [] 0 0 0 0)))
  (nullpadding, withBack)

/-- Innermost consumption loop of `patch_splitmax`
(src/dmp.rs lines 2698-2751): returns the remaining big-patch diffs, the
patch under construction, the running `start1`/`start2` and the `empty`
flag. -/
def splitBigInner (cfg : Config) :
    Nat → List Diff → Patch → Nat → Nat → Bool →
    List Diff × Patch × Nat × Nat × Bool
  | 0, bigdiffs, patch, s1, s2, empty => (bigdiffs, patch, s1, s2, empty)
  | fuel + 1, bigdiffs, patch, s1, s2, empty =>
    match bigdiffs with
    | [] => ([], patch, s1, s2, empty)
    | d :: rest =>
      if patch.length1 < cfg.match_maxbits - cfg.patch_margin then
        match d with
        | Diff.Add txt =>
          splitBigInner cfg fuel rest
            { patch with length2 := patch.length2 + utf8Len txt,
                         diffs := patch.diffs ++ [d] }
            s1 (s2 + utf8Len txt) false
        | Diff.Delete txt =>
          if patch.diffs.length = 1 ∧
              (patch.diffs.getD 0 (Diff.Add [])).isKeep ∧
              utf8Len txt > 2 * cfg.match_maxbits then
            splitBigInner cfg fuel rest
              { patch with length1 := patch.length1 + utf8Len txt,
                           diffs := patch.diffs ++ [Diff.Delete txt] }
              (s1 + utf8Len txt) s2 false
          else
            let diff_text := txt.take (min (utf8Len txt)
              (cfg.match_maxbits - patch.length1 - cfg.patch_margin))
            let patch1 := { patch with
              length1 := patch.length1 + diff_text.length,
              diffs := patch.diffs ++ [Diff.Delete diff_text] }
            let s1' := s1 + diff_text.length
            if diff_text = txt then
              splitBigInner cfg fuel rest patch1 s1' s2 false
            else
              splitBigInner cfg fuel
                (Diff.Delete (txt.drop diff_text.length) :: rest) patch1 s1'
                s2 false
        | Diff.Keep txt =>
          let diff_text := txt.take (min (utf8Len txt)
            (cfg.match_maxbits - patch.length1 - cfg.patch_margin))
          let patch1 := { patch with
            length1 := patch.length1 + diff_text.length,
            length2 := patch.length2 + diff_text.length,
            diffs := patch.diffs ++ [Diff.Keep diff_text] }
          let s1' := s1 + diff_text.length
          let s2' := s2 + diff_text.length
          if diff_text = txt then
            splitBigInner cfg fuel rest patch1 s1' s2' empty
          else
            splitBigInner cfg fuel
              (Diff.Keep (txt.drop diff_text.length) :: rest) patch1 s1' s2'
              empty
      else (bigdiffs, patch, s1, s2, empty)

/-- Sub-patch creation loop of `patch_splitmax`
(src/dmp.rs lines 2685-2783). -/
def splitBigGo (cfg : Config) :
    Nat → List Diff → Nat → Nat → Str → List Patch → Int → List Patch × Int
  | 0, _, _, _, _, patches, x => (patches, x)
  | fuel + 1, bigdiffs, s1, s2, precontext, patches, x =>
    if bigdiffs = [] then (patches, x)
    else
      let patch0 : Patch :=
        { diffs := if precontext ≠ [] then [Diff.Keep precontext] else [],
          start1 := s1 - precontext.length,
          start2 := s2 - precontext.length,
          length1 := if precontext ≠ [] then precontext.length else 0,
          length2 := if precontext ≠ [] then precontext.length else 0 }
      let r := splitBigInner cfg (mergeMeasure bigdiffs + 2) bigdiffs patch0
        s1 s2 true
      let bigdiffs1 := r.1
      let patch1 := r.2.1
      let s1' := r.2.2.1
      let s2' := r.2.2.2.1
      let empty := r.2.2.2.2
      let t2 := diff_text2 patch1.diffs
      let precontext' := t2.drop (t2.length - min cfg.patch_margin t2.length)
      let t1big := diff_text1 bigdiffs1
      let postcontext :=
        if t1big.length > cfg.patch_margin then t1big.take cfg.patch_margin
        else t1big
      let patch2 :=
        if postcontext ≠ [] then
          { patch1 with
            length1 := patch1.length1 + postcontext.length,
            length2 := patch1.length2 + postcontext.length,
            diffs :=
              match patch1.diffs.getLast? with
              | some (Diff.Keep t) =>
                patch1.diffs.dropLast ++ [Diff.Keep (t ++ postcontext)]
              | _ => patch1.diffs ++ [Diff.Keep postcontext] }
        else patch1
      if ¬ empty then
        splitBigGo cfg fuel bigdiffs1 s1' s2' precontext'
          (patches.insertIdx (x + 1).toNat patch2) (x + 1)
      else splitBigGo cfg fuel bigdiffs1 s1' s2' precontext' patches x

/-- Outer loop of `patch_splitmax` (src/dmp.rs lines 2674-2785). -/
def splitmaxGo (cfg : Config) : Nat → List Patch → Int → List Patch
  | 0, patches, _ => patches
  | fuel + 1, patches, x =>
    if 0 ≤ x ∧ x.toNat < patches.length then
      if (patches.getD x.toNat (Patch.mk [] 0 0 0 0)).length1 ≤
          cfg.match_maxbits then
        splitmaxGo cfg fuel patches (x + 1)
      else
        let bigpatch := patches.getD x.toNat (Patch.mk [] 0 0 0 0)
        let patches1 := patches.eraseIdx x.toNat
        let r := splitBigGo cfg (mergeMeasure bigpatch.diffs + 2)
          bigpatch.diffs bigpatch.start1 bigpatch.start2 [] patches1 (x - 1)
        splitmaxGo cfg fuel r.1 (r.2 + 1)
    else patches

/-- `patch_splitmax` (src/dmp.rs lines 2668-2786). -/
def patch_splitmax (cfg : Config) (patches : List Patch) : List Patch :=
  if cfg.match_maxbits = 0 then patches
  else
    splitmaxGo cfg
      (2 * (patches.map (fun p => mergeMeasure p.diffs)).sum +
        patches.length + 8) patches 0

/-- Extract the integer of a `match_main` result inside `patch_apply`.  The
panic case is unreachable there: every pattern passed has length at most
`match_maxbits` (or `match_maxbits` is 0). -/
def presInt (r : PRes Int) : Int :=
  match r with
  | PRes.ok v => v
  | _ => -1

/-- Replay of one patch's edits on an imperfect match
(src/dmp.rs lines 2551-2581): walks the patch diffs with the byte cursor
`index1`, translating positions through `diff_xindex`. -/
def applyReplayGo (diffs : List Diff) (start_loc : Int) :
    List Diff → Str → Int → Str
  | [], text, _ => text
  | mod1 :: rest, text, index1 =>
    let text' :=
      match mod1 with
      | Diff.Add txt =>
        let index2 := diff_xindex diffs index1
        text.take (start_loc + index2).toNat ++ txt ++
          text.drop (start_loc + index2).toNat
      | Diff.Delete txt =>
        let index2 := diff_xindex diffs index1
        text.take (start_loc + index2).toNat ++
          text.drop (start_loc +
            diff_xindex diffs (index1 + (utf8Len txt : Int))).toNat
      | Diff.Keep _ => text
    let index1' :=
      match mod1 with
      | Diff.Keep txt => index1 + (utf8Len txt : Int)
      | Diff.Add txt => index1 + (utf8Len txt : Int)
      | Diff.Delete _ => index1
    applyReplayGo diffs start_loc rest text' index1'

/-- Per-patch loop of `patch_apply` (src/dmp.rs lines 2478-2585). -/
def patchApplyGo (cfg : Config) :
    List Patch → Str → Int → List Bool → Str × List Bool
  | [], text, _, results => (text, results)
  | p :: rest, text, delta, results =>
    let expected_loc : Int := (p.start2 : Int) + delta
    let text1 := diff_text1 p.diffs
    let sl :=
      if text1.length > cfg.match_maxbits then
        let second := text1.take cfg.match_maxbits
        let second1 := text1.drop (text1.length - cfg.match_maxbits)
        let s := presInt (match_main cfg text second expected_loc)
        if s ≠ -1 then
          let e := presInt (match_main cfg text second1
            (expected_loc + ((text1.length - cfg.match_maxbits : Nat) : Int)))
          if e = -1 ∨ s ≥ e then ((-1 : Int), e) else (s, e)
        else (s, (-1 : Int))
      else (presInt (match_main cfg text text1 expected_loc), (-1 : Int))
    let start_loc := sl.1
    let end_loc := sl.2
    if start_loc = -1 then
      patchApplyGo cfg rest text
        (delta - ((p.length2 : Int) - (p.length1 : Int))) (results ++ [false])
    else
      let delta' := start_loc - expected_loc
      let end_index0 :=
        if end_loc = -1 then start_loc.toNat + text1.length
        else end_loc.toNat + cfg.match_maxbits
      let end_index := min text.length end_index0
      let text2 := (text.take end_index).drop start_loc.toNat
      if text1 = text2 then
        patchApplyGo cfg rest
          (text.take start_loc.toNat ++ diff_text2 p.diffs ++
            text.drop (start_loc.toNat + text1.length))
          delta' (results ++ [true])
      else
        let diffs := diff_main cfg text1 text2 false
        if text1.length > cfg.match_maxbits ∧
            fgt (F32.mk (diff_levenshtein diffs) text1.length)
              cfg.patch_delete_threshold then
          patchApplyGo cfg rest text delta' (results ++ [false])
        else
          let diffs1 := diff_cleanup_semantic_lossless diffs
          patchApplyGo cfg rest
            (applyReplayGo diffs1 start_loc p.diffs text 0) delta'
            (results ++ [true])

/-- `patch_apply` (src/dmp.rs lines 2452-2589): an empty patch list returns
the source characters and an empty results vector; otherwise the deep copy
is padded, split, and applied patch by patch. -/
def patch_apply (cfg : Config) (patches : List Patch) (source_text : Str) :
    Str × List Bool :=
  if patches.isEmpty then (source_text, [])
  else
    let copies := patch_deep_copy patches
    let padded := patch_add_padding cfg copies
    let null_padding := padded.1
    let text := null_padding ++ source_text ++ null_padding
    let split := patch_splitmax cfg padded.2
    let r := patchApplyGo cfg split text 0 []
    ((r.1.take (r.1.length - null_padding.length)).drop null_padding.length,
      r.2)

/-!
## Patch text codec (src/dmp.rs lines 2795-2908, 2911-2972)
-/

/-- Character encoding used by `Display for Patch`
(src/dmp.rs lines 2944-2967): the same literal-reserved set as the delta
encoder, `%` rendered as `%25`, everything else percent-encoded with the
userinfo set. -/
def displayEncodeChar (c : Char) : Str :=
  if c ∈ deltaLiteralSet then [c]
  else if c = '%' then ['%', '2', '5']
  else utf8PercentEncodeChar c

/-- `Display for Patch` (src/dmp.rs lines 2911-2972). -/
def patchToString (p : Patch) : Str :=
  let start1 := if p.length1 = 0 ∧ p.start1 + 1 = 1 then 0 else p.start1 + 1
  let start2 := if p.length2 = 0 ∧ p.start2 + 1 = 1 then 0 else p.start2 + 1
  let coords1 := natRepr start1 ++
    (if p.length1 > 0 ∨ start1 = 0 then ',' :: natRepr p.length1 else [])
  let coords2 := natRepr start2 ++
    (if p.length2 > 0 ∨ start2 = 0 then ',' :: natRepr p.length2 else [])
  ['@', '@', ' ', '-'] ++ coords1 ++ [' ', '+'] ++ coords2 ++
    [' ', '@', '@', '\n'] ++
    p.diffs.flatMap (fun d =>
      (match d with
        | Diff.Keep _ => ' '
        | Diff.Delete _ => '-'
        | Diff.Add _ => '+') ::
      (d.text.flatMap displayEncodeChar ++ ['\n']))

/-- `patch_to_text` (src/dmp.rs lines 2795-2801). -/
def patch_to_text (patches : List Patch) : Str :=
  patches.flatMap patchToString

/-- Rust `str::split` on a (non-empty) substring separator. -/
def splitOnSubGo (sep : Str) : Nat → Str → Str → List Str
  | 0, cur, _ => [cur.reverse]
  | fuel + 1, cur, s =>
    if sep.isPrefixOf s then
      cur.reverse :: splitOnSubGo sep fuel [] (s.drop sep.length)
    else
      match s with
      | [] => [cur.reverse]
      | c :: rest => splitOnSubGo sep fuel (c :: cur) rest

/-- Rust `str::split` on a substring. -/
def splitOnSub (sep s : Str) : List Str := splitOnSubGo sep (s.length + 1) [] s

/-- Digit-scanning header parser of `patch1_from_text`
(src/dmp.rs lines 2839-2870): walks the header characters collecting the
four numeric fields; a fifth digit run is `panic!("Invalid patch string")`. -/
def headerScanGo (tv : Str) :
    Nat → Nat → Nat → Nat × Nat × Nat × Nat → PRes (Nat × Nat × Nat × Nat)
  | 0, _, _, st => PRes.ok st
  | fuel + 1, i, temp, st =>
    if i < tv.length then
      let c := tv.getD i ' '
      if c.toNat < 48 ∨ 57 < c.toNat then
        headerScanGo tv fuel (i + 1) temp st
      else
        let temp1 :=
          if (temp = 1 ∨ temp = 3) ∧ tv.getD (i - 1) ' ' ≠ ',' then temp + 1
          else temp
        let run := (tv.drop i).takeWhile (fun d => 48 ≤ d.toNat ∧ d.toNat ≤ 57)
        let n := run.foldl (fun acc d => acc * 10 + (d.toNat - 48)) 0
        let i' := i + run.length + 1
        match temp1 with
        | 0 => headerScanGo tv fuel i' 1 (n - 1, st.2.1, st.2.2.1, st.2.2.2)
        | 1 => headerScanGo tv fuel i' 2 (st.1, n, st.2.2.1, st.2.2.2)
        | 2 => headerScanGo tv fuel i' 3 (st.1, st.2.1, n - 1, st.2.2.2)
        | 3 => headerScanGo tv fuel i' 4 (st.1, st.2.1, st.2.2.1, n)
        | _ => PRes.crash
    else PRes.ok st

/-- Body-line loop of `patch1_from_text` (src/dmp.rs lines 2873-2906):
recomputes `length1`/`length2` from the decoded scalar counts. -/
def patchBodyGo : List Str → List Diff → Nat → Nat →
    PRes (List Diff × Nat × Nat)
  | [], diffs, l1, l2 => PRes.ok (diffs, l1, l2)
  | line :: rest, diffs, l1, l2 =>
    match line with
    | [] => PRes.crash
    | c :: content =>
      if c = '+' then
        match percentDecodeStr content with
        | some t => patchBodyGo rest (diffs ++ [Diff.Add t]) l1 (l2 + t.length)
        | none => PRes.crash
      else if c = '-' then
        match percentDecodeStr content with
        | some t =>
          patchBodyGo rest (diffs ++ [Diff.Delete t]) (l1 + t.length) l2
        | none => PRes.crash
      else if c = ' ' then
        match percentDecodeStr content with
        | some t =>
          patchBodyGo rest (diffs ++ [Diff.Keep t]) (l1 + t.length)
            (l2 + t.length)
        | none => PRes.crash
      else PRes.crash

/-- `patch1_from_text` (src/dmp.rs lines 2829-2908). -/
def patch1_from_text (textline : Str) : PRes Patch :=
  let lines := splitOnChar '\n' textline
  let tv := lines.headD []
  if tv.length < 8 ∨ tv.getD (tv.length - 1) ' ' ≠ '@' ∨
      tv.getD (tv.length - 2) ' ' ≠ '@' then PRes.crash
  else
    match headerScanGo tv (tv.length + 2) 0 0 (0, 0, 0, 0) with
    | PRes.ok st =>
      match patchBodyGo ((lines.take (lines.length - 1)).drop 1) [] 0 0 with
      | PRes.ok b =>
        PRes.ok (Patch.mk b.1 st.1 st.2.2.1 b.2.1 b.2.2)
      | PRes.err => PRes.err
      | PRes.crash => PRes.crash
    | PRes.err => PRes.err
    | PRes.crash => PRes.crash

/-- Piece loop of `patch_from_text` (src/dmp.rs lines 2817-2825). -/
def patchFromTextGo : List Str → Nat → List Patch → PRes (List Patch)
  | [], _, acc => PRes.ok acc
  | piece :: rest, i, acc =>
    if piece.isEmpty then
      if i = 0 then patchFromTextGo rest (i + 1) acc else PRes.crash
    else
      match patch1_from_text piece with
      | PRes.ok p => patchFromTextGo rest (i + 1) (acc ++ [p])
      | PRes.err => PRes.err
      | PRes.crash => PRes.crash

/-- `patch_from_text` (src/dmp.rs lines 2814-2827). -/
def patch_from_text (textline : Str) : PRes (List Patch) :=
  patchFromTextGo (splitOnSub ['@', '@', ' '] textline) 0 []

/-!
## Statement-support definitions
-/

/-- Every element's text is non-empty. -/
def nonEmptyTexts (diffs : List Diff) : Prop :=
  ∀ d ∈ diffs, d.text ≠ []

/-- Adjacency property claimed for `diff_cleanup_merge` output, amended:
two adjacent elements never share a tag unless both are `Keep`, and an
adjacent `Delete`/`Add` pair (in either order) has no common prefix or
suffix. -/
def mergedAdj (x y : Diff) : Prop :=
  (x.tag = y.tag → x.isKeep = true) ∧
  (∀ a b, x = Diff.Delete a → y = Diff.Add b →
    diffCommonPrefixLen a b = 0 ∧ diff_common_suffix a b = 0) ∧
  (∀ a b, x = Diff.Add a → y = Diff.Delete b →
    diffCommonPrefixLen a b = 0 ∧ diff_common_suffix a b = 0)

/-- Texts whose UTF-8 byte length equals their scalar length (i.e. ASCII
texts). -/
def bytesEqScalars (s : Str) : Prop := utf8Len s = s.length

/-- Boolean check of the claimed adjacency invariant "no two adjacent
elements carry the same tag". -/
def adjTagsOk : List Diff → Bool
  | x :: y :: rest => decide (x.tag ≠ y.tag) && adjTagsOk (y :: rest)
  | _ => true

/-- The amended adjacency invariant for every adjacent pair of a script. -/
def pairwiseAdj : List Diff → Prop
  | x :: y :: rest => mergedAdj x y ∧ pairwiseAdj (y :: rest)
  | _ => True

/-- The trailing-empty-element pop at the end of pass one of
`diff_cleanup_merge` (the `diffs.pop()` guarded by `text.is_empty()`). -/
def pass1Pop (r : List Diff) : List Diff :=
  match r.getLast? with
  | some d => if d.text = [] then r.dropLast else r
  | none => r

/-- Invariant of the best location tracked by the bitap scan: either the
initial `-1`, or an index in `[0, B)` recorded with some error count
`e < len(patern)` whose score is below the threshold `T`. -/
def bitapGood (cfg : Config) (patern : Str) (loc B : Int) (T : F32)
    (r : Int) : Prop :=
  r = -1 ∨ (0 ≤ r ∧ r < B ∧ ∃ e : Nat, e < patern.length ∧
    fle (match_bitap_score cfg e r loc patern) T = true)

/-- Does `sep` occur as a contiguous substring of `s`? -/
def containsSub (sep s : Str) : Bool :=
  (List.range (s.length + 1)).any (fun i => sep.isPrefixOf (s.drop i))

/-- No suffix of `s` begins with the patch separator `"@@ "`. -/
def sepFree (s : Str) : Prop :=
  ∀ t, t <:+ s → (['@', '@', ' '].isPrefixOf t) = false

/-- The patch-serialisation precondition of the amended round-trip claim:
the length fields agree with the scalar lengths of the diff texts, and no
diff text contains the separator `"@@ "` that `patch_from_text` splits on. -/
def patchWellFormed (p : Patch) : Prop :=
  p.length1 = (diff_text1 p.diffs).length ∧
  p.length2 = (diff_text2 p.diffs).length ∧
  ∀ d ∈ p.diffs, containsSub ['@', '@', ' '] d.text = false

/-- Patch-header coordinates as the specification's words describe them
(claim C6): starts are one-based; a zero length prints the 0-based start
with `,0`; a length of one omits the `,l` clause. -/
def specCoords (start len : Nat) : Str :=
  if len = 0 then natRepr start ++ [','] ++ natRepr 0
  else if len = 1 then natRepr (start + 1)
  else natRepr (start + 1) ++ ',' :: natRepr len

/-- Patch header as the specification's words describe it (claim C6). -/
def specPatchHeader (p : Patch) : Str :=
  ['@', '@', ' ', '-'] ++ specCoords p.start1 p.length1 ++ [' ', '+'] ++
    specCoords p.start2 p.length2 ++ [' ', '@', '@', '\n']

/-- Patch-header coordinates as the code actually prints them (the amended
claim C6): the printed start is `start + 1` except that a zero length with
a zero start prints `0`; the `,len` clause is printed whenever `len > 0` or
the printed start is `0`. -/
def amendedCoords (start len : Nat) : Str :=
  let s := if len = 0 ∧ start = 0 then 0 else start + 1
  natRepr s ++ (if len > 0 ∨ s = 0 then ',' :: natRepr len else [])

/-- Patch header of the amended claim C6. -/
def amendedPatchHeader (p : Patch) : Str :=
  ['@', '@', ' ', '-'] ++ amendedCoords p.start1 p.length1 ++ [' ', '+'] ++
    amendedCoords p.start2 p.length2 ++ [' ', '@', '@', '\n']

/-- Serialised body of one patch (its diff lines). -/
def patchBody (p : Patch) : Str :=
  p.diffs.flatMap (fun d =>
    (match d with
      | Diff.Keep _ => ' '
      | Diff.Delete _ => '-'
      | Diff.Add _ => '+') ::
    (d.text.flatMap displayEncodeChar ++ ['\n']))

/-!
## Basic lemmas about the text projections
-/

theorem diff_text1_nil : diff_text1 [] = [] := rfl

theorem diff_text1_cons (d : Diff) (rest : List Diff) :
    diff_text1 (d :: rest) =
      (match d with
        | Diff.Keep t => t
        | Diff.Delete t => t
        | Diff.Add _ => []) ++ diff_text1 rest := by
  cases d <;> simp [diff_text1]

theorem diff_text2_nil : diff_text2 [] = [] := rfl

theorem diff_text2_cons (d : Diff) (rest : List Diff) :
    diff_text2 (d :: rest) =
      (match d with
        | Diff.Keep t => t
        | Diff.Add t => t
        | Diff.Delete _ => []) ++ diff_text2 rest := by
  cases d <;> simp [diff_text2]

theorem diff_text1_append (xs ys : List Diff) :
    diff_text1 (xs ++ ys) = diff_text1 xs ++ diff_text1 ys := by
  induction xs with
  | nil => rfl
  | cons d rest ih =>
    cases d <;> simp [diff_text1_cons, ih]

theorem diff_text2_append (xs ys : List Diff) :
    diff_text2 (xs ++ ys) = diff_text2 xs ++ diff_text2 ys := by
  induction xs with
  | nil => rfl
  | cons d rest ih =>
    cases d <;> simp [diff_text2_cons, ih]

/-!
## Lemmas about common prefix and suffix lengths
-/

theorem cpl_le_left : ∀ t1 t2 : Str, diffCommonPrefixLen t1 t2 ≤ t1.length
  | [], _ => by simp [diffCommonPrefixLen]
  | _ :: _, [] => by simp [diffCommonPrefixLen]
  | c1 :: t1, c2 :: t2 => by
    by_cases h : c1 = c2 <;>
      simp [diffCommonPrefixLen, h, Nat.succ_le_succ (cpl_le_left t1 t2)]

theorem cpl_le_right : ∀ t1 t2 : Str, diffCommonPrefixLen t1 t2 ≤ t2.length
  | [], _ => by simp [diffCommonPrefixLen]
  | _ :: _, [] => by simp [diffCommonPrefixLen]
  | c1 :: t1, c2 :: t2 => by
    by_cases h : c1 = c2 <;>
      simp [diffCommonPrefixLen, h, Nat.succ_le_succ (cpl_le_right t1 t2)]

theorem cpl_take_eq : ∀ t1 t2 : Str,
    t1.take (diffCommonPrefixLen t1 t2) = t2.take (diffCommonPrefixLen t1 t2)
  | [], t2 => by simp [diffCommonPrefixLen]
  | _ :: _, [] => by simp [diffCommonPrefixLen]
  | c1 :: t1, c2 :: t2 => by
    by_cases h : c1 = c2 <;> simp [diffCommonPrefixLen, h]
    exact cpl_take_eq t1 t2

theorem dcs_le_left (t1 t2 : Str) : diff_common_suffix t1 t2 ≤ t1.length := by
  have := cpl_le_left t1.reverse t2.reverse
  simpa [diff_common_suffix] using this

theorem dcs_le_right (t1 t2 : Str) : diff_common_suffix t1 t2 ≤ t2.length := by
  have := cpl_le_right t1.reverse t2.reverse
  simpa [diff_common_suffix] using this

theorem rev_take_eq_drop (l : Str) (c : Nat) (h : c ≤ l.length) :
    l.reverse.take c = (l.drop (l.length - c)).reverse := by
  conv_lhs => rw [← List.take_append_drop (l.length - c) l]
  rw [List.reverse_append]
  have hlr : ((l.drop (l.length - c)).reverse).length = c := by
    simp [Nat.sub_sub_self h]
  exact List.take_left' hlr

theorem dcs_drop_eq (t1 t2 : Str) :
    t1.drop (t1.length - diff_common_suffix t1 t2) =
      t2.drop (t2.length - diff_common_suffix t1 t2) := by
  have h' : t1.reverse.take (diff_common_suffix t1 t2) =
      t2.reverse.take (diff_common_suffix t1 t2) :=
    cpl_take_eq t1.reverse t2.reverse
  rw [rev_take_eq_drop t1 _ (dcs_le_left t1 t2),
    rev_take_eq_drop t2 _ (dcs_le_right t1 t2)] at h'
  exact List.reverse_injective h'

/-!
## Soundness of the KMP searchers

A successful `kmp`/`rkmp` result really is an occurrence of the pattern.  The
proofs track the classical matcher invariant: at state `(i, len)` the last
`len` characters read so far equal the first `len` characters of the pattern,
i.e. `(t.take i).drop (i - len) = p.take len`.  The failure table only needs
the property that each entry `tbl[j] ≤ j` names a prefix of the pattern that
is a suffix of `p.take (j+1)`; that property is stable under the `getD` default
used by the embedding, so fuel exhaustion cannot break soundness.
-/

theorem suffix_append_single {s t : Str} (c : Char) (h : s <:+ t) :
    s ++ [c] <:+ t ++ [c] := by
  obtain ⟨q, rfl⟩ := h
  exact ⟨q, (List.append_assoc q s [c]).symm⟩

theorem take_succ_getD (l : Str) (n : Nat) (h : n < l.length) :
    l.take (n + 1) = l.take n ++ [l.getD n ' '] := by
  rw [List.take_succ, List.getElem?_eq_getElem h, List.getD_eq_getElem l ' ' h]
  rfl

theorem window_zero (t : Str) (i : Nat) : (t.take i).drop (i - 0) = [] := by
  exact List.drop_eq_nil_of_le (by simp [List.length_take])

theorem window_extend {t p : Str} {i len : Nat} (hi : i < t.length)
    (hlen : len < p.length) (hle : len ≤ i)
    (W : (t.take i).drop (i - len) = p.take len)
    (hc : t.getD i ' ' = p.getD len ' ') :
    (t.take (i + 1)).drop (i + 1 - (len + 1)) = p.take (len + 1) := by
  have h1 : i + 1 - (len + 1) = i - len := by omega
  rw [h1, take_succ_getD t i hi, take_succ_getD p len hlen,
    List.drop_append_of_le_length (by simp [List.length_take]; omega), W, hc]

theorem window_fallback {t p : Str} {i len len' : Nat}
    (hle : len ≤ i) (hlp : len ≤ p.length) (hl' : len' ≤ len)
    (S : p.take len' <:+ p.take len)
    (W : (t.take i).drop (i - len) = p.take len) :
    (t.take i).drop (i - len') = p.take len' := by
  obtain ⟨q, hq⟩ := S
  have hlq : q.length = len - len' := by
    have := congrArg List.length hq
    simp [List.length_take] at this
    omega
  have h2 : i - len' = (i - len) + (len - len') := by omega
  rw [h2, ← List.drop_drop, W, ← hq, List.drop_left' hlq]

theorem window_success {t p : Str} {i : Nat} (hi : i < t.length)
    (hp : p.length ≤ i + 1)
    (W : (t.take (i + 1)).drop (i + 1 - p.length) = p.take p.length) :
    (i + 1 - p.length) + p.length ≤ t.length ∧
      (t.drop (i + 1 - p.length)).take p.length = p := by
  constructor
  · omega
  · rw [List.drop_take] at W
    have h3 : i + 1 - (i + 1 - p.length) = p.length := by omega
    rw [h3, List.take_length] at W
    exact W

theorem kmpTableGo_ok (p : Str) :
    ∀ fuel tbl len i, tbl.length = i → len < i →
      p.take len <:+ p.take i →
      (∀ j, tbl.getD j 0 ≤ j ∧ p.take (tbl.getD j 0) <:+ p.take (j + 1)) →
      ∀ j, (kmpTableGo p p.length fuel tbl len i).getD j 0 ≤ j ∧
        p.take ((kmpTableGo p p.length fuel tbl len i).getD j 0) <:+
          p.take (j + 1)
  | 0, tbl, len, i, _, _, _, htbl => by
    intro j; exact htbl j
  | fuel + 1, tbl, len, i, hlen, hli, hsuf, htbl => by
    by_cases hi : i < p.length
    · by_cases hc : p.getD i ' ' = p.getD len ' '
      · rw [show kmpTableGo p p.length (fuel + 1) tbl len i =
            kmpTableGo p p.length fuel (tbl ++ [len + 1]) (len + 1) (i + 1) by
          simp only [kmpTableGo]; rw [if_pos hi, if_pos hc]]
        apply kmpTableGo_ok p fuel (tbl ++ [len + 1]) (len + 1) (i + 1)
        · simp [hlen]
        · omega
        · have hlp : len < p.length := by omega
          rw [take_succ_getD p len hlp, take_succ_getD p i hi, ← hc]
          exact suffix_append_single _ hsuf
        · intro j
          by_cases hj : j < tbl.length
          · have : (tbl ++ [len + 1]).getD j 0 = tbl.getD j 0 := by
              simp [List.getD, List.getElem?_append_left hj]
            rw [this]; exact htbl j
          · by_cases hj2 : j = tbl.length
            · subst hj2
              have : (tbl ++ [len + 1]).getD tbl.length 0 = len + 1 := by
                simp [List.getD]
              rw [this]
              constructor
              · omega
              · rw [hlen]
                have hlp : len < p.length := by omega
                rw [take_succ_getD p len hlp, take_succ_getD p i hi, ← hc]
                exact suffix_append_single _ hsuf
            · have : (tbl ++ [len + 1]).getD j 0 = 0 := by
                have hge : (tbl ++ [len + 1]).length ≤ j := by
                  simp; omega
                simp [List.getD, List.getElem?_eq_none hge]
              rw [this]
              exact ⟨Nat.zero_le _, by simp⟩
      · by_cases hz : len = 0
        · rw [show kmpTableGo p p.length (fuel + 1) tbl len i =
              kmpTableGo p p.length fuel (tbl ++ [0]) 0 (i + 1) by
            simp only [kmpTableGo]; rw [if_pos hi, if_neg hc, if_pos hz]]
          apply kmpTableGo_ok p fuel (tbl ++ [0]) 0 (i + 1)
          · simp [hlen]
          · omega
          · simp
          · intro j
            by_cases hj : j < tbl.length
            · have : (tbl ++ [0]).getD j 0 = tbl.getD j 0 := by
                simp [List.getD, List.getElem?_append_left hj]
              rw [this]; exact htbl j
            · by_cases hj2 : j = tbl.length
              · subst hj2
                have : (tbl ++ [0]).getD tbl.length 0 = 0 := by
                  simp [List.getD]
                rw [this]
                exact ⟨Nat.zero_le _, by simp⟩
              · have hge : (tbl ++ [0]).length ≤ j := by simp; omega
                have : (tbl ++ [0]).getD j 0 = 0 := by
                  simp [List.getD, List.getElem?_eq_none hge]
                rw [this]
                exact ⟨Nat.zero_le _, by simp⟩
        · rw [show kmpTableGo p p.length (fuel + 1) tbl len i =
              kmpTableGo p p.length fuel tbl (tbl.getD (len - 1) 0) i by
            simp only [kmpTableGo]; rw [if_pos hi, if_neg hc, if_neg hz]]
          obtain ⟨h1, h2⟩ := htbl (len - 1)
          apply kmpTableGo_ok p fuel tbl (tbl.getD (len - 1) 0) i hlen
          · omega
          · have : len - 1 + 1 = len := by omega
            rw [this] at h2
            exact h2.trans hsuf
          · exact htbl
    · rw [show kmpTableGo p p.length (fuel + 1) tbl len i = tbl by
        simp only [kmpTableGo]; rw [if_neg hi]]
      exact htbl

theorem kmpTable_ok (p : Str) :
    ∀ j, (kmpTable p).getD j 0 ≤ j ∧
      p.take ((kmpTable p).getD j 0) <:+ p.take (j + 1) := by
  have h0 : ∀ j, ([0] : List Nat).getD j 0 ≤ j ∧
      p.take (([0] : List Nat).getD j 0) <:+ p.take (j + 1) := by
    intro j
    cases j with
    | zero => exact ⟨Nat.le_refl 0, by simp⟩
    | succ n =>
      constructor
      · simp [List.getD]
      · simp [List.getD]
  exact kmpTableGo_ok p (2 * p.length + 2) [0] 0 1 rfl Nat.zero_lt_one
    (by simp) h0

theorem kmpGo_sound (t p : Str) (tbl : List Nat)
    (htbl : ∀ j, tbl.getD j 0 ≤ j ∧
      p.take (tbl.getD j 0) <:+ p.take (j + 1)) :
    ∀ fuel i len r, len ≤ i → len < p.length →
      (t.take i).drop (i - len) = p.take len →
      kmpGo t p t.length p.length tbl fuel i len = some r →
      r + p.length ≤ t.length ∧ (t.drop r).take p.length = p
  | 0, i, len, r, _, _, _, h => by simp [kmpGo] at h
  | fuel + 1, i, len, r, hle, hlp, W, h => by
    rw [kmpGo] at h
    by_cases hi : i < t.length
    · rw [if_pos hi] at h
      by_cases hc : t.getD i ' ' = p.getD len ' '
      · rw [if_pos hc] at h
        have Wx := window_extend hi hlp hle W hc
        by_cases hdone : len + 1 = p.length
        · rw [if_pos hdone] at h
          have hr : r = i + 1 - p.length := by
            simpa using h.symm
          subst hr
          rw [hdone] at Wx
          exact window_success hi (by omega) Wx
        · rw [if_neg hdone] at h
          exact kmpGo_sound t p tbl htbl fuel (i + 1) (len + 1) r
            (by omega) (by omega) Wx h
      · rw [if_neg hc] at h
        by_cases hz : len = 0
        · rw [if_pos hz] at h
          exact kmpGo_sound t p tbl htbl fuel (i + 1) 0 r
            (Nat.zero_le _) (by omega) (window_zero t (i + 1)) h
        · rw [if_neg hz] at h
          obtain ⟨h1, h2⟩ := htbl (len - 1)
          have hlen1 : len - 1 + 1 = len := by omega
          rw [hlen1] at h2
          exact kmpGo_sound t p tbl htbl fuel i (tbl.getD (len - 1) 0) r
            (by omega) (by omega)
            (window_fallback hle (by omega) (by omega) h2 W) h
    · rw [if_neg hi] at h
      exact absurd h (by simp)

theorem kmp_sound (t p : Str) (ind r : Nat) (hp : p ≠ [])
    (h : kmp t p ind = some r) :
    r + p.length ≤ t.length ∧ (t.drop r).take p.length = p := by
  rw [kmp] at h
  rw [if_neg (by simpa [List.isEmpty_iff] using hp)] at h
  by_cases ht : t.isEmpty
  · rw [if_pos ht] at h
    exact absurd h (by simp)
  · rw [if_neg ht] at h
    exact kmpGo_sound t p (kmpTable p) (kmpTable_ok p)
      (2 * t.length + 2) ind 0 r (Nat.zero_le _)
      (by cases p with
          | nil => exact absurd rfl hp
          | cons a l => simp)
      (window_zero t ind) h

theorem rkmpGo_sound (t p : Str) (tbl : List Nat) (e : Nat)
    (he : e < t.length)
    (htbl : ∀ j, tbl.getD j 0 ≤ j ∧
      p.take (tbl.getD j 0) <:+ p.take (j + 1)) :
    ∀ fuel i len ans r, len ≤ i → len < p.length →
      (t.take i).drop (i - len) = p.take len →
      (∀ a, ans = some a →
        a + p.length ≤ t.length ∧ (t.drop a).take p.length = p) →
      rkmpGo t p p.length tbl e fuel i len ans = some r →
      r + p.length ≤ t.length ∧ (t.drop r).take p.length = p
  | 0, i, len, ans, r, _, _, _, hans, h => by
    exact hans r (by simpa [rkmpGo] using h)
  | fuel + 1, i, len, ans, r, hle, hlp, W, hans, h => by
    rw [rkmpGo] at h
    by_cases hi : i ≤ e
    · rw [if_pos hi] at h
      have hit : i < t.length := by omega
      by_cases hc : t.getD i ' ' = p.getD len ' '
      · rw [if_pos hc] at h
        have Wx := window_extend hit hlp hle W hc
        by_cases hdone : len + 1 = p.length
        · rw [if_pos hdone] at h
          rw [hdone] at Wx
          have hsound := window_success hit (by omega) Wx
          obtain ⟨h1, h2⟩ := htbl (p.length - 1)
          have hlen1 : p.length - 1 + 1 = p.length := by omega
          rw [hlen1] at h2
          rw [List.take_length] at h2
          refine rkmpGo_sound t p tbl e he htbl fuel (i + 1)
            (tbl.getD (p.length - 1) 0) (some (i + 1 - p.length)) r
            (by omega) (by omega) ?_ ?_ h
          · have Wfull : (t.take (i + 1)).drop (i + 1 - p.length) =
                p.take p.length := Wx
            exact window_fallback (by omega) (le_refl _) (by omega)
              (by rw [List.take_length]; exact h2) Wfull
          · intro a ha
            have : a = i + 1 - p.length := by
              simpa using ha.symm
            subst this
            exact hsound
        · rw [if_neg hdone] at h
          exact rkmpGo_sound t p tbl e he htbl fuel (i + 1) (len + 1) ans r
            (by omega) (by omega) Wx hans h
      · rw [if_neg hc] at h
        by_cases hz : len = 0
        · rw [if_pos hz] at h
          exact rkmpGo_sound t p tbl e he htbl fuel (i + 1) 0 ans r
            (Nat.zero_le _) (by omega) (window_zero t (i + 1)) hans h
        · rw [if_neg hz] at h
          obtain ⟨h1, h2⟩ := htbl (len - 1)
          have hlen1 : len - 1 + 1 = len := by omega
          rw [hlen1] at h2
          exact rkmpGo_sound t p tbl e he htbl fuel i
            (tbl.getD (len - 1) 0) ans r (by omega) (by omega)
            (window_fallback hle (by omega) (by omega) h2 W) hans h
    · rw [if_neg hi] at h
      exact hans r h

theorem rkmp_sound (t p : Str) (e r : Nat) (hp : p ≠ [])
    (he : e < t.length) (h : rkmp t p e = some r) :
    r + p.length ≤ t.length ∧ (t.drop r).take p.length = p := by
  rw [rkmp] at h
  rw [if_neg (by simpa [List.isEmpty_iff] using hp)] at h
  by_cases ht : t.isEmpty
  · rw [if_pos ht] at h
    exact absurd h (by simp)
  · rw [if_neg ht] at h
    exact rkmpGo_sound t p (kmpTable p) e he (kmpTable_ok p)
      (2 * (e + p.length) + 4) 0 0 none r (Nat.le_refl 0)
      (by cases p with
          | nil => exact absurd rfl hp
          | cons a l => simp)
      (window_zero t 0) (by intro a ha; exact absurd ha (by simp)) h

/-!
## Text preservation through `diff_cleanup_merge`

`diff_cleanup_merge` rewrites the script without changing the texts it
represents: `diff_text1` and `diff_text2` are invariants of both passes.
During pass one the accumulator is empty or ends in a `Keep`, so the
`insert(0, …)` branch of the prefix factoring only ever fires at the start of
the vector, where it agrees with appending.
-/

theorem dt1_keep (t : Str) : diff_text1 [Diff.Keep t] = t := by
  simp [diff_text1]

theorem dt1_del (t : Str) : diff_text1 [Diff.Delete t] = t := by
  simp [diff_text1]

theorem dt1_add (t : Str) : diff_text1 [Diff.Add t] = [] := by
  simp [diff_text1]

theorem dt2_keep (t : Str) : diff_text2 [Diff.Keep t] = t := by
  simp [diff_text2]

theorem dt2_del (t : Str) : diff_text2 [Diff.Delete t] = [] := by
  simp [diff_text2]

theorem dt2_add (t : Str) : diff_text2 [Diff.Add t] = t := by
  simp [diff_text2]

theorem getLast?_decomp (l : List Diff) (d : Diff)
    (h : l.getLast? = some d) : l = l.dropLast ++ [d] := by
  have hm : d ∈ l.getLast? := by rw [h]; rfl
  exact (List.dropLast_append_getLast? d hm).symm

theorem text_keep_last (acc : List Diff) (t pre : Str)
    (h : acc.getLast? = some (Diff.Keep t)) :
    diff_text1 (acc.dropLast ++ [Diff.Keep (t ++ pre)]) =
      diff_text1 acc ++ pre ∧
    diff_text2 (acc.dropLast ++ [Diff.Keep (t ++ pre)]) =
      diff_text2 acc ++ pre := by
  constructor <;>
  · conv_rhs => rw [getLast?_decomp acc (Diff.Keep t) h]
    simp [diff_text1_append, diff_text2_append, dt1_keep, dt2_keep]

theorem mergePrefixStep_text (acc : List Diff) (pd pi txt : Str)
    (hacc : acc = [] ∨ ∃ t, acc.getLast? = some (Diff.Keep t)) :
    diff_text1 (mergePrefixStep acc pd pi txt).1 ++
        ((mergePrefixStep acc pd pi txt).2.1 ++ txt) =
      diff_text1 acc ++ (pd ++ txt) ∧
    diff_text2 (mergePrefixStep acc pd pi txt).1 ++
        ((mergePrefixStep acc pd pi txt).2.2.1 ++ txt) =
      diff_text2 acc ++ (pi ++ txt) ∧
    (mergePrefixStep acc pd pi txt).2.2.2 = txt := by
  by_cases hc1 : diffCommonPrefixLen pi pd = 0
  · simp [mergePrefixStep, hc1]
  · have htake : pi.take (diffCommonPrefixLen pi pd) ++
        pd.drop (diffCommonPrefixLen pi pd) = pd := by
      rw [cpl_take_eq pi pd]
      exact List.take_append_drop _ pd
    have htake2 : pi.take (diffCommonPrefixLen pi pd) ++
        pi.drop (diffCommonPrefixLen pi pd) = pi :=
      List.take_append_drop _ pi
    rcases hacc with rfl | ⟨t, ht⟩
    · simp only [mergePrefixStep, List.getLast?_nil, ne_eq, hc1,
        not_false_iff, if_true]
      refine ⟨?_, ?_, by trivial⟩ <;>
        simp [dt1_keep, dt2_keep, diff_text1_cons, diff_text2_cons,
          diff_text1_nil, diff_text2_nil, ← List.append_assoc, htake, htake2]
    · obtain ⟨k1, k2⟩ :=
        text_keep_last acc t (pi.take (diffCommonPrefixLen pi pd)) ht

      simp only [mergePrefixStep, ht, ne_eq, hc1, not_false_iff, if_true]
      refine ⟨?_, ?_, by trivial⟩
      · rw [k1, List.append_assoc, ← List.append_assoc _ _ txt, htake]
      · rw [k2, List.append_assoc, ← List.append_assoc _ _ txt, htake2]

theorem mergeSuffixStep_text (st1 : List Diff × Str × Str × Str) :
    diff_text1 (mergeSuffixStep st1).1 ++ ((mergeSuffixStep st1).2.1 ++
        (mergeSuffixStep st1).2.2.2) =
      diff_text1 st1.1 ++ (st1.2.1 ++ st1.2.2.2) ∧
    diff_text2 (mergeSuffixStep st1).1 ++ ((mergeSuffixStep st1).2.2.1 ++
        (mergeSuffixStep st1).2.2.2) =
      diff_text2 st1.1 ++ (st1.2.2.1 ++ st1.2.2.2) := by
  obtain ⟨a, d, i2, t⟩ := st1
  by_cases hc2 : diff_common_suffix i2 d = 0
  · simp [mergeSuffixStep, hc2]
  · have hd : d.take (d.length - diff_common_suffix i2 d) ++
        (i2.drop (i2.length - diff_common_suffix i2 d) ++ t) = d ++ t := by
      rw [dcs_drop_eq i2 d, ← List.append_assoc, List.take_append_drop]
    have hi : i2.take (i2.length - diff_common_suffix i2 d) ++
        (i2.drop (i2.length - diff_common_suffix i2 d) ++ t) = i2 ++ t := by
      rw [← List.append_assoc, List.take_append_drop]
    simp only [mergeSuffixStep, ne_eq, hc2, not_false_iff, if_true]
    exact ⟨by rw [hd], by rw [hi]⟩

theorem mergeRunSt_text (acc : List Diff) (pd pi txt : Str) (cd ci : Nat)
    (hacc : acc = [] ∨ ∃ t, acc.getLast? = some (Diff.Keep t)) :
    diff_text1 (mergeRunSt acc pd pi txt cd ci).1 ++
        ((mergeRunSt acc pd pi txt cd ci).2.1 ++
          (mergeRunSt acc pd pi txt cd ci).2.2.2) =
      diff_text1 acc ++ (pd ++ txt) ∧
    diff_text2 (mergeRunSt acc pd pi txt cd ci).1 ++
        ((mergeRunSt acc pd pi txt cd ci).2.2.1 ++
          (mergeRunSt acc pd pi txt cd ci).2.2.2) =
      diff_text2 acc ++ (pi ++ txt) := by
  unfold mergeRunSt
  by_cases h0 : cd > 0 ∧ ci > 0
  · rw [if_pos h0]
    obtain ⟨e1, e2, e3⟩ := mergePrefixStep_text acc pd pi txt hacc
    obtain ⟨f1, f2⟩ := mergeSuffixStep_text (mergePrefixStep acc pd pi txt)
    rw [e3] at f1 f2
    exact ⟨f1.trans e1, f2.trans e2⟩
  · rw [if_neg h0]
    exact ⟨rfl, rfl⟩

theorem mergeRunFactor_text (acc : List Diff) (pd pi txt : Str) (cd ci : Nat)
    (hacc : acc = [] ∨ ∃ t, acc.getLast? = some (Diff.Keep t)) :
    diff_text1 (mergeRunFactor acc pd pi txt cd ci) =
      diff_text1 acc ++ (pd ++ txt) ∧
    diff_text2 (mergeRunFactor acc pd pi txt cd ci) =
      diff_text2 acc ++ (pi ++ txt) := by
  obtain ⟨h1, h2⟩ := mergeRunSt_text acc pd pi txt cd ci hacc
  rcases hEq : mergeRunSt acc pd pi txt cd ci with ⟨a, d, i2, t⟩
  rw [hEq] at h1 h2
  simp only at h1 h2
  unfold mergeRunFactor
  rw [hEq]
  by_cases hdnil : d = [] <;> by_cases hinil : i2 = [] <;>
    subst_eqs <;>
    simp_all [diff_text1_append, diff_text2_append, diff_text1_cons,
      diff_text2_cons, diff_text1_nil, diff_text2_nil, dt1_keep, dt2_keep,
      dt1_del, dt2_del, dt1_add, dt2_add]

theorem mergeRunFactor_last (acc : List Diff) (pd pi txt : Str)
    (cd ci : Nat) :
    ∃ t, (mergeRunFactor acc pd pi txt cd ci).getLast? =
      some (Diff.Keep t) := by
  refine ⟨(mergeRunSt acc pd pi txt cd ci).2.2.2, ?_⟩
  unfold mergeRunFactor
  exact List.getLast?_concat _

theorem pass1Go_text : ∀ (rest acc : List Diff) (pd pi : Str)
    (pe : List Diff) (cd ci : Nat),
    (acc = [] ∨ ∃ t, acc.getLast? = some (Diff.Keep t)) →
    diff_text1 pe = pd → diff_text2 pe = pi →
    diff_text1 (pass1Go acc pd pi pe cd ci rest) =
      diff_text1 acc ++ (pd ++ diff_text1 rest) ∧
    diff_text2 (pass1Go acc pd pi pe cd ci rest) =
      diff_text2 acc ++ (pi ++ diff_text2 rest)
  | [], acc, pd, pi, pe, cd, ci, _, h1, h2 => by
    simp only [pass1Go]
    constructor <;>
      simp [diff_text1_append, diff_text2_append, diff_text1_nil,
        diff_text2_nil, h1, h2]
  | Diff.Delete t :: rest, acc, pd, pi, pe, cd, ci, hacc, h1, h2 => by
    simp only [pass1Go]
    obtain ⟨i1, i2⟩ := pass1Go_text rest acc (pd ++ t) pi
      (pe ++ [Diff.Delete t]) (cd + 1) ci hacc
      (by simp [diff_text1_append, h1, dt1_del])
      (by simp [diff_text2_append, h2, dt2_del])
    constructor <;>
      simp [i1, i2, diff_text1_cons, diff_text2_cons]
  | Diff.Add t :: rest, acc, pd, pi, pe, cd, ci, hacc, h1, h2 => by
    simp only [pass1Go]
    obtain ⟨i1, i2⟩ := pass1Go_text rest acc pd (pi ++ t)
      (pe ++ [Diff.Add t]) cd (ci + 1) hacc
      (by simp [diff_text1_append, h1, dt1_add])
      (by simp [diff_text2_append, h2, dt2_add])
    constructor <;>
      simp [i1, i2, diff_text1_cons, diff_text2_cons]
  | Diff.Keep txt :: rest, acc, pd, pi, pe, cd, ci, hacc, h1, h2 => by
    simp only [pass1Go]
    by_cases hgt : cd + ci > 1
    · rw [if_pos hgt]
      obtain ⟨m1, m2⟩ := mergeRunFactor_text acc pd pi txt cd ci hacc
      obtain ⟨i1, i2⟩ := pass1Go_text rest (mergeRunFactor acc pd pi txt cd ci)
        [] [] [] 0 0 (Or.inr (mergeRunFactor_last acc pd pi txt cd ci))
        rfl rfl
      constructor <;>
        simp [i1, i2, m1, m2, diff_text1_cons, diff_text2_cons]
    · rw [if_neg hgt]
      rcases hl : (acc ++ pe).getLast? with _ | d
      · obtain ⟨i1, i2⟩ := pass1Go_text rest ((acc ++ pe) ++ [Diff.Keep txt])
          [] [] [] 0 0 (Or.inr ⟨txt, List.getLast?_concat _⟩) rfl rfl
        try simp only [List.append_assoc] at i1 i2
        constructor <;>
          simp [i1, i2, diff_text1_append, diff_text2_append, dt1_keep,
            dt2_keep, diff_text1_cons, diff_text2_cons, diff_text1_nil,
            diff_text2_nil, h1, h2]
      · cases d with
        | Keep t =>
          obtain ⟨k1, k2⟩ := text_keep_last (acc ++ pe) t txt hl
          obtain ⟨i1, i2⟩ := pass1Go_text rest
            ((acc ++ pe).dropLast ++ [Diff.Keep (t ++ txt)]) [] [] [] 0 0
            (Or.inr ⟨t ++ txt, List.getLast?_concat _⟩) rfl rfl
          try simp only [List.append_assoc] at i1 i2
          constructor <;>
            simp [i1, i2, k1, k2, diff_text1_append, diff_text2_append,
              diff_text1_cons, diff_text2_cons, diff_text1_nil,
              diff_text2_nil, h1, h2]
        | Add t =>
          obtain ⟨i1, i2⟩ := pass1Go_text rest ((acc ++ pe) ++ [Diff.Keep txt])
            [] [] [] 0 0 (Or.inr ⟨txt, List.getLast?_concat _⟩) rfl rfl
          try simp only [List.append_assoc] at i1 i2
          constructor <;>
            simp [i1, i2, diff_text1_append, diff_text2_append, dt1_keep,
              dt2_keep, diff_text1_cons, diff_text2_cons, diff_text1_nil,
              diff_text2_nil, h1, h2]
        | Delete t =>
          obtain ⟨i1, i2⟩ := pass1Go_text rest ((acc ++ pe) ++ [Diff.Keep txt])
            [] [] [] 0 0 (Or.inr ⟨txt, List.getLast?_concat _⟩) rfl rfl
          try simp only [List.append_assoc] at i1 i2
          constructor <;>
            simp [i1, i2, diff_text1_append, diff_text2_append, dt1_keep,
              dt2_keep, diff_text1_cons, diff_text2_cons, diff_text1_nil,
              diff_text2_nil, h1, h2]

theorem text_of_empty_text (d : Diff) (h : d.text = []) :
    diff_text1 [d] = [] ∧ diff_text2 [d] = [] := by
  cases d <;> simp_all [Diff.text, dt1_keep, dt2_keep, dt1_del, dt2_del,
    dt1_add, dt2_add]

theorem pass1_post_text (r : List Diff) :
    diff_text1 (match r.getLast? with
      | some d => if d.text = [] then r.dropLast else r
      | none => r) = diff_text1 r ∧
    diff_text2 (match r.getLast? with
      | some d => if d.text = [] then r.dropLast else r
      | none => r) = diff_text2 r := by
  rcases hl : r.getLast? with _ | d
  · exact ⟨rfl, rfl⟩
  · by_cases he : d.text = []
    · simp only [if_pos he]
      obtain ⟨e1, e2⟩ := text_of_empty_text d he
      have hr : r.dropLast ++ [d] = r := (getLast?_decomp r d hl).symm
      constructor
      · have := congrArg diff_text1 hr
        rw [diff_text1_append, e1, List.append_nil] at this
        exact this
      · have := congrArg diff_text2 hr
        rw [diff_text2_append, e2, List.append_nil] at this
        exact this
    · simp [if_neg he]

theorem pass1_text (ds : List Diff) :
    diff_text1 (pass1 ds) = diff_text1 ds ∧
    diff_text2 (pass1 ds) = diff_text2 ds := by
  obtain ⟨h1, h2⟩ := pass1Go_text (ds ++ [Diff.Keep []]) [] [] [] [] 0 0
    (Or.inl rfl) rfl rfl
  rw [diff_text1_append] at h1
  rw [diff_text2_append] at h2
  simp only [dt1_keep, dt2_keep, diff_text1_nil, diff_text2_nil,
    List.append_nil, List.nil_append] at h1 h2
  obtain ⟨p1, p2⟩ :=
    pass1_post_text (pass1Go [] [] [] [] 0 0 (ds ++ [Diff.Keep []]))
  exact ⟨p1.trans h1, p2.trans h2⟩

theorem surgery_front (A B : List Diff) (p c n X Y : Diff) :
    (((A ++ p :: c :: n :: B).set (A.length + 1) X).set (A.length + 2)
      Y).eraseIdx A.length = A ++ X :: Y :: B := by
  induction A with
  | nil => simp
  | cons a A ih => simpa using ih

theorem surgery_back (A B : List Diff) (p c n U V : Diff) :
    (((A ++ p :: c :: n :: B).set A.length U).set (A.length + 1)
      V).eraseIdx (A.length + 2) = A ++ U :: V :: B := by
  induction A with
  | nil => simp
  | cons a A ih => simpa using ih

theorem decomp3 (l : List Diff) (i : Nat) (h1 : 1 ≤ i)
    (h2 : i + 1 < l.length) :
    l = l.take (i - 1) ++ l.getD (i - 1) (Diff.Keep []) ::
      l.getD i (Diff.Keep []) :: l.getD (i + 1) (Diff.Keep []) ::
      l.drop (i + 2) := by
  have e1 : i - 1 < l.length := by omega
  have e2 : i < l.length := by omega
  have hd1 : l.drop (i - 1) = l.getD (i - 1) (Diff.Keep []) :: l.drop i := by
    rw [List.drop_eq_getElem_cons e1, List.getD_eq_getElem l _ e1]
    have e : i - 1 + 1 = i := by omega
    rw [e]
  have hd2 : l.drop i = l.getD i (Diff.Keep []) :: l.drop (i + 1) := by
    rw [List.drop_eq_getElem_cons e2, List.getD_eq_getElem l _ e2]
  have hd3 : l.drop (i + 1) =
      l.getD (i + 1) (Diff.Keep []) :: l.drop (i + 2) := by
    rw [List.drop_eq_getElem_cons h2, List.getD_eq_getElem l _ h2]
  conv_lhs => rw [← List.take_append_drop (i - 1) l]
  rw [hd1, hd2, hd3]

theorem getD_append_cons (A R : List Diff) (p d : Diff) (k : Nat)
    (hk : k = A.length) : (A ++ p :: R).getD k d = p := by
  subst hk
  simp [List.getD, List.getElem?_append_right (le_refl A.length)]

theorem endswith_decomp (t s : Str) (h : endswith t s = true) :
    t.take (t.length - s.length) ++ s = t := by
  unfold endswith at h
  have hsuf : s <:+ t := by
    have hp : s.reverse <+: t.reverse := List.isPrefixOf_iff_prefix.mp h
    exact List.reverse_prefix.mp hp
  obtain ⟨q, rfl⟩ := hsuf
  have e : (q ++ s).length - s.length = q.length := by simp
  rw [e, List.take_left]

theorem startswith_decomp (t s : Str) (h : startswith t s = true) :
    s ++ t.drop s.length = t := by
  unfold startswith at h
  have hp : s <+: t := List.isPrefixOf_iff_prefix.mp h
  obtain ⟨r, rfl⟩ := hp
  rw [List.drop_left]

theorem erase_at_len (A B : List Diff) (x : Diff) :
    (A ++ x :: B).eraseIdx A.length = A ++ B := by
  induction A with
  | nil => simp
  | cons a A ih => simpa using ih

theorem pass2Go_text : ∀ (fuel : Nat) (diffs : List Diff) (i : Nat)
    (ch : Bool), 1 ≤ i →
    diff_text1 (pass2Go fuel diffs i ch).1 = diff_text1 diffs ∧
    diff_text2 (pass2Go fuel diffs i ch).1 = diff_text2 diffs
  | 0, diffs, i, ch, _ => ⟨rfl, rfl⟩
  | fuel + 1, diffs, i, ch, hi => by
    simp only [pass2Go]
    by_cases hlenc : i + 1 < diffs.length
    · rw [if_pos hlenc]
      obtain ⟨A, p, c, n, B, hAlen, hdec⟩ :
          ∃ A p c n B, A.length = i - 1 ∧
            diffs = A ++ p :: c :: n :: B :=
        ⟨diffs.take (i - 1), diffs.getD (i - 1) (Diff.Keep []),
          diffs.getD i (Diff.Keep []), diffs.getD (i + 1) (Diff.Keep []),
          diffs.drop (i + 2), List.length_take_of_le (by omega),
          decomp3 diffs i hi hlenc⟩
      rw [hdec]
      have hgp : (A ++ p :: c :: n :: B).getD (i - 1) (Diff.Keep []) = p :=
        getD_append_cons A _ p _ (i - 1) (by omega)
      have hgc : (A ++ p :: c :: n :: B).getD i (Diff.Keep []) = c := by
        rw [show A ++ p :: c :: n :: B = (A ++ [p]) ++ c :: n :: B by simp]
        exact getD_append_cons (A ++ [p]) _ c _ i (by simp; omega)
      have hgn : (A ++ p :: c :: n :: B).getD (i + 1) (Diff.Keep []) = n := by
        rw [show A ++ p :: c :: n :: B = (A ++ [p, c]) ++ n :: B by simp]
        exact getD_append_cons (A ++ [p, c]) _ n _ (i + 1) (by simp; omega)
      rw [hgp, hgc, hgn]
      have hiA : i = A.length + 1 := by omega
      rcases p with pt | pt | pt <;> rcases n with nt | nt | nt <;>
        try exact pass2Go_text fuel _ (i + 1) ch (by omega)
      -- remaining case: prev and next are both `Keep`
      simp only []
      by_cases hew : endswith c.text pt = true
      · rw [if_pos hew]
        by_cases hpe : pt = []
        · subst hpe
          rw [if_neg (by simp)]
          have hER : (A ++ Diff.Keep [] :: c :: Diff.Keep nt :: B).eraseIdx
              (i - 1) = A ++ c :: Diff.Keep nt :: B := by
            rw [show i - 1 = A.length by omega]
            exact erase_at_len A _ _
          rw [hER]
          refine ⟨(pass2Go_text fuel _ i true hi).1.trans ?_,
            (pass2Go_text fuel _ i true hi).2.trans ?_⟩ <;>
            simp [diff_text1_append, diff_text2_append, diff_text1_cons,
              diff_text2_cons]
        · rw [if_pos hpe]
          obtain ⟨w, hw1, hw2⟩ : ∃ w, c.text.take (c.text.length -
              pt.length) = w ∧ w ++ pt = c.text :=
            ⟨_, rfl, endswith_decomp c.text pt hew⟩
          rw [hw1, hiA]
          have e2 : A.length + 1 + 1 = A.length + 2 := rfl
          have e3 : A.length + 1 - 1 = A.length := by omega
          rw [e2, e3, surgery_front]
          refine ⟨(pass2Go_text fuel _ (A.length + 1) true
              (by omega)).1.trans ?_,
            (pass2Go_text fuel _ (A.length + 1) true (by omega)).2.trans
              ?_⟩ <;>
          · cases c <;>
            · rename_i ct
              have hw3 : w ++ pt = ct := by simpa [Diff.text] using hw2
              conv_rhs => rw [← hw3]
              simp [diff_text1_append, diff_text2_append, diff_text1_cons,
                diff_text2_cons, Diff.with_text, Diff.text]
      · rw [if_neg hew]
        by_cases hsw : startswith c.text nt = true
        · rw [if_pos hsw]
          obtain ⟨w, hw1, hw2⟩ : ∃ w, c.text.drop nt.length = w ∧
              nt ++ w = c.text :=
            ⟨_, rfl, startswith_decomp c.text nt hsw⟩
          rw [hw1, hiA]
          have e2 : A.length + 1 + 1 = A.length + 2 := rfl
          have e3 : A.length + 1 - 1 = A.length := by omega
          rw [e2, e3, surgery_back]
          refine ⟨(pass2Go_text fuel _ (A.length + 1 + 1) true
              (by omega)).1.trans ?_,
            (pass2Go_text fuel _ (A.length + 1 + 1) true
              (by omega)).2.trans ?_⟩ <;>
          · cases c <;>
            · rename_i ct
              have hw3 : nt ++ w = ct := by simpa [Diff.text] using hw2
              conv_rhs => rw [← hw3]
              simp [diff_text1_append, diff_text2_append, diff_text1_cons,
                diff_text2_cons, Diff.with_text, Diff.text]
        · rw [if_neg hsw]
          exact pass2Go_text fuel (A ++ Diff.Keep pt :: c :: Diff.Keep nt
            :: B) (i + 1) ch (by omega)
    · rw [if_neg hlenc]
      exact ⟨rfl, rfl⟩

theorem cleanupMergeGo_text : ∀ (fuel : Nat) (ds : List Diff),
    diff_text1 (cleanupMergeGo fuel ds) = diff_text1 ds ∧
    diff_text2 (cleanupMergeGo fuel ds) = diff_text2 ds
  | 0, ds => ⟨rfl, rfl⟩
  | fuel + 1, ds => by
    simp only [cleanupMergeGo]
    by_cases he : ds.isEmpty
    · rw [if_pos he]
      exact ⟨rfl, rfl⟩
    · rw [if_neg he]
      obtain ⟨p1, p2⟩ := pass1_text ds
      obtain ⟨q1, q2⟩ := pass2Go_text ((pass1 ds).length + 2) (pass1 ds) 1
        false (le_refl 1)
      by_cases hc : (pass2Go ((pass1 ds).length + 2) (pass1 ds) 1 false).2
      · rw [if_pos hc]
        obtain ⟨r1, r2⟩ := cleanupMergeGo_text fuel
          (pass2Go ((pass1 ds).length + 2) (pass1 ds) 1 false).1
        exact ⟨r1.trans (q1.trans p1), r2.trans (q2.trans p2)⟩
      · rw [if_neg hc]
        exact ⟨q1.trans p1, q2.trans p2⟩

theorem cleanup_merge_text (ds : List Diff) :
    diff_text1 (diff_cleanup_merge ds) = diff_text1 ds ∧
    diff_text2 (diff_cleanup_merge ds) = diff_text2 ds :=
  cleanupMergeGo_text _ ds

/-!
## Reconstruction: `diff_main` scripts replay both inputs

With no `diff_timeout` configured (the default) the half-match heuristic is
disabled, and with `checklines = false` the line-mode path is skipped, so
every script the mutually recursive family produces — including the
deadline/fuel fallback `[Delete text1, Add text2]` — satisfies
`diff_text1 = text1` and `diff_text2 = text2`.
-/

theorem half_match_none (cfg : Config) (h : cfg.diff_timeout = none)
    (t1 t2 : Str) : diff_half_match cfg t1 t2 = none := by
  unfold diff_half_match
  rw [h]

theorem keep_opt_text (t : Str) :
    diff_text1 (if t ≠ [] then [Diff.Keep t] else []) = t ∧
    diff_text2 (if t ≠ [] then [Diff.Keep t] else []) = t := by
  by_cases h : t = [] <;>
    simp [h, dt1_keep, dt2_keep, diff_text1_nil, diff_text2_nil]

theorem diff_recon (fuel : Nat) :
    (∀ cfg clock t1 t2, cfg.diff_timeout = none →
      diff_text1 (diff_main_internal cfg clock fuel t1 t2 false) = t1 ∧
      diff_text2 (diff_main_internal cfg clock fuel t1 t2 false) = t2) ∧
    (∀ cfg clock t1 t2, cfg.diff_timeout = none →
      diff_text1 (diff_compute cfg clock fuel t1 t2 false) = t1 ∧
      diff_text2 (diff_compute cfg clock fuel t1 t2 false) = t2) ∧
    (∀ cfg clock t1 t2, cfg.diff_timeout = none →
      diff_text1 (diff_bisect_internal cfg clock fuel t1 t2) = t1 ∧
      diff_text2 (diff_bisect_internal cfg clock fuel t1 t2) = t2) ∧
    (∀ cfg clock t1 t2 x y, cfg.diff_timeout = none →
      diff_text1 (diff_bisect_split cfg clock fuel t1 t2 x y) = t1 ∧
      diff_text2 (diff_bisect_split cfg clock fuel t1 t2 x y) = t2) := by
  induction fuel with
  | zero =>
    refine ⟨?_, ?_, ?_, ?_⟩
    · intro cfg clock t1 t2 h
      exact ⟨by simp [diff_main_internal, diff_text1_cons, diff_text1_nil],
        by simp [diff_main_internal, diff_text2_cons, diff_text2_nil]⟩
    · intro cfg clock t1 t2 h
      exact ⟨by simp [diff_compute, diff_text1_cons, diff_text1_nil],
        by simp [diff_compute, diff_text2_cons, diff_text2_nil]⟩
    · intro cfg clock t1 t2 h
      exact ⟨by simp [diff_bisect_internal, diff_text1_cons,
          diff_text1_nil],
        by simp [diff_bisect_internal, diff_text2_cons, diff_text2_nil]⟩
    · intro cfg clock t1 t2 x y h
      exact ⟨by simp [diff_bisect_split, diff_text1_cons, diff_text1_nil],
        by simp [diff_bisect_split, diff_text2_cons, diff_text2_nil]⟩
  | succ fuel ih =>
    obtain ⟨ihM, ihC, ihB, ihS⟩ := ih
    have hzero : ∀ (t1 t2 : Str),
        diff_text1 [Diff.Delete t1, Diff.Add t2] = t1 ∧
        diff_text2 [Diff.Delete t1, Diff.Add t2] = t2 := by
      intro t1 t2
      exact ⟨by simp [diff_text1_cons, diff_text1_nil],
        by simp [diff_text2_cons, diff_text2_nil]⟩
    refine ⟨?_, ?_, ?_, ?_⟩
    -- `diff_main_internal`
    · intro cfg clock t1 t2 hcfg
      simp only [diff_main_internal]
      by_cases h12 : t1.isEmpty ∧ t2.isEmpty
      · rw [if_pos h12]
        obtain ⟨e1, e2⟩ := h12
        rw [List.isEmpty_iff] at e1 e2
        subst e1; subst e2
        exact ⟨rfl, rfl⟩
      · rw [if_neg h12]
        by_cases h1e : t1.isEmpty
        · rw [if_pos h1e]
          rw [List.isEmpty_iff] at h1e
          subst h1e
          exact ⟨by simp [dt1_add], by simp [dt2_add]⟩
        · rw [if_neg h1e]
          by_cases h2e : t2.isEmpty
          · rw [if_pos h2e]
            rw [List.isEmpty_iff] at h2e
            subst h2e
            exact ⟨by simp [dt1_del], by simp [dt2_del]⟩
          · rw [if_neg h2e]
            by_cases heq : t1 = t2
            · rw [if_pos heq]
              subst heq
              exact ⟨by simp [dt1_keep], by simp [dt2_keep]⟩
            · rw [if_neg heq]
              generalize hcl : diffCommonPrefixLen t1 t2 = cl
              have ht12 : t1.take cl = t2.take cl := by
                rw [← hcl]; exact cpl_take_eq t1 t2
              generalize hsl :
                diff_common_suffix (t1.drop cl) (t2.drop cl) = sl
              have hdropeq : (t1.drop cl).drop ((t1.drop cl).length - sl) =
                  (t2.drop cl).drop ((t2.drop cl).length - sl) := by
                rw [← hsl]; exact dcs_drop_eq (t1.drop cl) (t2.drop cl)
              obtain ⟨m1, m2⟩ := ihC cfg clock
                ((t1.drop cl).take ((t1.drop cl).length - sl))
                ((t2.drop cl).take ((t2.drop cl).length - sl)) hcfg
              refine ⟨(cleanup_merge_text _).1.trans ?_,
                (cleanup_merge_text _).2.trans ?_⟩
              · rw [diff_text1_append, diff_text1_append,
                  (keep_opt_text _).1, (keep_opt_text _).1, m1,
                  List.append_assoc, List.take_append_drop,
                  List.take_append_drop]
              · rw [diff_text2_append, diff_text2_append,
                  (keep_opt_text _).2, (keep_opt_text _).2, m2,
                  List.append_assoc, hdropeq, List.take_append_drop,
                  ht12, List.take_append_drop]
    -- `diff_compute`
    · intro cfg clock t1 t2 hcfg
      simp only [diff_compute]
      by_cases h1e : t1.isEmpty
      · rw [if_pos h1e]
        rw [List.isEmpty_iff] at h1e
        subst h1e
        exact ⟨by simp [dt1_add], by simp [dt2_add]⟩
      · rw [if_neg h1e]
        by_cases h2e : t2.isEmpty
        · rw [if_pos h2e]
          rw [List.isEmpty_iff] at h2e
          subst h2e
          exact ⟨by simp [dt1_del], by simp [dt2_del]⟩
        · rw [if_neg h2e]
          rw [List.isEmpty_iff] at h1e h2e
          by_cases hge : t1.length ≥ t2.length
          · rw [if_pos hge, if_pos hge]
            rcases hk : kmp t1 t2 0 with _ | ifound
            · simp only []
              by_cases hst : t2.length = 1
              · rw [if_pos hst]
                exact hzero t1 t2
              · rw [if_neg hst, half_match_none cfg hcfg t1 t2]
                simp only []
                rw [if_neg (by simp)]
                exact ihB cfg clock t1 t2 hcfg
            · simp only []
              obtain ⟨hb, hw⟩ := kmp_sound t1 t2 0 ifound h2e hk
              by_cases hgt : t1.length > t2.length
              · rw [if_pos hgt]
                have hguard1 : diff_text1
                    (if ifound ≠ 0 then [Diff.Delete (t1.take ifound)]
                      else []) = t1.take ifound := by
                  by_cases h : ifound = 0 <;> simp [h, dt1_del, diff_text1_nil, diff_text2_nil]
                have hguard2 : diff_text1
                    (if ifound + t2.length ≠ t1.length then
                      [Diff.Delete (t1.drop (ifound + t2.length))]
                      else []) = t1.drop (ifound + t2.length) := by
                  by_cases h : ifound + t2.length = t1.length
                  · simp [h, List.drop_eq_nil_of_le (le_of_eq h.symm),
                      diff_text1_nil]
                  · simp [h, dt1_del]
                have hguard1b : diff_text2
                    (if ifound ≠ 0 then [Diff.Delete (t1.take ifound)]
                      else []) = [] := by
                  by_cases h : ifound = 0 <;> simp [h, dt2_del, diff_text1_nil, diff_text2_nil]
                have hguard2b : diff_text2
                    (if ifound + t2.length ≠ t1.length then
                      [Diff.Delete (t1.drop (ifound + t2.length))]
                      else []) = [] := by
                  by_cases h : ifound + t2.length = t1.length <;>
                    simp [h, dt2_del, diff_text1_nil, diff_text2_nil]
                have hsplit : t1 = t1.take ifound ++
                    (t2 ++ t1.drop (ifound + t2.length)) := by
                  conv_lhs => rw [← List.take_append_drop ifound t1]
                  congr 1
                  conv_lhs =>
                    rw [← List.take_append_drop t2.length (t1.drop ifound)]
                  rw [hw, List.drop_drop]
                constructor
                · rw [diff_text1_append, diff_text1_append, hguard1,
                    hguard2, dt1_keep, List.append_assoc]
                  exact hsplit.symm
                · rw [diff_text2_append, diff_text2_append, hguard1b,
                    hguard2b, dt2_keep]
                  simp
              · rw [if_neg hgt]
                have hlen : t1.length = t2.length := by omega
                have hif0 : ifound = 0 := by omega
                subst hif0
                have ht2t1 : t2 = t1 := by
                  rw [← hw]
                  simp [hlen.symm ▸ List.take_length t1]
                rw [if_neg (by simp)]
                rw [if_neg (by omega)]
                subst ht2t1
                exact ⟨by simp [dt1_keep], by simp [dt2_keep]⟩
          · rw [if_neg hge, if_neg hge]
            rcases hk : kmp t2 t1 0 with _ | ifound
            · simp only []
              by_cases hst : t1.length = 1
              · rw [if_pos hst]
                exact hzero t1 t2
              · rw [if_neg hst, half_match_none cfg hcfg t1 t2]
                simp only []
                rw [if_neg (by simp)]
                exact ihB cfg clock t1 t2 hcfg
            · simp only []
              obtain ⟨hb, hw⟩ := kmp_sound t2 t1 0 ifound h1e hk
              rw [if_neg (by omega)]
              have hguard1 : diff_text2
                  (if ifound ≠ 0 then [Diff.Add (t2.take ifound)]
                    else []) = t2.take ifound := by
                by_cases h : ifound = 0 <;> simp [h, dt2_add, diff_text1_nil, diff_text2_nil]
              have hguard2 : diff_text2
                  (if ifound + t1.length ≠ t2.length then
                    [Diff.Add (t2.drop (ifound + t1.length))]
                    else []) = t2.drop (ifound + t1.length) := by
                by_cases h : ifound + t1.length = t2.length
                · simp [h, List.drop_eq_nil_of_le (le_of_eq h.symm),
                    diff_text2_nil]
                · simp [h, dt2_add]
              have hguard1b : diff_text1
                  (if ifound ≠ 0 then [Diff.Add (t2.take ifound)]
                    else []) = [] := by
                by_cases h : ifound = 0 <;> simp [h, dt1_add, diff_text1_nil, diff_text2_nil]
              have hguard2b : diff_text1
                  (if ifound + t1.length ≠ t2.length then
                    [Diff.Add (t2.drop (ifound + t1.length))]
                    else []) = [] := by
                by_cases h : ifound + t1.length = t2.length <;>
                  simp [h, dt1_add, diff_text1_nil, diff_text2_nil]
              have hsplit : t2 = t2.take ifound ++
                  (t1 ++ t2.drop (ifound + t1.length)) := by
                conv_lhs => rw [← List.take_append_drop ifound t2]
                congr 1
                conv_lhs =>
                  rw [← List.take_append_drop t1.length (t2.drop ifound)]
                rw [hw, List.drop_drop]
              constructor
              · rw [diff_text1_append, diff_text1_append, hguard1b,
                  hguard2b, dt1_keep]
                simp
              · rw [diff_text2_append, diff_text2_append, hguard1,
                  hguard2, dt2_keep, List.append_assoc]
                exact hsplit.symm
    -- `diff_bisect_internal`
    · intro cfg clock t1 t2 hcfg
      constructor <;>
      · simp only [diff_bisect_internal]
        split
        · first
          | exact (ihS cfg clock t1 t2 _ _ hcfg).1
          | exact (ihS cfg clock t1 t2 _ _ hcfg).2
        · first
          | exact (hzero t1 t2).1
          | exact (hzero t1 t2).2
    -- `diff_bisect_split`
    · intro cfg clock t1 t2 x y hcfg
      simp only [diff_bisect_split]
      obtain ⟨a1, a2⟩ := ihM cfg clock (t1.take x.toNat) (t2.take y.toNat)
        hcfg
      obtain ⟨b1, b2⟩ := ihM cfg clock (t1.drop x.toNat) (t2.drop y.toNat)
        hcfg
      constructor
      · rw [diff_text1_append, a1, b1, List.take_append_drop]
      · rw [diff_text2_append, a2, b2, List.take_append_drop]

/-!
## Claim C5: default `edit_cost`
-/

/-- C5, counterexample: the claim says the default `edit_cost` is 4; the
`Default` implementation sets it to 0. -/
theorem claim_C5_counterexample : ¬ dmpDefault.edit_cost = 4 := by decide

/-- C5, amended: the default configuration value of `edit_cost` is 0. -/
theorem claim_C5_amended : dmpDefault.edit_cost = 0 := rfl

/-!
## Claim C10: `patch_apply` with an empty patch list
-/

/-- C10: for every configuration and source text, `patch_apply` with an
empty patch list returns the source's character sequence unchanged and an
empty success vector. -/
theorem claim_C10 (cfg : Config) (s : Str) :
    patch_apply cfg [] s = (s, []) := rfl

/-!
## Concrete counterexamples for the corrected claims
-/

/-- C2, counterexample: running `diff_cleanup_merge` on
`[Keep "x", Delete "a", Add "a", Keep "y"]` yields `[Keep "xa", Keep "y"]`,
two adjacent elements with the same tag, so the claimed invariant fails. -/
theorem claim_C2_counterexample :
    adjTagsOk
      (diff_cleanup_merge
        [Diff.Keep ['x'], Diff.Delete ['a'], Diff.Add ['a'],
          Diff.Keep ['y']]) = false := by decide

/-- C3, counterexample: a patch whose stored `length1`/`length2` are 0 while
its diffs hold `Keep "a"` does not survive the text round trip: the parser
recomputes the lengths from the body, so they come back as 1. -/
theorem claim_C3_counterexample :
    patch_from_text (patch_to_text [Patch.mk [Diff.Keep ['a']] 0 0 0 0]) ≠
      PRes.ok [Patch.mk [Diff.Keep ['a']] 0 0 0 0] := by decide

/-- C4, counterexample: a malformed numeric length field makes delta
decoding abort (`parse::<usize>().unwrap()` panics); no `ParseError` value
reaches the caller. -/
theorem claim_C4_counterexample :
    diff_from_delta_unit dmpDefault ['a'] ['-', 'x']
      LengthUnit.UnicodeScalar = PRes.crash := by decide

/-- C6, counterexample: for a patch with `length1 = length2 = 1` the claim
requires the `,l` clause to be omitted, but the code prints `-1,1 +1,1`. -/
theorem claim_C6_counterexample :
    patchToString (Patch.mk [] 0 0 1 1) ≠
      specPatchHeader (Patch.mk [] 0 0 1 1) := by decide

/-- C7, counterexample: `match_main("abc", "cd", 2)` returns 2 with the
default configuration, outside the claimed range
`{-1} ∪ [0, len(T) - len(P)] = {-1} ∪ [0, 1]`. -/
theorem claim_C7_counterexample :
    match_main dmpDefault ['a', 'b', 'c'] ['c', 'd'] 2 = PRes.ok 2 ∧
      ¬ ((2 : Int) = -1 ∨ (2 : Int) ≤ 3 - 2) := by decide

/-- C8, counterexample: `diff_levenshtein` sums UTF-8 byte lengths, so
`diff("é", "")` has Levenshtein 2, exceeding the claimed bound
`max(len(A), len(B)) = 1` in scalars. -/
theorem claim_C8_counterexample :
    diff_levenshtein (diff_main dmpDefault ['é'] [] false) = 2 ∧
      ¬ diff_levenshtein (diff_main dmpDefault ['é'] [] false) ≤
        max (['é'] : Str).length ([] : Str).length := by decide

/-- C9, counterexample: `patch_make4` accumulates `length2` in UTF-8 bytes,
so the patch for inserting `"é"` carries `length2 = 2` although its
`Keep`/`Add` texts total 1 Unicode scalar. -/
theorem claim_C9_counterexample :
    patch_make4 dmpDefault [] [Diff.Add ['é']] =
      [Patch.mk [Diff.Add ['é']] 0 0 0 2] ∧
      ¬ (2 = (diff_text2 [Diff.Add ['é']]).length) := by decide

/-!
## Claims C1 and C8: reconstruction and Levenshtein bounds
-/

/-- C1: with the default configuration (no deadline, so the half-match
heuristic is off) and `checklines = false` (no line-mode), the script
produced by `diff_main` transforms `text1` into `text2`: concatenating the
`Keep`/`Delete` texts replays `text1` and concatenating the `Keep`/`Add`
texts replays `text2`.  The `checklines = true` path on large inputs can
instead panic: `diff_lines_tochars_munge` shifts line tokens past the
surrogate block by 2048 but `diff_chars_tolines` indexes the line array
without undoing the shift. -/
theorem claim_C1_reconstruction_checklines_false (t1 t2 : Str) :
    diff_text1 (diff_main dmpDefault t1 t2 false) = t1 ∧
    diff_text2 (diff_main dmpDefault t1 t2 false) = t2 :=
  (diff_recon (diffFuel t1 t2)).1 dmpDefault (fun _ => false) t1 t2 rfl

theorem utf8Len_append (a b : Str) :
    utf8Len (a ++ b) = utf8Len a + utf8Len b := by
  simp [utf8Len]

theorem utf8Len_eq_zero (t : Str) : utf8Len t = 0 ↔ t = [] := by
  cases t with
  | nil => simp [utf8Len]
  | cons c cs =>
    have := Char.utf8Size_pos c
    simp [utf8Len]
    omega

theorem length_le_utf8Len : ∀ (t : Str), t.length ≤ utf8Len t
  | [] => by simp [utf8Len]
  | c :: cs => by
    have h1 := Char.utf8Size_pos c
    have h2 := length_le_utf8Len cs
    simp only [List.length_cons, utf8Len, List.map_cons, List.sum_cons]
    simp only [utf8Len] at h2
    omega

theorem levenshteinGo_le : ∀ (ds : List Diff) (ins del : Nat),
    levenshteinGo ds ins del ≤
      ins + del + utf8Len (diff_text1 ds) + utf8Len (diff_text2 ds)
  | [], ins, del => by
    simp [levenshteinGo, diff_text1_nil, diff_text2_nil, utf8Len]
  | Diff.Add t :: rest, ins, del => by
    have ih := levenshteinGo_le rest (ins + utf8Len t) del
    simp only [levenshteinGo, diff_text1_cons, diff_text2_cons,
      utf8Len_append] at *
    omega
  | Diff.Delete t :: rest, ins, del => by
    have ih := levenshteinGo_le rest ins (del + utf8Len t)
    simp only [levenshteinGo, diff_text1_cons, diff_text2_cons,
      utf8Len_append] at *
    omega
  | Diff.Keep t :: rest, ins, del => by
    have ih := levenshteinGo_le rest 0 0
    simp only [levenshteinGo, diff_text1_cons, diff_text2_cons,
      utf8Len_append] at *
    omega

theorem levenshteinGo_ins_le : ∀ (ds : List Diff) (ins del : Nat),
    ins ≤ levenshteinGo ds ins del ∧ del ≤ levenshteinGo ds ins del
  | [], ins, del => by
    simp [levenshteinGo]
  | Diff.Add t :: rest, ins, del => by
    have ih := levenshteinGo_ins_le rest (ins + utf8Len t) del
    simp only [levenshteinGo] at *
    omega
  | Diff.Delete t :: rest, ins, del => by
    have ih := levenshteinGo_ins_le rest ins (del + utf8Len t)
    simp only [levenshteinGo] at *
    omega
  | Diff.Keep t :: rest, ins, del => by
    simp only [levenshteinGo]
    omega

theorem levenshteinGo_zero : ∀ (ds : List Diff) (ins del : Nat),
    levenshteinGo ds ins del = 0 → diff_text1 ds = diff_text2 ds
  | [], _, _, _ => rfl
  | Diff.Add t :: rest, ins, del, h => by
    rw [levenshteinGo] at h
    have hle := (levenshteinGo_ins_le rest (ins + utf8Len t) del).1
    have ht : t = [] := by
      rw [← utf8Len_eq_zero]
      omega
    subst ht
    have := levenshteinGo_zero rest (ins + utf8Len []) del h
    simp [diff_text1_cons, diff_text2_cons, this]
  | Diff.Delete t :: rest, ins, del, h => by
    rw [levenshteinGo] at h
    have hle := (levenshteinGo_ins_le rest ins (del + utf8Len t)).2
    have ht : t = [] := by
      rw [← utf8Len_eq_zero]
      omega
    subst ht
    have := levenshteinGo_zero rest ins (del + utf8Len []) h
    simp [diff_text1_cons, diff_text2_cons, this]
  | Diff.Keep t :: rest, ins, del, h => by
    rw [levenshteinGo] at h
    have := levenshteinGo_zero rest 0 0 (by omega)
    simp [diff_text1_cons, diff_text2_cons, this]

theorem diff_main_self (A : Str) :
    diff_levenshtein (diff_main dmpDefault A A false) = 0 := by
  by_cases hA : A = []
  · subst hA
    rfl
  · have hmain : diff_main dmpDefault A A false = [Diff.Keep A] := by
      have hne : A.isEmpty = false := by
        simp [List.isEmpty_iff, hA]
      show diff_main_internal dmpDefault (fun _ => false)
        (A.length + A.length + 4) A A false = [Diff.Keep A]
      rw [show A.length + A.length + 4 = (A.length + A.length + 3) + 1
        from rfl]
      simp only [diff_main_internal]
      rw [if_neg (by simp [hne]), if_neg (by simp [hne]),
        if_neg (by simp [hne])]
      simp
    rw [hmain]
    rfl

/-- C8, amended: `diff_levenshtein` counts UTF-8 bytes, and the unbalanced
scripts `diff_main` can produce break the claimed `max` bound even in bytes;
what holds for the default configuration with `checklines = false` is the
sum bound `diff_levenshtein (diff_main A B) ≤ utf8len A + utf8len B`,
together with `diff_levenshtein = 0` exactly when `A = B`. -/
theorem claim_C8_amended (A B : Str) :
    diff_levenshtein (diff_main dmpDefault A B false) ≤
      utf8Len A + utf8Len B ∧
    (diff_levenshtein (diff_main dmpDefault A B false) = 0 ↔ A = B) := by
  obtain ⟨r0a, r0b⟩ := (diff_recon (diffFuel A B)).1 dmpDefault
    (fun _ => false) A B rfl
  have r1 : diff_text1 (diff_main dmpDefault A B false) = A := r0a
  have r2 : diff_text2 (diff_main dmpDefault A B false) = B := r0b
  constructor
  · have h := levenshteinGo_le (diff_main dmpDefault A B false) 0 0
    rw [r1, r2] at h
    simpa [diff_levenshtein] using h
  · constructor
    · intro h
      have := levenshteinGo_zero (diff_main dmpDefault A B false) 0 0 h
      rw [r1, r2] at this
      exact this
    · intro h
      subst h
      exact diff_main_self A

/-!
## Claim C6: patch header format
-/

/-- C6, amended: `Display for Patch` prints `@@ -S1[,l1] +S2[,l2] @@\n`
followed by the body lines, where the printed start is `start + 1` except
that a zero length with a zero start prints `0`, and the `,l` clause is
printed whenever `l > 0` or the printed start is `0` (so `,1` is printed
for length 1, and a zero length with non-zero start prints the one-based
start without `,0`). -/
theorem claim_C6_amended (p : Patch) :
    patchToString p = amendedPatchHeader p ++ patchBody p := by
  unfold patchToString amendedPatchHeader patchBody amendedCoords
  by_cases h1 : p.length1 = 0 <;> by_cases h2 : p.start1 = 0 <;>
    by_cases h3 : p.length2 = 0 <;> by_cases h4 : p.start2 = 0 <;>
      simp [h1, h2, h3, h4, Nat.pos_iff_ne_zero, List.append_assoc]

/-!
## Claim C4: delta decoding error behaviour
-/

theorem text2FromDeltaGo_ne_err (units1 : List Nat) :
    ∀ (toks : List Str) (offset : Nat) (acc : List Nat),
    text2FromDeltaGo units1 toks offset acc ≠ PRes.err
  | [], offset, acc => by simp [text2FromDeltaGo]
  | token :: rest, offset, acc => by
    simp only [text2FromDeltaGo]
    by_cases he : token.isEmpty
    · rw [if_pos he]
      exact text2FromDeltaGo_ne_err units1 rest offset acc
    · rw [if_neg he]
      by_cases hop : (token.headD ' ').toNat ≥ 128
      · rw [if_pos hop]
        simp
      · rw [if_neg hop]
        by_cases hplus : token.headD ' ' = '+'
        · rw [if_pos hplus]
          rcases hpd : percent_decode_u16 (strBytes token.tail) with _ | us
          · simp
          · exact text2FromDeltaGo_ne_err units1 rest offset (acc ++ us)
        · rw [if_neg hplus]
          rcases hp : parseUsize token.tail with _ | n
          · simp
          · simp only []
            by_cases heq : token.headD ' ' = '='
            · rw [if_pos heq]
              by_cases hle : n + offset ≤ units1.length
              · rw [if_pos hle]
                exact text2FromDeltaGo_ne_err units1 rest (offset + n) _
              · rw [if_neg hle]
                simp
            · rw [if_neg heq]
              exact text2FromDeltaGo_ne_err units1 rest (offset + n) acc

theorem diff_text2_from_delta_ne_err (t1 delta : Str) :
    diff_text2_from_delta_u16 t1 delta ≠ PRes.err := by
  simp only [diff_text2_from_delta_u16]
  cases h : text2FromDeltaGo (utf16Units t1) (splitOnChar '\t' delta) 0 []
  case ok r =>
    simp only []
    by_cases hne : (utf16Units t1).length ≠ r.2
    · rw [if_pos hne]
      simp
    · rw [if_neg hne]
      rcases hd : utf16Decode r.1 with _ | s <;> simp
  case err => exact absurd h (text2FromDeltaGo_ne_err (utf16Units t1) _ 0 [])
  case crash => simp

/-- C4, amended: the delta decoder never surfaces an error value to the
caller.  `diff_from_delta_unit` never returns `err` in any mode (in scalar
mode even slice/decode errors are unwrapped into panics, and the UTF-16
fallback's own failures are panics too); a malformed numeric length field
in a `-`/`=` token aborts via `parse::<usize>().unwrap()` (a crash), and a
total consumed length differing from the source view's length aborts via
`panic!("wrong patern or text")` (a crash). -/
theorem claim_C4_amended :
    (∀ (cfg : Config) (text1 delta : Str) (u : LengthUnit),
      diff_from_delta_unit cfg text1 delta u ≠ PRes.err) ∧
    (∀ (view : SView) (token : Str) (rest : List Str) (offset : Nat)
      (diffs : List Diff), token.isEmpty = false →
      (token.headD ' ').toNat < 128 → token.headD ' ' ≠ '+' →
      parseUsize token.tail = none →
      fromDeltaGo view (token :: rest) offset diffs = PRes.crash) ∧
    (∀ (view : SView) (delta : Str) (r : List Diff × Nat),
      fromDeltaGo view (splitOnChar '\t' delta) 0 [] = PRes.ok r →
      view.len ≠ r.2 →
      diff_from_delta_string_view view delta = PRes.crash) := by
  refine ⟨?_, ?_, ?_⟩
  · intro cfg text1 delta u
    cases u
    · unfold diff_from_delta_unit
      cases h : diff_from_delta_string_view (scalarView text1) delta <;> simp
    · unfold diff_from_delta_unit
      cases h : diff_from_delta_string_view (utf16View text1) delta
      case ok d => simp
      case crash => simp
      case err =>
        cases h2 : diff_text2_from_delta_u16 text1 delta
        case ok => simp
        case err => exact absurd h2 (diff_text2_from_delta_ne_err text1 delta)
        case crash => simp
  · intro view token rest offset diffs h1 h2 h3 h4
    simp only [fromDeltaGo]
    rw [if_neg (by simp [h1]), if_neg (by omega), if_neg h3, h4]
  · intro view delta r h hne
    unfold diff_from_delta_string_view
    rw [h]
    simp only []
    rw [if_pos hne]

/-- C4, witness: a plain token never yields `err`; the malformed token
`"-x"` crashes; decoding `"=1"` against a two-character source leaves one
character unconsumed and crashes. -/
theorem claim_C4_amended_witness :
    diff_from_delta_unit dmpDefault ['a'] ['x'] LengthUnit.UnicodeScalar ≠
      PRes.err ∧
    fromDeltaGo (scalarView ['a']) [['-', 'x']] 0 [] = PRes.crash ∧
    diff_from_delta_string_view (scalarView ['a', 'b']) ['=', '1'] =
      PRes.crash :=
  ⟨claim_C4_amended.1 dmpDefault ['a'] ['x'] LengthUnit.UnicodeScalar,
    claim_C4_amended.2.1 (scalarView ['a']) ['-', 'x'] [] 0 [] (by decide)
      (by decide) (by decide) (by decide),
    claim_C4_amended.2.2 (scalarView ['a', 'b']) ['=', '1']
      ([Diff.Keep ['a']], 1) (by decide) (by decide)⟩

/-!
## Claim C9: `patch_make` length invariants
-/

theorem patch_add_context_good (cfg : Config) (patch : Patch) (text : Str)
    (h1 : patch.length1 = (diff_text1 patch.diffs).length)
    (h2 : patch.length2 = (diff_text2 patch.diffs).length) :
    (patch_add_context cfg patch text).length1 =
      (diff_text1 (patch_add_context cfg patch text).diffs).length ∧
    (patch_add_context cfg patch text).length2 =
      (diff_text2 (patch_add_context cfg patch text).diffs).length := by
  simp only [patch_add_context]
  by_cases he : text.isEmpty
  · rw [if_pos he]
    exact ⟨h1, h2⟩
  · rw [if_neg he]
    generalize addContextLoop cfg text patch.start2 patch.length1 8 0 0 +
      cfg.patch_margin = padding
    generalize (text.take patch.start2).drop (patch.start2 - padding) = pre
    generalize (text.take (min text.length
      (patch.start2 + patch.length1 + padding))).drop
      (patch.start2 + patch.length1) = suf
    by_cases h3 : pre = [] <;> by_cases h4 : suf = [] <;>
      simp [h3, h4, diff_text1_append, diff_text2_append, diff_text1_cons,
        diff_text2_cons, diff_text1_nil, diff_text2_nil, dt1_keep, dt2_keep,
        h1, h2] <;>
      omega

theorem patchMake4Go_good (cfg : Config) : ∀ (rest : List Diff)
    (patch : Patch) (cc1 cc2 : Nat) (prepatch postpatch : Str)
    (patches : List Patch),
    patch.length1 = (diff_text1 patch.diffs).length →
    patch.length2 = (diff_text2 patch.diffs).length →
    (∀ p ∈ patches, p.length1 = (diff_text1 p.diffs).length ∧
      p.length2 = (diff_text2 p.diffs).length) →
    (∀ d ∈ rest, bytesEqScalars d.text) →
    ∀ p ∈ patchMake4Go cfg rest patch cc1 cc2 prepatch postpatch patches,
      p.length1 = (diff_text1 p.diffs).length ∧
      p.length2 = (diff_text2 p.diffs).length
  | [], patch, cc1, cc2, prepatch, postpatch, patches, h1, h2, hps, _ => by
    simp only [patchMake4Go]
    by_cases hd : patch.diffs ≠ []
    · rw [if_pos hd]
      intro p hp
      rcases List.mem_append.mp hp with h | h
      · exact hps p h
      · rw [List.mem_singleton.mp h]
        exact patch_add_context_good cfg patch prepatch h1 h2
    · rw [if_neg hd]
      exact hps
  | Diff.Add txt :: rest, patch, cc1, cc2, prepatch, postpatch, patches,
      h1, h2, hps, hr => by
    simp only [patchMake4Go]
    have htxt : utf8Len txt = txt.length := hr (Diff.Add txt) (by simp)
    have hr' : ∀ d ∈ rest, bytesEqScalars d.text := by
      intro d hd; exact hr d (by simp [hd])
    by_cases hh : patch.diffs.isEmpty ∧ ¬ (Diff.Add txt).isKeep = true
    · rw [if_pos hh]
      refine patchMake4Go_good cfg rest _ _ _ _ _ _ ?_ ?_ hps hr'
      · simpa [diff_text1_append, dt1_add] using h1
      · simp [diff_text2_append, dt2_add, htxt]
        omega
    · rw [if_neg hh]
      refine patchMake4Go_good cfg rest _ _ _ _ _ _ ?_ ?_ hps hr'
      · simpa [diff_text1_append, dt1_add] using h1
      · simp [diff_text2_append, dt2_add, htxt]
        omega
  | Diff.Delete txt :: rest, patch, cc1, cc2, prepatch, postpatch, patches,
      h1, h2, hps, hr => by
    simp only [patchMake4Go]
    have htxt : utf8Len txt = txt.length := hr (Diff.Delete txt) (by simp)
    have hr' : ∀ d ∈ rest, bytesEqScalars d.text := by
      intro d hd; exact hr d (by simp [hd])
    by_cases hh : patch.diffs.isEmpty ∧ ¬ (Diff.Delete txt).isKeep = true
    · rw [if_pos hh]
      refine patchMake4Go_good cfg rest _ _ _ _ _ _ ?_ ?_ hps hr'
      · simp [diff_text1_append, dt1_del, htxt]
        omega
      · simpa [diff_text2_append, dt2_del] using h2
    · rw [if_neg hh]
      refine patchMake4Go_good cfg rest _ _ _ _ _ _ ?_ ?_ hps hr'
      · simp [diff_text1_append, dt1_del, htxt]
        omega
      · simpa [diff_text2_append, dt2_del] using h2
  | Diff.Keep txt :: rest, patch, cc1, cc2, prepatch, postpatch, patches,
      h1, h2, hps, hr => by
    simp only [patchMake4Go]
    have htxt : utf8Len txt = txt.length := hr (Diff.Keep txt) (by simp)
    have hr' : ∀ d ∈ rest, bytesEqScalars d.text := by
      intro d hd; exact hr d (by simp [hd])
    by_cases hh : patch.diffs.isEmpty ∧ ¬ (Diff.Keep txt).isKeep = true
    · exact absurd hh (by simp [Diff.isKeep])
    · rw [if_neg hh]
      by_cases hin : utf8Len txt ≤ cfg.patch_margin * 2 ∧
          patch.diffs ≠ [] ∧ rest ≠ []
      · rw [if_pos hin]
        have h1' : (diff_text1 (patch.diffs ++ [Diff.Keep txt])).length =
            patch.length1 + utf8Len txt := by
          simp [diff_text1_append, dt1_keep, htxt, h1]
        have h2' : (diff_text2 (patch.diffs ++ [Diff.Keep txt])).length =
            patch.length2 + utf8Len txt := by
          simp [diff_text2_append, dt2_keep, htxt, h2]
        by_cases hsp : utf8Len txt ≥ 2 * cfg.patch_margin ∧
            (patch.diffs ++ [Diff.Keep txt]) ≠ []
        · rw [if_pos (by simpa using hsp)]
          refine patchMake4Go_good cfg rest _ _ _ _ _ _ rfl rfl ?_ hr'
          intro p hp
          rcases List.mem_append.mp hp with h | h
          · exact hps p h
          · rw [List.mem_singleton.mp h]
            exact patch_add_context_good cfg _ prepatch (by simp [h1'])
              (by simp [h2'])
        · rw [if_neg (by simpa using hsp)]
          refine patchMake4Go_good cfg rest _ _ _ _ _ _ (by simp [h1'])
            (by simp [h2']) hps hr'
      · rw [if_neg hin]
        by_cases hsp : utf8Len txt ≥ 2 * cfg.patch_margin ∧
            patch.diffs ≠ []
        · rw [if_pos hsp]
          refine patchMake4Go_good cfg rest _ _ _ _ _ _ rfl rfl ?_ hr'
          intro p hp
          rcases List.mem_append.mp hp with h | h
          · exact hps p h
          · rw [List.mem_singleton.mp h]
            exact patch_add_context_good cfg patch prepatch h1 h2
        · rw [if_neg hsp]
          exact patchMake4Go_good cfg rest patch _ _ _ _ _ h1 h2 hps hr'

/-- C9, amended: `patch_make4` accumulates `length1`/`length2` of the edit
diffs in UTF-8 bytes and of the context equalities in scalars; whenever
every diff text has equal byte and scalar length (e.g. ASCII), every
produced patch satisfies `length1` = total scalar length of its
`Keep`/`Delete` texts and `length2` = total scalar length of its
`Keep`/`Add` texts. -/
theorem claim_C9_amended (cfg : Config) (text1 : Str) (diffs : List Diff)
    (h : ∀ d ∈ diffs, bytesEqScalars d.text) :
    ∀ p ∈ patch_make4 cfg text1 diffs,
      p.length1 = (diff_text1 p.diffs).length ∧
      p.length2 = (diff_text2 p.diffs).length := by
  unfold patch_make4
  by_cases he : diffs.isEmpty
  · rw [if_pos he]
    intro p hp
    exact absurd hp (List.not_mem_nil p)
  · rw [if_neg he]
    exact patchMake4Go_good cfg diffs (Patch.mk [] 0 0 0 0) 0 0 text1 text1
      [] rfl rfl (by intro p hp; exact absurd hp (List.not_mem_nil p)) h

/-- C9, witness: the single patch produced for inserting `"b"` into `"a"`
has `length1 = 1` and `length2 = 2`, the scalar lengths of its texts. -/
theorem claim_C9_amended_witness :
    (Patch.mk [Diff.Add ['b'], Diff.Keep ['a']] 0 0 1 2).length1 =
      (diff_text1
        (Patch.mk [Diff.Add ['b'], Diff.Keep ['a']] 0 0 1 2).diffs).length ∧
    (Patch.mk [Diff.Add ['b'], Diff.Keep ['a']] 0 0 1 2).length2 =
      (diff_text2
        (Patch.mk [Diff.Add ['b'], Diff.Keep ['a']] 0 0 1 2).diffs).length :=
  claim_C9_amended dmpDefault ['a'] [Diff.Add ['b']]
    (by intro d hd
        rw [List.mem_singleton] at hd
        subst hd
        rfl)
    (Patch.mk [Diff.Add ['b'], Diff.Keep ['a']] 0 0 1 2) (by decide)

/-!
## Claim C2: `diff_cleanup_merge` postconditions

The plan: pass one establishes all the amended invariants; pass two either
reports no changes (and then returns its input, so the invariants come from
pass one of the final iteration) or strictly decreases the `mergeMeasure`,
which makes the fuel `mergeMeasure + 1` of `diff_cleanup_merge` sufficient.
-/

theorem pass1_eq (ds : List Diff) :
    pass1 ds = pass1Pop (pass1Go [] [] [] [] 0 0 (ds ++ [Diff.Keep []])) :=
  rfl

theorem mergeMeasure_nil : mergeMeasure [] = 0 := rfl

theorem mergeMeasure_cons (d : Diff) (l : List Diff) :
    mergeMeasure (d :: l) = d.text.length + 1 + mergeMeasure l := by
  simp [mergeMeasure]

theorem mergeMeasure_append (l1 l2 : List Diff) :
    mergeMeasure (l1 ++ l2) = mergeMeasure l1 + mergeMeasure l2 := by
  simp [mergeMeasure]

theorem mergeMeasure_dropLast (l : List Diff) (d : Diff)
    (h : l.getLast? = some d) :
    mergeMeasure l.dropLast + (d.text.length + 1) = mergeMeasure l := by
  conv_rhs => rw [getLast?_decomp l d h]
  rw [mergeMeasure_append, mergeMeasure_cons, mergeMeasure_nil]

theorem pass1Pop_concat (l : List Diff) (v : Str) :
    pass1Pop (l ++ [Diff.Keep v]) =
      if v = [] then l else l ++ [Diff.Keep v] := by
  unfold pass1Pop
  rw [List.getLast?_concat]
  simp only []
  by_cases hv : v = []
  · rw [if_pos (by simpa [Diff.text] using hv), if_pos hv]
    simp
  · rw [if_neg (by simpa [Diff.text] using hv), if_neg hv]

theorem cpl_comm : ∀ t1 t2 : Str,
    diffCommonPrefixLen t1 t2 = diffCommonPrefixLen t2 t1
  | [], t2 => by cases t2 <;> simp [diffCommonPrefixLen]
  | _ :: _, [] => by simp [diffCommonPrefixLen]
  | c1 :: t1, c2 :: t2 => by
    by_cases h : c1 = c2
    · subst h
      simp [diffCommonPrefixLen, cpl_comm t1 t2]
    · have h2 : ¬ c2 = c1 := fun hh => h hh.symm
      simp [diffCommonPrefixLen, h, h2]

theorem cpl_drop_zero : ∀ t1 t2 : Str,
    diffCommonPrefixLen (t1.drop (diffCommonPrefixLen t1 t2))
      (t2.drop (diffCommonPrefixLen t1 t2)) = 0
  | [], t2 => by simp [diffCommonPrefixLen]
  | _ :: _, [] => by simp [diffCommonPrefixLen]
  | c1 :: t1, c2 :: t2 => by
    by_cases h : c1 = c2
    · simp [diffCommonPrefixLen, h, cpl_drop_zero t1 t2]
    · simp [diffCommonPrefixLen, h]

theorem cpl_take_zero : ∀ (t1 t2 : Str) (m n : Nat),
    diffCommonPrefixLen t1 t2 = 0 →
    diffCommonPrefixLen (t1.take m) (t2.take n) = 0
  | [], t2, m, n, _ => by simp [diffCommonPrefixLen]
  | _ :: _, [], m, n, _ => by
    cases m <;> simp [diffCommonPrefixLen]
  | c1 :: t1, c2 :: t2, m, n, h => by
    have hne : ¬ c1 = c2 := by
      intro he
      simp [diffCommonPrefixLen, he] at h
    cases m with
    | zero => simp [diffCommonPrefixLen]
    | succ m =>
      cases n with
      | zero => simp [diffCommonPrefixLen]
      | succ n => simp [diffCommonPrefixLen, hne]

theorem dcs_take_zero (t1 t2 : Str) :
    diff_common_suffix
      (t1.take (t1.length - diff_common_suffix t1 t2))
      (t2.take (t2.length - diff_common_suffix t1 t2)) = 0 := by
  unfold diff_common_suffix
  rw [← List.drop_reverse, ← List.drop_reverse]
  exact cpl_drop_zero t1.reverse t2.reverse

theorem dcs_comm (t1 t2 : Str) :
    diff_common_suffix t1 t2 = diff_common_suffix t2 t1 :=
  cpl_comm t1.reverse t2.reverse

theorem mergedAdj_keep_right (x : Diff) (t : Str) :
    mergedAdj x (Diff.Keep t) := by
  refine ⟨?_, ?_, ?_⟩
  · intro h
    cases x <;> simp_all [Diff.tag, Diff.isKeep]
  · intro a b _ hb
    exact absurd hb (by simp)
  · intro a b _ hb
    exact absurd hb (by simp)

theorem mergedAdj_keep_left (t : Str) (y : Diff) :
    mergedAdj (Diff.Keep t) y := by
  refine ⟨?_, ?_, ?_⟩
  · intro _
    simp [Diff.isKeep]
  · intro a b ha _
    exact absurd ha (by simp)
  · intro a b ha _
    exact absurd ha (by simp)

theorem mergedAdj_del_add (a b : Str)
    (h1 : diffCommonPrefixLen a b = 0) (h2 : diff_common_suffix a b = 0) :
    mergedAdj (Diff.Delete a) (Diff.Add b) := by
  refine ⟨?_, ?_, ?_⟩
  · intro h
    simp [Diff.tag] at h
  · intro a' b' ha hb
    obtain rfl : a' = a := by injection ha with h; exact h.symm
    obtain rfl : b' = b := by injection hb with h; exact h.symm
    exact ⟨h1, h2⟩
  · intro a' b' ha _
    exact absurd ha (by simp)

theorem pairwiseAdj_nil : pairwiseAdj [] := trivial

theorem pairwiseAdj_singleton (d : Diff) : pairwiseAdj [d] := trivial

theorem pairwiseAdj_cons_cons (x y : Diff) (rest : List Diff) :
    pairwiseAdj (x :: y :: rest) ↔
      mergedAdj x y ∧ pairwiseAdj (y :: rest) := Iff.rfl

theorem pairwiseAdj_snoc : ∀ (l : List Diff) (d : Diff),
    pairwiseAdj (l ++ [d]) ↔ pairwiseAdj l ∧
      (∀ e, l.getLast? = some e → mergedAdj e d)
  | [], d => by
    simp [pairwiseAdj]
  | [x], d => by
    simp [pairwiseAdj, pairwiseAdj_cons_cons]
  | x :: y :: rest, d => by
    rw [show (x :: y :: rest) ++ [d] = x :: ((y :: rest) ++ [d]) by simp]
    rw [show ((y :: rest) ++ [d]) = y :: (rest ++ [d]) by simp]
    rw [pairwiseAdj_cons_cons]
    rw [show y :: (rest ++ [d]) = (y :: rest) ++ [d] by simp]
    rw [pairwiseAdj_snoc (y :: rest) d, pairwiseAdj_cons_cons]
    constructor
    · rintro ⟨h1, h2, h3⟩
      exact ⟨⟨h1, h2⟩, by simpa using h3⟩
    · rintro ⟨⟨h1, h2⟩, h3⟩
      exact ⟨h1, h2, by simpa using h3⟩

theorem nonEmptyTexts_nil : nonEmptyTexts [] := by
  intro d hd
  exact absurd hd (List.not_mem_nil d)

theorem nonEmptyTexts_append (l1 l2 : List Diff) :
    nonEmptyTexts (l1 ++ l2) ↔ nonEmptyTexts l1 ∧ nonEmptyTexts l2 := by
  constructor
  · intro h
    exact ⟨fun d hd => h d (by simp [hd]), fun d hd => h d (by simp [hd])⟩
  · rintro ⟨h1, h2⟩ d hd
    rcases List.mem_append.mp hd with h | h
    · exact h1 d h
    · exact h2 d h

theorem nonEmptyTexts_dropLast (l : List Diff) (h : nonEmptyTexts l) :
    nonEmptyTexts l.dropLast := by
  intro d hd
  exact h d ((List.dropLast_sublist l).mem hd)

theorem mergeRunSt_else (acc : List Diff) (pd pi txt : Str) (cd ci : Nat)
    (h0 : ¬ (cd > 0 ∧ ci > 0)) :
    mergeRunSt acc pd pi txt cd ci = (acc, pd, pi, txt) := by
  unfold mergeRunSt
  rw [if_neg h0]

theorem mergeRunSt_factored (acc : List Diff) (pd pi txt : Str)
    (cd ci : Nat) (h0 : cd > 0 ∧ ci > 0) :
    diffCommonPrefixLen (mergeRunSt acc pd pi txt cd ci).2.2.1
      (mergeRunSt acc pd pi txt cd ci).2.1 = 0 ∧
    diff_common_suffix (mergeRunSt acc pd pi txt cd ci).2.2.1
      (mergeRunSt acc pd pi txt cd ci).2.1 = 0 := by
  unfold mergeRunSt
  rw [if_pos h0]
  have hpre : diffCommonPrefixLen (mergePrefixStep acc pd pi txt).2.2.1
      (mergePrefixStep acc pd pi txt).2.1 = 0 := by
    simp only [mergePrefixStep]
    by_cases hc1 : diffCommonPrefixLen pi pd = 0
    · simp [hc1]
    · simp only [ne_eq, hc1, not_false_iff, if_true]
      exact cpl_drop_zero pi pd
  rcases hst1 : mergePrefixStep acc pd pi txt with ⟨a, d, i2, t⟩
  rw [hst1] at hpre
  simp only at hpre
  simp only [mergeSuffixStep]
  by_cases hc2 : diff_common_suffix i2 d = 0
  · simp [hc2, hpre]
  · simp only [ne_eq, hc2, not_false_iff, if_true]
    exact ⟨cpl_take_zero i2 d _ _ hpre, dcs_take_zero i2 d⟩

theorem mergeRunSt_txt (acc : List Diff) (pd pi txt : Str) (cd ci : Nat) :
    ∃ w, (mergeRunSt acc pd pi txt cd ci).2.2.2 = w ++ txt := by
  unfold mergeRunSt
  by_cases h0 : cd > 0 ∧ ci > 0
  · rw [if_pos h0]
    have hpre : (mergePrefixStep acc pd pi txt).2.2.2 = txt := by
      simp only [mergePrefixStep]
      by_cases hc1 : diffCommonPrefixLen pi pd = 0
      · simp [hc1]
      · simp only [ne_eq, hc1, not_false_iff, if_true]
    rcases hst1 : mergePrefixStep acc pd pi txt with ⟨a, d, i2, t⟩
    rw [hst1] at hpre
    simp only at hpre
    subst hpre
    simp only [mergeSuffixStep]
    by_cases hc2 : diff_common_suffix i2 d = 0
    · rw [if_neg (by simpa using hc2)]
      exact ⟨[], rfl⟩
    · rw [if_pos (by simpa using hc2)]
      exact ⟨_, rfl⟩
  · rw [if_neg h0]
    exact ⟨[], rfl⟩

theorem mergeRunSt_acc_good (acc : List Diff) (pd pi txt : Str)
    (cd ci : Nat) (h1 : pairwiseAdj acc) (h2 : nonEmptyTexts acc)
    (h3 : acc = [] ∨ ∃ t, acc.getLast? = some (Diff.Keep t)) :
    pairwiseAdj (mergeRunSt acc pd pi txt cd ci).1 ∧
    nonEmptyTexts (mergeRunSt acc pd pi txt cd ci).1 ∧
    ((mergeRunSt acc pd pi txt cd ci).1 = [] ∨
      ∃ t, (mergeRunSt acc pd pi txt cd ci).1.getLast? =
        some (Diff.Keep t)) := by
  unfold mergeRunSt
  by_cases h0 : cd > 0 ∧ ci > 0
  · rw [if_pos h0]
    have key : pairwiseAdj (mergePrefixStep acc pd pi txt).1 ∧
        nonEmptyTexts (mergePrefixStep acc pd pi txt).1 ∧
        ((mergePrefixStep acc pd pi txt).1 = [] ∨
          ∃ t, (mergePrefixStep acc pd pi txt).1.getLast? =
            some (Diff.Keep t)) := by
      simp only [mergePrefixStep]
      by_cases hc1 : diffCommonPrefixLen pi pd = 0
      · rw [if_neg (by simp [hc1])]
        exact ⟨h1, h2, h3⟩
      · simp only [ne_eq, hc1, not_false_iff, if_true]
        have hpi : pi ≠ [] := by
          intro hh
          subst hh
          exact hc1 rfl
        have hpre : pi.take (diffCommonPrefixLen pi pd) ≠ [] := by
          rw [ne_eq, List.take_eq_nil_iff]
          push_neg
          exact ⟨hc1, hpi⟩
        rcases h3 with rfl | ⟨t, ht⟩
        · simp only [List.getLast?_nil]
          refine ⟨pairwiseAdj_singleton _, ?_, Or.inr ⟨_, rfl⟩⟩
          intro d hd
          rw [List.mem_singleton] at hd
          subst hd
          exact hpre
        · rw [ht]
          refine ⟨?_, ?_, Or.inr ⟨_, List.getLast?_concat _⟩⟩
          · rw [pairwiseAdj_snoc]
            refine ⟨?_, ?_⟩
            · have := (pairwiseAdj_snoc acc.dropLast (Diff.Keep t)).mp
              rw [getLast?_decomp acc (Diff.Keep t) ht] at h1
              exact ((pairwiseAdj_snoc _ _).mp h1).1
            · intro e _
              exact mergedAdj_keep_right e _
          · rw [nonEmptyTexts_append]
            refine ⟨nonEmptyTexts_dropLast acc h2, ?_⟩
            intro d hd
            rw [List.mem_singleton] at hd
            subst hd
            have hmem : Diff.Keep t ∈ acc := List.mem_of_mem_getLast? ht
            have htne : t ≠ [] := by
              simpa [Diff.text] using h2 _ hmem
            simp [Diff.text, htne]
    rcases hst1 : mergePrefixStep acc pd pi txt with ⟨a, d, i2, t⟩
    rw [hst1] at key
    simp only at key
    simp only [mergeSuffixStep]
    by_cases hc2 : diff_common_suffix i2 d = 0
    · rw [if_neg (by simp [hc2])]
      exact key
    · rw [if_pos (by simpa using hc2)]
      exact key
  · rw [if_neg h0]
    exact ⟨h1, h2, h3⟩

theorem mergeRunFactor_shape (acc : List Diff) (pd pi txt : Str)
    (cd ci : Nat) :
    mergeRunFactor acc pd pi txt cd ci =
      ((mergeRunSt acc pd pi txt cd ci).1 ++
        (if (mergeRunSt acc pd pi txt cd ci).2.1 ≠ [] then
          [Diff.Delete (mergeRunSt acc pd pi txt cd ci).2.1] else []) ++
        (if (mergeRunSt acc pd pi txt cd ci).2.2.1 ≠ [] then
          [Diff.Add (mergeRunSt acc pd pi txt cd ci).2.2.1] else [])) ++
      [Diff.Keep (mergeRunSt acc pd pi txt cd ci).2.2.2] := by
  unfold mergeRunFactor
  by_cases hd : (mergeRunSt acc pd pi txt cd ci).2.1 ≠ [] <;>
    by_cases hi : (mergeRunSt acc pd pi txt cd ci).2.2.1 ≠ [] <;>
      simp [hd, hi]

theorem keepLast_mergedAdj (l : List Diff)
    (hl : l = [] ∨ ∃ t, l.getLast? = some (Diff.Keep t)) (y e : Diff)
    (he : l.getLast? = some e) : mergedAdj e y := by
  rcases hl with rfl | ⟨t, ht⟩
  · simp at he
  · rw [ht] at he
    injection he with he
    subst he
    exact mergedAdj_keep_left t y

theorem mergeRunFactor_good (acc : List Diff) (pd pi txt : Str)
    (cd ci : Nat) (h1 : pairwiseAdj acc) (h2 : nonEmptyTexts acc)
    (h3 : acc = [] ∨ ∃ t, acc.getLast? = some (Diff.Keep t))
    (h4 : pd = [] ∨ 0 < cd) (h5 : pi = [] ∨ 0 < ci) :
    ∃ F w, mergeRunFactor acc pd pi txt cd ci = F ++ [Diff.Keep (w ++ txt)] ∧
      pairwiseAdj (F ++ [Diff.Keep (w ++ txt)]) ∧
      nonEmptyTexts F := by
  have hshape := mergeRunFactor_shape acc pd pi txt cd ci
  obtain ⟨w, hw⟩ := mergeRunSt_txt acc pd pi txt cd ci
  obtain ⟨g1, g2, g3⟩ := mergeRunSt_acc_good acc pd pi txt cd ci h1 h2 h3
  have hfact : (mergeRunSt acc pd pi txt cd ci).2.1 ≠ [] →
      (mergeRunSt acc pd pi txt cd ci).2.2.1 ≠ [] →
      mergedAdj (Diff.Delete (mergeRunSt acc pd pi txt cd ci).2.1)
        (Diff.Add (mergeRunSt acc pd pi txt cd ci).2.2.1) := by
    intro hdne hine
    have h0 : cd > 0 ∧ ci > 0 := by
      by_contra h0
      have he := mergeRunSt_else acc pd pi txt cd ci h0
      rw [he] at hdne hine
      simp only at hdne hine
      rcases h4 with h4 | h4
      · exact hdne h4
      · rcases h5 with h5 | h5
        · exact hine h5
        · exact h0 ⟨h4, h5⟩
    obtain ⟨hcpl, hdcs⟩ := mergeRunSt_factored acc pd pi txt cd ci h0
    exact mergedAdj_del_add _ _
      ((cpl_comm _ _).trans hcpl) ((dcs_comm _ _).trans hdcs)
  rcases hst : mergeRunSt acc pd pi txt cd ci with ⟨a, dtxt, itxt, s⟩
  rw [hst] at hshape hw g1 g2 g3 hfact
  simp only at hshape hw g1 g2 g3 hfact
  subst hw
  refine ⟨a ++ (if dtxt ≠ [] then [Diff.Delete dtxt] else []) ++
    (if itxt ≠ [] then [Diff.Add itxt] else []), w, hshape, ?_, ?_⟩
  · by_cases hdne : dtxt = [] <;> by_cases hine : itxt = [] <;>
      simp only [hdne, hine, ne_eq, not_true, if_false, not_false_iff,
        if_true, List.append_nil] <;>
      rw [pairwiseAdj_snoc]
    · exact ⟨g1, fun e he => mergedAdj_keep_right e _⟩
    · refine ⟨?_, fun e he => mergedAdj_keep_right e _⟩
      rw [pairwiseAdj_snoc]
      exact ⟨g1, keepLast_mergedAdj a g3 _⟩
    · refine ⟨?_, fun e he => mergedAdj_keep_right e _⟩
      rw [pairwiseAdj_snoc]
      exact ⟨g1, keepLast_mergedAdj a g3 _⟩
    · refine ⟨?_, fun e he => mergedAdj_keep_right e _⟩
      rw [pairwiseAdj_snoc]
      refine ⟨?_, ?_⟩
      · rw [pairwiseAdj_snoc]
        exact ⟨g1, keepLast_mergedAdj a g3 _⟩
      · intro e he
        rw [List.getLast?_concat] at he
        injection he with he
        subst he
        exact hfact hdne hine
  · by_cases hdne : dtxt = [] <;> by_cases hine : itxt = [] <;>
      simp only [hdne, hine, ne_eq, not_true, if_false, not_false_iff,
        if_true, List.append_nil]
    · exact g2
    · refine (nonEmptyTexts_append _ _).mpr ⟨g2, ?_⟩
      intro d hd
      rw [List.mem_singleton] at hd
      subst hd
      simpa [Diff.text] using hine
    · refine (nonEmptyTexts_append _ _).mpr ⟨g2, ?_⟩
      intro d hd
      rw [List.mem_singleton] at hd
      subst hd
      simpa [Diff.text] using hdne
    · refine (nonEmptyTexts_append _ _).mpr
        ⟨(nonEmptyTexts_append _ _).mpr ⟨g2, ?_⟩, ?_⟩
      · intro d hd
        rw [List.mem_singleton] at hd
        subst hd
        simpa [Diff.text] using hdne
      · intro d hd
        rw [List.mem_singleton] at hd
        subst hd
        simpa [Diff.text] using hine

theorem pass1Go_post : ∀ (ds acc : List Diff) (pd pi : Str)
    (pe : List Diff) (cd ci : Nat),
    nonEmptyTexts ds →
    pairwiseAdj acc → nonEmptyTexts acc →
    (acc = [] ∨ ∃ t, acc.getLast? = some (Diff.Keep t)) →
    (∀ d ∈ pe, d.isKeep = false ∧ d.text ≠ []) →
    pe.length = cd + ci →
    (pd = [] ∨ 0 < cd) → (pi = [] ∨ 0 < ci) →
    nonEmptyTexts
      (pass1Pop (pass1Go acc pd pi pe cd ci (ds ++ [Diff.Keep []]))) ∧
    pairwiseAdj
      (pass1Pop (pass1Go acc pd pi pe cd ci (ds ++ [Diff.Keep []])))
  | [], acc, pd, pi, pe, cd, ci, _, h1, h2, h3, hpe, hlen, h4, h5 => by
    rw [List.nil_append]
    simp only [pass1Go]
    by_cases hgt : cd + ci > 1
    · rw [if_pos hgt]
      simp only [pass1Go, List.append_nil]
      obtain ⟨F, w, hF, hPA, hNE⟩ :=
        mergeRunFactor_good acc pd pi [] cd ci h1 h2 h3 h4 h5
      rw [hF]
      rw [List.append_nil] at hPA ⊢
      rw [pass1Pop_concat]
      by_cases hw : w = []
      · rw [if_pos hw]
        exact ⟨hNE, ((pairwiseAdj_snoc _ _).mp hPA).1⟩
      · rw [if_neg hw]
        refine ⟨?_, hPA⟩
        rw [nonEmptyTexts_append]
        refine ⟨hNE, ?_⟩
        intro d hd
        rw [List.mem_singleton] at hd
        subst hd
        simpa [Diff.text] using hw
    · rw [if_neg hgt]
      rcases pe with _ | ⟨e, pe'⟩
      · simp only [List.append_nil]
        rcases h3 with rfl | ⟨t, ht⟩
        · simp only [List.getLast?_nil]
          try simp only []
          try simp only [pass1Go]
          simp [pass1Pop, nonEmptyTexts, pairwiseAdj]
        · rw [ht]
          try simp only []
          try simp only [pass1Go]
          try simp only [List.append_nil]
          have htne : t ≠ [] := by
            simpa [Diff.text] using h2 _ (List.mem_of_mem_getLast? ht)
          rw [pass1Pop_concat, if_neg (by simp [htne])]
          have hdl : pairwiseAdj acc.dropLast := by
            rw [getLast?_decomp acc _ ht] at h1
            exact ((pairwiseAdj_snoc _ _).mp h1).1
          refine ⟨?_, ?_⟩
          · rw [nonEmptyTexts_append]
            refine ⟨nonEmptyTexts_dropLast acc h2, ?_⟩
            intro d hd
            rw [List.mem_singleton] at hd
            subst hd
            simp [Diff.text, htne]
          · rw [pairwiseAdj_snoc]
            exact ⟨hdl, fun e he => mergedAdj_keep_right e _⟩
      · have hpe' : pe' = [] := by
          have hlen2 : pe'.length + 1 = cd + ci := by simpa using hlen
          exact List.eq_nil_of_length_eq_zero (by omega)
        subst hpe'
        obtain ⟨hek, hene⟩ := hpe e (by simp)
        have hlast : (acc ++ [e]).getLast? = some e := List.getLast?_concat _
        rw [hlast]
        rcases e with t | t | t
        · try simp only []
          try simp only [pass1Go]
          try simp only [List.append_nil]
          rw [pass1Pop_concat, if_pos rfl]
          refine ⟨?_, ?_⟩
          · rw [nonEmptyTexts_append]
            refine ⟨h2, ?_⟩
            intro d hd
            rw [List.mem_singleton] at hd
            subst hd
            exact hene
          · rw [pairwiseAdj_snoc]
            exact ⟨h1, keepLast_mergedAdj acc h3 _⟩
        · simp [Diff.isKeep] at hek
        · try simp only []
          try simp only [pass1Go]
          try simp only [List.append_nil]
          rw [pass1Pop_concat, if_pos rfl]
          refine ⟨?_, ?_⟩
          · rw [nonEmptyTexts_append]
            refine ⟨h2, ?_⟩
            intro d hd
            rw [List.mem_singleton] at hd
            subst hd
            exact hene
          · rw [pairwiseAdj_snoc]
            exact ⟨h1, keepLast_mergedAdj acc h3 _⟩
  | d :: ds, acc, pd, pi, pe, cd, ci, hds, h1, h2, h3, hpe, hlen, h4,
      h5 => by
    have hdne : d.text ≠ [] := hds d (by simp)
    have hds' : nonEmptyTexts ds := fun x hx => hds x (by simp [hx])
    rw [List.cons_append]
    rcases d with t | t | t
    · -- Add
      simp only [pass1Go]
      refine pass1Go_post ds acc pd (pi ++ t) (pe ++ [Diff.Add t]) cd
        (ci + 1) hds' h1 h2 h3 ?_ (by simp [hlen]; omega) h4 ?_
      · intro x hx
        rcases List.mem_append.mp hx with hx | hx
        · exact hpe x hx
        · rw [List.mem_singleton] at hx
          subst hx
          exact ⟨by simp [Diff.isKeep], by simpa [Diff.text] using hdne⟩
      · exact Or.inr (by omega)
    · -- Keep
      simp only [pass1Go]
      by_cases hgt : cd + ci > 1
      · rw [if_pos hgt]
        obtain ⟨F, w, hF, hPA, hNE⟩ :=
          mergeRunFactor_good acc pd pi t cd ci h1 h2 h3 h4 h5
        rw [hF]
        refine pass1Go_post ds (F ++ [Diff.Keep (w ++ t)]) [] [] [] 0 0
          hds' hPA ?_ (Or.inr ⟨_, List.getLast?_concat _⟩) ?_ rfl
          (Or.inl rfl) (Or.inl rfl)
        · rw [nonEmptyTexts_append]
          refine ⟨hNE, ?_⟩
          intro x hx
          rw [List.mem_singleton] at hx
          subst hx
          have htne : t ≠ [] := by simpa [Diff.text] using hdne
          simp [Diff.text, htne]
        · intro x hx
          exact absurd hx (List.not_mem_nil x)
      · rw [if_neg hgt]
        rcases pe with _ | ⟨e, pe'⟩
        · simp only [List.append_nil]
          rcases h3 with rfl | ⟨tk, htk⟩
          · simp only [List.getLast?_nil]
            refine pass1Go_post ds ([] ++ [Diff.Keep t]) [] [] [] 0 0
              hds' ?_ ?_ (Or.inr ⟨_, List.getLast?_concat _⟩) ?_ rfl
              (Or.inl rfl) (Or.inl rfl)
            · rw [pairwiseAdj_snoc]
              exact ⟨pairwiseAdj_nil, fun e he => by simp at he⟩
            · rw [nonEmptyTexts_append]
              refine ⟨nonEmptyTexts_nil, ?_⟩
              intro x hx
              rw [List.mem_singleton] at hx
              subst hx
              simpa [Diff.text] using hdne
            · intro x hx
              exact absurd hx (List.not_mem_nil x)
          · rw [htk]
            have htkne : tk ≠ [] := by
              simpa [Diff.text] using h2 _ (List.mem_of_mem_getLast? htk)
            have hdl : pairwiseAdj acc.dropLast := by
              rw [getLast?_decomp acc _ htk] at h1
              exact ((pairwiseAdj_snoc _ _).mp h1).1
            refine pass1Go_post ds
              (acc.dropLast ++ [Diff.Keep (tk ++ t)]) [] [] [] 0 0
              hds' ?_ ?_ (Or.inr ⟨_, List.getLast?_concat _⟩) ?_ rfl
              (Or.inl rfl) (Or.inl rfl)
            · rw [pairwiseAdj_snoc]
              exact ⟨hdl, fun e he => mergedAdj_keep_right e _⟩
            · rw [nonEmptyTexts_append]
              refine ⟨nonEmptyTexts_dropLast acc h2, ?_⟩
              intro x hx
              rw [List.mem_singleton] at hx
              subst hx
              simp [Diff.text, htkne]
            · intro x hx
              exact absurd hx (List.not_mem_nil x)
        · have hpe' : pe' = [] := by
            have hlen2 : pe'.length + 1 = cd + ci := by simpa using hlen
            exact List.eq_nil_of_length_eq_zero (by omega)
          subst hpe'
          obtain ⟨hek, hene⟩ := hpe e (by simp)
          have hlast : (acc ++ [e]).getLast? = some e :=
            List.getLast?_concat _
          rw [hlast]
          have hGacc : pairwiseAdj ((acc ++ [e]) ++ [Diff.Keep t]) ∧
              nonEmptyTexts ((acc ++ [e]) ++ [Diff.Keep t]) := by
            constructor
            · rw [pairwiseAdj_snoc]
              refine ⟨?_, fun e' he' => mergedAdj_keep_right e' _⟩
              rw [pairwiseAdj_snoc]
              exact ⟨h1, keepLast_mergedAdj acc h3 _⟩
            · rw [nonEmptyTexts_append, nonEmptyTexts_append]
              refine ⟨⟨h2, ?_⟩, ?_⟩
              · intro x hx
                rw [List.mem_singleton] at hx
                subst hx
                exact hene
              · intro x hx
                rw [List.mem_singleton] at hx
                subst hx
                simpa [Diff.text] using hdne
          rcases e with te | te | te
          · exact pass1Go_post ds ((acc ++ [Diff.Add te]) ++ [Diff.Keep t])
              [] [] [] 0 0 hds' hGacc.1 hGacc.2
              (Or.inr ⟨_, List.getLast?_concat _⟩)
              (fun x hx => absurd hx (List.not_mem_nil x)) rfl
              (Or.inl rfl) (Or.inl rfl)
          · simp [Diff.isKeep] at hek
          · exact pass1Go_post ds
              ((acc ++ [Diff.Delete te]) ++ [Diff.Keep t])
              [] [] [] 0 0 hds' hGacc.1 hGacc.2
              (Or.inr ⟨_, List.getLast?_concat _⟩)
              (fun x hx => absurd hx (List.not_mem_nil x)) rfl
              (Or.inl rfl) (Or.inl rfl)
    · -- Delete
      simp only [pass1Go]
      refine pass1Go_post ds acc (pd ++ t) pi (pe ++ [Diff.Delete t])
        (cd + 1) ci hds' h1 h2 h3 ?_ (by simp [hlen]; omega) ?_ h5
      · intro x hx
        rcases List.mem_append.mp hx with hx | hx
        · exact hpe x hx
        · rw [List.mem_singleton] at hx
          subst hx
          exact ⟨by simp [Diff.isKeep], by simpa [Diff.text] using hdne⟩
      · exact Or.inr (by omega)

theorem pass1_post (ds : List Diff) (h : nonEmptyTexts ds) :
    nonEmptyTexts (pass1 ds) ∧ pairwiseAdj (pass1 ds) := by
  rw [pass1_eq]
  exact pass1Go_post ds [] [] [] [] 0 0 h pairwiseAdj_nil nonEmptyTexts_nil
    (Or.inl rfl) (fun x hx => absurd hx (List.not_mem_nil x)) rfl
    (Or.inl rfl) (Or.inl rfl)

theorem nonEmptyTexts_cons (x : Diff) (l : List Diff) :
    nonEmptyTexts (x :: l) ↔ x.text ≠ [] ∧ nonEmptyTexts l := by
  constructor
  · intro h
    exact ⟨h x (by simp), fun d hd => h d (by simp [hd])⟩
  · rintro ⟨h1, h2⟩ d hd
    rcases List.mem_cons.mp hd with rfl | hd
    · exact h1
    · exact h2 d hd

theorem with_text_text (d : Diff) (z : Str) : (d.with_text z).text = z := by
  cases d <;> rfl

theorem pass2Go_true : ∀ (fuel : Nat) (d : List Diff) (i : Nat),
    (pass2Go fuel d i true).2 = true
  | 0, d, i => rfl
  | fuel + 1, d, i => by
    simp only [pass2Go]
    by_cases hlen : i + 1 < d.length
    · rw [if_pos hlen]
      rcases hp : d.getD (i - 1) (Diff.Keep []) with pt | pt | pt <;>
        rcases hn : d.getD (i + 1) (Diff.Keep []) with nt | nt | nt <;>
        try exact pass2Go_true fuel d (i + 1)
      simp only []
      by_cases hew : endswith (d.getD i (Diff.Keep [])).text pt = true
      · rw [if_pos hew]
        exact pass2Go_true fuel _ i
      · rw [if_neg hew]
        by_cases hsw : startswith (d.getD i (Diff.Keep [])).text nt = true
        · rw [if_pos hsw]
          exact pass2Go_true fuel _ (i + 1)
        · rw [if_neg hsw]
          exact pass2Go_true fuel d (i + 1)
    · rw [if_neg hlen]

theorem pass2Go_nochange : ∀ (fuel : Nat) (d : List Diff) (i : Nat),
    (pass2Go fuel d i false).2 = false → (pass2Go fuel d i false).1 = d
  | 0, d, i, _ => rfl
  | fuel + 1, d, i, h => by
    simp only [pass2Go] at h ⊢
    by_cases hlen : i + 1 < d.length
    · rw [if_pos hlen] at h ⊢
      rcases hp : d.getD (i - 1) (Diff.Keep []) with pt | pt | pt <;>
        rcases hn : d.getD (i + 1) (Diff.Keep []) with nt | nt | nt <;>
        rw [hp, hn] at h <;>
        try exact pass2Go_nochange fuel d (i + 1) h
      simp only [] at h ⊢
      by_cases hew : endswith (d.getD i (Diff.Keep [])).text pt = true
      · rw [if_pos hew] at h
        rw [pass2Go_true fuel _ i] at h
        exact absurd h (by simp)
      · rw [if_neg hew] at h ⊢
        by_cases hsw : startswith (d.getD i (Diff.Keep [])).text nt = true
        · rw [if_pos hsw] at h
          rw [pass2Go_true fuel _ (i + 1)] at h
          exact absurd h (by simp)
        · rw [if_neg hsw] at h ⊢
          exact pass2Go_nochange fuel d (i + 1) h
    · rw [if_neg hlen]

theorem pass2Go_invar : ∀ (fuel : Nat) (d : List Diff) (i : Nat)
    (ch : Bool), 1 ≤ i → nonEmptyTexts d →
    nonEmptyTexts (pass2Go fuel d i ch).1 ∧
    mergeMeasure (pass2Go fuel d i ch).1 ≤ mergeMeasure d ∧
    ((pass2Go fuel d i ch).2 = true →
      ch = true ∨ mergeMeasure (pass2Go fuel d i ch).1 < mergeMeasure d)
  | 0, d, i, ch, _, hne => ⟨hne, Nat.le_refl _, fun h => Or.inl h⟩
  | fuel + 1, d, i, ch, hi, hne => by
    simp only [pass2Go]
    by_cases hlenc : i + 1 < d.length
    · rw [if_pos hlenc]
      obtain ⟨A, p, c, n, B, hAlen, hdec⟩ :
          ∃ A p c n B, A.length = i - 1 ∧
            d = A ++ p :: c :: n :: B :=
        ⟨d.take (i - 1), d.getD (i - 1) (Diff.Keep []),
          d.getD i (Diff.Keep []), d.getD (i + 1) (Diff.Keep []),
          d.drop (i + 2), List.length_take_of_le (by omega),
          decomp3 d i hi hlenc⟩
      rw [hdec]
      rw [hdec] at hne
      have hgp : (A ++ p :: c :: n :: B).getD (i - 1) (Diff.Keep []) = p :=
        getD_append_cons A _ p _ (i - 1) (by omega)
      have hgc : (A ++ p :: c :: n :: B).getD i (Diff.Keep []) = c := by
        rw [show A ++ p :: c :: n :: B = (A ++ [p]) ++ c :: n :: B by simp]
        exact getD_append_cons (A ++ [p]) _ c _ i (by simp; omega)
      have hgn : (A ++ p :: c :: n :: B).getD (i + 1) (Diff.Keep []) =
          n := by
        rw [show A ++ p :: c :: n :: B = (A ++ [p, c]) ++ n :: B by simp]
        exact getD_append_cons (A ++ [p, c]) _ n _ (i + 1) (by simp; omega)
      rw [hgp, hgc, hgn]
      have hiA : i = A.length + 1 := by omega
      have hneA : nonEmptyTexts A ∧ p.text ≠ [] ∧ c.text ≠ [] ∧
          n.text ≠ [] ∧ nonEmptyTexts B := by
        rw [nonEmptyTexts_append, nonEmptyTexts_cons, nonEmptyTexts_cons,
          nonEmptyTexts_cons] at hne
        exact ⟨hne.1, hne.2.1, hne.2.2.1, hne.2.2.2.1, hne.2.2.2.2⟩
      rcases p with pt | pt | pt <;> rcases n with nt | nt | nt <;>
        try exact pass2Go_invar fuel _ (i + 1) ch (by omega) hne
      -- prev and next both `Keep`
      simp only []
      have hptne : pt ≠ [] := by simpa [Diff.text] using hneA.2.1
      have hntne : nt ≠ [] := by simpa [Diff.text] using hneA.2.2.2.1
      by_cases hew : endswith c.text pt = true
      · rw [if_pos hew]
        rw [if_pos (by simpa using hptne)]
        obtain ⟨w, hw1, hw2⟩ : ∃ w, c.text.take (c.text.length -
            pt.length) = w ∧ w ++ pt = c.text :=
          ⟨_, rfl, endswith_decomp c.text pt hew⟩
        rw [hw1, hiA]
        have e2 : A.length + 1 + 1 = A.length + 2 := rfl
        have e3 : A.length + 1 - 1 = A.length := by omega
        rw [e2, e3, surgery_front]
        have hnewne : nonEmptyTexts (A ++
            c.with_text (pt ++ w) :: Diff.Keep (pt ++ nt) :: B) := by
          rw [nonEmptyTexts_append, nonEmptyTexts_cons, nonEmptyTexts_cons]
          refine ⟨hneA.1, ?_, ?_, hneA.2.2.2.2⟩
          · rw [with_text_text]
            simp [hptne]
          · simp [Diff.text, hptne]
        have hmeas : mergeMeasure (A ++
              c.with_text (pt ++ w) :: Diff.Keep (pt ++ nt) :: B) + 1 =
            mergeMeasure (A ++ Diff.Keep pt :: c :: Diff.Keep nt :: B) := by
          have hclen : c.text.length = w.length + pt.length := by
            rw [← hw2]
            simp
          rw [mergeMeasure_append, mergeMeasure_append,
            mergeMeasure_cons, mergeMeasure_cons, mergeMeasure_cons,
            mergeMeasure_cons, mergeMeasure_cons, with_text_text, hclen]
          simp [Diff.text]
          omega
        obtain ⟨r1, r2, r3⟩ := pass2Go_invar fuel
          (A ++ c.with_text (pt ++ w) :: Diff.Keep (pt ++ nt) :: B)
          (A.length + 1) true (by omega) hnewne
        exact ⟨r1, by omega, fun _ => Or.inr (by omega)⟩
      · rw [if_neg hew]
        by_cases hsw : startswith c.text nt = true
        · rw [if_pos hsw]
          obtain ⟨w, hw1, hw2⟩ : ∃ w, c.text.drop nt.length = w ∧
              nt ++ w = c.text :=
            ⟨_, rfl, startswith_decomp c.text nt hsw⟩
          rw [hw1, hiA]
          have e2 : A.length + 1 + 1 = A.length + 2 := rfl
          have e3 : A.length + 1 - 1 = A.length := by omega
          rw [e2, e3, surgery_back]
          have hnewne : nonEmptyTexts (A ++
              Diff.Keep (pt ++ nt) :: c.with_text (w ++ nt) :: B) := by
            rw [nonEmptyTexts_append, nonEmptyTexts_cons,
              nonEmptyTexts_cons]
            refine ⟨hneA.1, ?_, ?_, hneA.2.2.2.2⟩
            · simp [Diff.text, hptne]
            · rw [with_text_text]
              simp [hntne]
          have hmeas : mergeMeasure (A ++
                Diff.Keep (pt ++ nt) :: c.with_text (w ++ nt) :: B) + 1 =
              mergeMeasure (A ++ Diff.Keep pt :: c :: Diff.Keep nt ::
                B) := by
            have hclen : c.text.length = nt.length + w.length := by
              rw [← hw2]
              simp
            rw [mergeMeasure_append, mergeMeasure_append,
              mergeMeasure_cons, mergeMeasure_cons, mergeMeasure_cons,
              mergeMeasure_cons, mergeMeasure_cons, with_text_text, hclen]
            simp [Diff.text]
            omega
          obtain ⟨r1, r2, r3⟩ := pass2Go_invar fuel
            (A ++ Diff.Keep (pt ++ nt) :: c.with_text (w ++ nt) :: B)
            (A.length + 2) true (by omega) hnewne
          exact ⟨r1, by omega, fun _ => Or.inr (by omega)⟩
        · rw [if_neg hsw]
          exact pass2Go_invar fuel
            (A ++ Diff.Keep pt :: c :: Diff.Keep nt :: B) (i + 1) ch
            (by omega) hne
    · rw [if_neg hlenc]
      exact ⟨hne, Nat.le_refl _, fun h => Or.inl h⟩

theorem mergeRunSt_measure (acc : List Diff) (pd pi txt : Str)
    (cd ci : Nat) :
    (mergeMeasure (mergeRunSt acc pd pi txt cd ci).1 +
      (mergeRunSt acc pd pi txt cd ci).2.1.length +
      (mergeRunSt acc pd pi txt cd ci).2.2.1.length +
      (mergeRunSt acc pd pi txt cd ci).2.2.2.length ≤
    mergeMeasure acc + pd.length + pi.length + txt.length) ∧
    (txt = [] → (mergeRunSt acc pd pi txt cd ci).2.2.2 ≠ [] →
      mergeMeasure (mergeRunSt acc pd pi txt cd ci).1 +
        (mergeRunSt acc pd pi txt cd ci).2.1.length +
        (mergeRunSt acc pd pi txt cd ci).2.2.1.length +
        (mergeRunSt acc pd pi txt cd ci).2.2.2.length + 1 ≤
      mergeMeasure acc + pd.length + pi.length) := by
  unfold mergeRunSt
  by_cases h0 : cd > 0 ∧ ci > 0
  · rw [if_pos h0]
    have HP : mergeMeasure (mergePrefixStep acc pd pi txt).1 +
        (mergePrefixStep acc pd pi txt).2.1.length +
        (mergePrefixStep acc pd pi txt).2.2.1.length ≤
        mergeMeasure acc + pd.length + pi.length ∧
        (mergePrefixStep acc pd pi txt).2.2.2 = txt := by
      simp only [mergePrefixStep]
      by_cases hc1 : diffCommonPrefixLen pi pd = 0
      · simp [hc1]
      · simp only [ne_eq, hc1, not_false_iff, if_true]
        have hcd : diffCommonPrefixLen pi pd ≤ pd.length :=
          cpl_le_right pi pd
        have hci : diffCommonPrefixLen pi pd ≤ pi.length :=
          cpl_le_left pi pd
        have hc1p : 1 ≤ diffCommonPrefixLen pi pd := by omega
        refine ⟨?_, by trivial⟩
        rcases hl : acc.getLast? with _ | e
        · simp only []
          rcases acc with _ | ⟨a, acc'⟩
          · rw [mergeMeasure_cons, mergeMeasure_nil]
            simp [Diff.text, List.length_take, Nat.min_eq_left hci]
            omega
          · simp [List.getLast?] at hl
        · cases e with
          | Keep t =>
            have hdl := mergeMeasure_dropLast acc (Diff.Keep t) hl
            rw [mergeMeasure_append, mergeMeasure_cons, mergeMeasure_nil]
            simp only [Diff.text] at hdl ⊢
            simp [List.length_take, Nat.min_eq_left hci]
            omega
          | Add t =>
            rw [mergeMeasure_cons]
            simp [Diff.text, List.length_take, Nat.min_eq_left hci]
            omega
          | Delete t =>
            rw [mergeMeasure_cons]
            simp [Diff.text, List.length_take, Nat.min_eq_left hci]
            omega
    rcases hst1 : mergePrefixStep acc pd pi txt with ⟨a, d1, i1, t1⟩
    rw [hst1] at HP
    simp only at HP
    obtain ⟨HP1, rfl⟩ := HP
    simp only [mergeSuffixStep]
    by_cases hc2 : diff_common_suffix i1 d1 = 0
    · rw [if_neg (by simp [hc2])]
      constructor
      · simp only []
        omega
      · intro ht hs
        simp only at hs
        subst ht
        exact absurd rfl hs
    · rw [if_pos (by simpa using hc2)]
      simp only []
      have hcl : diff_common_suffix i1 d1 ≤ i1.length :=
        dcs_le_left i1 d1
      have hcr : diff_common_suffix i1 d1 ≤ d1.length :=
        dcs_le_right i1 d1
      have hc2p : 1 ≤ diff_common_suffix i1 d1 := by omega
      have l1 : (d1.take (d1.length - diff_common_suffix i1 d1)).length =
          d1.length - diff_common_suffix i1 d1 := by
        simp [List.length_take]
      have l2 : (i1.take (i1.length - diff_common_suffix i1 d1)).length =
          i1.length - diff_common_suffix i1 d1 := by
        simp [List.length_take]
      have l3 : (i1.drop (i1.length - diff_common_suffix i1 d1)).length =
          diff_common_suffix i1 d1 := by
        simp [List.length_drop]
        omega
      constructor
      · rw [l1, l2]
        simp [l3]
        omega
      · intro ht _
        subst ht
        rw [l1, l2]
        simp [l3]
        omega
  · rw [if_neg h0]
    refine ⟨by simp only []; omega, ?_⟩
    intro ht hs
    simp only at hs
    subst ht
    exact absurd rfl hs

theorem mergeRunFactor_measure (acc : List Diff) (pd pi txt : Str)
    (cd ci : Nat) :
    mergeMeasure (mergeRunFactor acc pd pi txt cd ci) ≤
      mergeMeasure acc + pd.length + pi.length + txt.length + 3 := by
  rw [mergeRunFactor_shape]
  obtain ⟨H1, _⟩ := mergeRunSt_measure acc pd pi txt cd ci
  rw [mergeMeasure_append, mergeMeasure_append, mergeMeasure_append,
    mergeMeasure_cons, mergeMeasure_nil]
  have hd : mergeMeasure
      (if (mergeRunSt acc pd pi txt cd ci).2.1 ≠ [] then
        [Diff.Delete (mergeRunSt acc pd pi txt cd ci).2.1] else []) ≤
      (mergeRunSt acc pd pi txt cd ci).2.1.length + 1 := by
    by_cases h : (mergeRunSt acc pd pi txt cd ci).2.1 = [] <;>
      simp [h, mergeMeasure_cons, mergeMeasure_nil, Diff.text]
  have hi : mergeMeasure
      (if (mergeRunSt acc pd pi txt cd ci).2.2.1 ≠ [] then
        [Diff.Add (mergeRunSt acc pd pi txt cd ci).2.2.1] else []) ≤
      (mergeRunSt acc pd pi txt cd ci).2.2.1.length + 1 := by
    by_cases h : (mergeRunSt acc pd pi txt cd ci).2.2.1 = [] <;>
      simp [h, mergeMeasure_cons, mergeMeasure_nil, Diff.text]
  simp only [Diff.text]
  omega

theorem mergeRunFactor_pop_measure (acc : List Diff) (pd pi : Str)
    (cd ci : Nat) :
    mergeMeasure (pass1Pop (mergeRunFactor acc pd pi [] cd ci)) ≤
      mergeMeasure acc + pd.length + pi.length + 2 := by
  rw [mergeRunFactor_shape, pass1Pop_concat]
  obtain ⟨H1, H2⟩ := mergeRunSt_measure acc pd pi [] cd ci
  have hd : mergeMeasure
      (if (mergeRunSt acc pd pi [] cd ci).2.1 ≠ [] then
        [Diff.Delete (mergeRunSt acc pd pi [] cd ci).2.1] else []) ≤
      (mergeRunSt acc pd pi [] cd ci).2.1.length + 1 := by
    by_cases h : (mergeRunSt acc pd pi [] cd ci).2.1 = [] <;>
      simp [h, mergeMeasure_cons, mergeMeasure_nil, Diff.text]
  have hi : mergeMeasure
      (if (mergeRunSt acc pd pi [] cd ci).2.2.1 ≠ [] then
        [Diff.Add (mergeRunSt acc pd pi [] cd ci).2.2.1] else []) ≤
      (mergeRunSt acc pd pi [] cd ci).2.2.1.length + 1 := by
    by_cases h : (mergeRunSt acc pd pi [] cd ci).2.2.1 = [] <;>
      simp [h, mergeMeasure_cons, mergeMeasure_nil, Diff.text]
  by_cases hs : (mergeRunSt acc pd pi [] cd ci).2.2.2 = []
  · rw [if_pos hs]
    rw [mergeMeasure_append, mergeMeasure_append]
    rw [hs] at H1
    simp at H1
    omega
  · rw [if_neg hs]
    have H2' := H2 rfl hs
    rw [mergeMeasure_append, mergeMeasure_append, mergeMeasure_append,
      mergeMeasure_cons, mergeMeasure_nil]
    simp only [Diff.text]
    omega

theorem pass1Go_measure : ∀ (ds acc : List Diff) (pd pi : Str)
    (pe : List Diff) (cd ci : Nat),
    mergeMeasure pe = pd.length + pi.length + (cd + ci) →
    mergeMeasure (pass1Pop (pass1Go acc pd pi pe cd ci
      (ds ++ [Diff.Keep []]))) ≤
    mergeMeasure acc + mergeMeasure pe + mergeMeasure ds
  | [], acc, pd, pi, pe, cd, ci, hpe => by
    rw [List.nil_append]
    simp only [pass1Go]
    by_cases hgt : cd + ci > 1
    · rw [if_pos hgt]
      simp only [pass1Go, List.append_nil]
      have := mergeRunFactor_pop_measure acc pd pi cd ci
      rw [mergeMeasure_nil]
      omega
    · rw [if_neg hgt]
      rcases hl : (acc ++ pe).getLast? with _ | e
      · try simp only []
        try simp only [pass1Go]
        try simp only [List.append_nil]
        rw [pass1Pop_concat, if_pos rfl, mergeMeasure_append,
          mergeMeasure_nil]
        omega
      · cases e with
        | Keep t =>
          try simp only []
          try simp only [pass1Go]
          try simp only [List.append_nil]
          have hdl := mergeMeasure_dropLast (acc ++ pe) (Diff.Keep t) hl
          rw [pass1Pop_concat]
          rw [mergeMeasure_append] at hdl
          simp only [Diff.text] at hdl
          by_cases ht : t = []
          · rw [if_pos ht]
            rw [mergeMeasure_nil]
            omega
          · rw [if_neg ht, mergeMeasure_append, mergeMeasure_cons,
              mergeMeasure_nil]
            simp only [Diff.text]
            omega
        | Add t =>
          try simp only []
          try simp only [pass1Go]
          try simp only [List.append_nil]
          rw [pass1Pop_concat, if_pos rfl, mergeMeasure_append,
            mergeMeasure_nil]
          omega
        | Delete t =>
          try simp only []
          try simp only [pass1Go]
          try simp only [List.append_nil]
          rw [pass1Pop_concat, if_pos rfl, mergeMeasure_append,
            mergeMeasure_nil]
          omega
  | d :: ds, acc, pd, pi, pe, cd, ci, hpe => by
    rw [List.cons_append]
    rcases d with t | t | t
    · simp only [pass1Go]
      have ih := pass1Go_measure ds acc pd (pi ++ t)
        (pe ++ [Diff.Add t]) cd (ci + 1)
        (by rw [mergeMeasure_append, mergeMeasure_cons, mergeMeasure_nil]
            simp [Diff.text, hpe]
            omega)
      rw [mergeMeasure_append, mergeMeasure_cons, mergeMeasure_nil] at ih
      rw [mergeMeasure_cons]
      simp only [Diff.text] at ih ⊢
      omega
    · simp only [pass1Go]
      by_cases hgt : cd + ci > 1
      · rw [if_pos hgt]
        have ih := pass1Go_measure ds (mergeRunFactor acc pd pi t cd ci)
          [] [] [] 0 0 rfl
        have hm := mergeRunFactor_measure acc pd pi t cd ci
        rw [mergeMeasure_nil] at ih
        rw [mergeMeasure_cons]
        simp only [Diff.text]
        omega
      · rw [if_neg hgt]
        rcases hl : (acc ++ pe).getLast? with _ | e
        · have ih := pass1Go_measure ds ((acc ++ pe) ++ [Diff.Keep t])
            [] [] [] 0 0 rfl
          rw [mergeMeasure_nil] at ih
          rw [mergeMeasure_append, mergeMeasure_append,
            mergeMeasure_cons, mergeMeasure_nil] at ih
          rw [mergeMeasure_cons]
          simp only [Diff.text] at ih ⊢
          omega
        · cases e with
          | Keep tk =>
            have hdl := mergeMeasure_dropLast (acc ++ pe)
              (Diff.Keep tk) hl
            have ih := pass1Go_measure ds
              ((acc ++ pe).dropLast ++ [Diff.Keep (tk ++ t)])
              [] [] [] 0 0 rfl
            rw [mergeMeasure_nil] at ih
            rw [mergeMeasure_append, mergeMeasure_cons,
              mergeMeasure_nil] at ih
            rw [mergeMeasure_append] at hdl
            rw [mergeMeasure_cons]
            simp only [Diff.text] at hdl ih ⊢
            simp only [List.length_append] at ih
            omega
          | Add tk =>
            have ih := pass1Go_measure ds ((acc ++ pe) ++ [Diff.Keep t])
              [] [] [] 0 0 rfl
            rw [mergeMeasure_nil] at ih
            rw [mergeMeasure_append, mergeMeasure_append,
              mergeMeasure_cons, mergeMeasure_nil] at ih
            rw [mergeMeasure_cons]
            simp only [Diff.text] at ih ⊢
            omega
          | Delete tk =>
            have ih := pass1Go_measure ds ((acc ++ pe) ++ [Diff.Keep t])
              [] [] [] 0 0 rfl
            rw [mergeMeasure_nil] at ih
            rw [mergeMeasure_append, mergeMeasure_append,
              mergeMeasure_cons, mergeMeasure_nil] at ih
            rw [mergeMeasure_cons]
            simp only [Diff.text] at ih ⊢
            omega
    · simp only [pass1Go]
      have ih := pass1Go_measure ds acc (pd ++ t) pi
        (pe ++ [Diff.Delete t]) (cd + 1) ci
        (by rw [mergeMeasure_append, mergeMeasure_cons, mergeMeasure_nil]
            simp [Diff.text, hpe]
            omega)
      rw [mergeMeasure_append, mergeMeasure_cons, mergeMeasure_nil] at ih
      rw [mergeMeasure_cons]
      simp only [Diff.text] at ih ⊢
      omega

theorem pass1_measure (ds : List Diff) :
    mergeMeasure (pass1 ds) ≤ mergeMeasure ds := by
  rw [pass1_eq]
  have := pass1Go_measure ds [] [] [] [] 0 0 rfl
  rw [mergeMeasure_nil] at this
  omega

theorem cleanupMergeGo_good : ∀ (fuel : Nat) (ds : List Diff),
    nonEmptyTexts ds → mergeMeasure ds < fuel →
    nonEmptyTexts (cleanupMergeGo fuel ds) ∧
    pairwiseAdj (cleanupMergeGo fuel ds)
  | 0, _, _, hf => absurd hf (by omega)
  | fuel + 1, ds, hne, hf => by
    simp only [cleanupMergeGo]
    by_cases he : ds.isEmpty
    · rw [if_pos he]
      exact ⟨hne, by rcases ds with _ | ⟨d, ds0⟩
                     · exact pairwiseAdj_nil
                     · simp [List.isEmpty] at he⟩
    · rw [if_neg he]
      obtain ⟨hne1, hadj1⟩ := pass1_post ds hne
      have hm1 : mergeMeasure (pass1 ds) ≤ mergeMeasure ds :=
        pass1_measure ds
      obtain ⟨r1p, r2p, r3p⟩ := pass2Go_invar ((pass1 ds).length + 2)
        (pass1 ds) 1 false (by omega) hne1
      by_cases hp :
          (pass2Go ((pass1 ds).length + 2) (pass1 ds) 1 false).2 = true
      · rw [if_pos hp]
        rcases r3p hp with hch | hlt
        · simp at hch
        · exact cleanupMergeGo_good fuel _ r1p (by omega)
      · rw [if_neg hp]
        have heq := pass2Go_nochange ((pass1 ds).length + 2) (pass1 ds) 1
          (by simpa using hp)
        rw [heq]
        exact ⟨hne1, hadj1⟩

/-- C2: amended statement.  For input scripts whose elements all carry
non-empty text, `diff_cleanup_merge` returns a script in which every element
still has non-empty text and every adjacent pair satisfies `mergedAdj`: no
two neighbours share a tag unless both are `Keep`, and a neighbouring
`Delete`/`Add` pair (in either order) has neither a common prefix nor a
common suffix. -/
theorem claim_C2_amended (ds : List Diff) (h : nonEmptyTexts ds) :
    nonEmptyTexts (diff_cleanup_merge ds) ∧
    pairwiseAdj (diff_cleanup_merge ds) := by
  unfold diff_cleanup_merge
  exact cleanupMergeGo_good (mergeMeasure ds + 1) ds h (by omega)

theorem fle_refl (a : F32) : fle a a = true :=
  decide_eq_true (le_refl _)

theorem fle_trans (a b c : F32) (ha : 0 ≤ a.den) (hb : 0 < b.den)
    (hc : 0 ≤ c.den) (h1 : fle a b = true) (h2 : fle b c = true) :
    fle a c = true := by
  simp only [fle, decide_eq_true_eq] at h1 h2 ⊢
  have h3 : a.num * c.den * b.den ≤ c.num * a.den * b.den := by
    nlinarith [mul_le_mul_of_nonneg_right h1 hc,
      mul_le_mul_of_nonneg_right h2 ha]
  exact le_of_mul_le_mul_right h3 hb

theorem min1_le_left (x y : F32) : fle (min1 x y) x = true := by
  simp only [min1]
  by_cases h : fgt x y = true
  · rw [if_pos h]
    simp only [fgt, decide_eq_true_eq] at h
    exact decide_eq_true (le_of_lt h)
  · rw [if_neg h]
    exact fle_refl x

theorem min1_le_right (x y : F32) : fle (min1 x y) y = true := by
  simp only [min1]
  by_cases h : fgt x y = true
  · rw [if_pos h]
    exact fle_refl y
  · rw [if_neg h]
    simp only [fgt, decide_eq_true_eq] at h
    simp only [fle, decide_eq_true_eq]
    omega

theorem min1_den_pos (x y : F32) (hx : 0 < x.den) (hy : 0 < y.den) :
    0 < (min1 x y).den := by
  simp only [min1]
  by_cases h : fgt x y = true
  · rw [if_pos h]; exact hy
  · rw [if_neg h]; exact hx

theorem score_den_pos (cfg : Config) (e x loc : Int) (patern : Str)
    (hp : patern ≠ []) : 0 < (match_bitap_score cfg e x loc patern).den := by
  have hl : 0 < patern.length := List.length_pos.2 hp
  simp only [match_bitap_score]
  by_cases h1 : cfg.match_distance = 0
  · rw [if_pos h1]
    by_cases h2 : ((loc - x).natAbs : Int) = 0
    · rw [if_pos h2]
      show (0 : Int) < (patern.length : Int)
      exact_mod_cast hl
    · rw [if_neg h2]
      norm_num
  · rw [if_neg h1]
    have hm : 0 < patern.length * cfg.match_distance :=
      Nat.mul_pos hl (Nat.pos_of_ne_zero h1)
    show (0 : Int) < ((patern.length * cfg.match_distance : Nat) : Int)
    exact_mod_cast hm

theorem bitapJGo_step (cfg : Config) (text patern : Str)
    (s : List (Char × Nat)) (matchmask : Nat) (loc : Int) (d : Nat)
    (last_rd : List Nat) (finish : Int) (T : F32) (B : Int) (fuel : Nat)
    (j : Int) (rdj : Nat) (rd' : List Nat) (start : Int) (thr : F32)
    (best : Int)
    (hp : patern ≠ []) (hs : 1 ≤ start) (hjs : start ≤ j) (hjB : j ≤ B)
    (hd : d < patern.length) (hden : 0 < thr.den) (hT : fle thr T = true)
    (hTd : 0 ≤ T.den) (hbest : bitapGood cfg patern loc B T best)
    (hIH : ∀ (j' : Int) (rd : List Nat) (st : Int) (th : F32) (b : Int),
      1 ≤ st → j' ≤ B → 0 < th.den → fle th T = true →
      bitapGood cfg patern loc B T b →
      0 < (bitapJGo cfg text patern s matchmask loc d last_rd finish fuel
          j' rd st th b).2.1.den ∧
      fle (bitapJGo cfg text patern s matchmask loc d last_rd finish fuel
          j' rd st th b).2.1 T = true ∧
      bitapGood cfg patern loc B T
        (bitapJGo cfg text patern s matchmask loc d last_rd finish fuel
          j' rd st th b).2.2) :
    0 < (if rdj &&& matchmask ≠ 0 then
        if fle (match_bitap_score cfg (d : Int) (j - 1) loc patern) thr =
            true then
          if j - 1 > loc then
            bitapJGo cfg text patern s matchmask loc d last_rd finish fuel
              (j - 1) rd' (max 1 (2 * loc - (j - 1)))
              (match_bitap_score cfg (d : Int) (j - 1) loc patern) (j - 1)
          else (rd', match_bitap_score cfg (d : Int) (j - 1) loc patern,
            j - 1)
        else
          bitapJGo cfg text patern s matchmask loc d last_rd finish fuel
            (j - 1) rd' start thr best
      else
        bitapJGo cfg text patern s matchmask loc d last_rd finish fuel
          (j - 1) rd' start thr best).2.1.den ∧
    fle (if rdj &&& matchmask ≠ 0 then
        if fle (match_bitap_score cfg (d : Int) (j - 1) loc patern) thr =
            true then
          if j - 1 > loc then
            bitapJGo cfg text patern s matchmask loc d last_rd finish fuel
              (j - 1) rd' (max 1 (2 * loc - (j - 1)))
              (match_bitap_score cfg (d : Int) (j - 1) loc patern) (j - 1)
          else (rd', match_bitap_score cfg (d : Int) (j - 1) loc patern,
            j - 1)
        else
          bitapJGo cfg text patern s matchmask loc d last_rd finish fuel
            (j - 1) rd' start thr best
      else
        bitapJGo cfg text patern s matchmask loc d last_rd finish fuel
          (j - 1) rd' start thr best).2.1 T = true ∧
    bitapGood cfg patern loc B T
      (if rdj &&& matchmask ≠ 0 then
        if fle (match_bitap_score cfg (d : Int) (j - 1) loc patern) thr =
            true then
          if j - 1 > loc then
            bitapJGo cfg text patern s matchmask loc d last_rd finish fuel
              (j - 1) rd' (max 1 (2 * loc - (j - 1)))
              (match_bitap_score cfg (d : Int) (j - 1) loc patern) (j - 1)
          else (rd', match_bitap_score cfg (d : Int) (j - 1) loc patern,
            j - 1)
        else
          bitapJGo cfg text patern s matchmask loc d last_rd finish fuel
            (j - 1) rd' start thr best
      else
        bitapJGo cfg text patern s matchmask loc d last_rd finish fuel
          (j - 1) rd' start thr best).2.2 := by
  by_cases hm : rdj &&& matchmask ≠ 0
  · rw [if_pos hm]
    by_cases hf :
        fle (match_bitap_score cfg (d : Int) (j - 1) loc patern) thr = true
    · rw [if_pos hf]
      have hsc : fle (match_bitap_score cfg (d : Int) (j - 1) loc patern)
          T = true :=
        fle_trans _ thr T
          (le_of_lt (score_den_pos cfg d (j - 1) loc patern hp))
          hden hTd hf hT
      by_cases hbl : j - 1 > loc
      · rw [if_pos hbl]
        exact hIH (j - 1) rd' _ _ _ (le_max_left 1 _) (by omega)
          (score_den_pos cfg d (j - 1) loc patern hp) hsc
          (Or.inr ⟨by omega, by omega, d, hd, hsc⟩)
      · rw [if_neg hbl]
        refine ⟨score_den_pos cfg d (j - 1) loc patern hp, hsc, ?_⟩
        show bitapGood cfg patern loc B T (j - 1)
        exact Or.inr ⟨by omega, by omega, d, hd, hsc⟩
    · rw [if_neg hf]
      exact hIH (j - 1) rd' start thr best hs (by omega) hden hT hbest
  · rw [if_neg hm]
    exact hIH (j - 1) rd' start thr best hs (by omega) hden hT hbest

theorem bitapJGo_invar (cfg : Config) (text patern : Str)
    (s : List (Char × Nat)) (matchmask : Nat) (loc : Int) (d : Nat)
    (last_rd : List Nat) (finish : Int) (T : F32) (B : Int) :
    ∀ (fuel : Nat) (j : Int) (rd : List Nat) (start : Int) (thr : F32)
      (best : Int),
    patern ≠ [] → 1 ≤ start → j ≤ B → d < patern.length →
    0 < thr.den → fle thr T = true → 0 ≤ T.den →
    bitapGood cfg patern loc B T best →
    0 < (bitapJGo cfg text patern s matchmask loc d last_rd finish fuel j
        rd start thr best).2.1.den ∧
    fle (bitapJGo cfg text patern s matchmask loc d last_rd finish fuel j
        rd start thr best).2.1 T = true ∧
    bitapGood cfg patern loc B T
      (bitapJGo cfg text patern s matchmask loc d last_rd finish fuel j
        rd start thr best).2.2
  | 0, j, rd, start, thr, best, hp, hs, hjB, hd, hden, hT, hTd, hbest => by
    simp only [bitapJGo]
    exact ⟨hden, hT, hbest⟩
  | fuel + 1, j, rd, start, thr, best, hp, hs, hjB, hd, hden, hT, hTd,
      hbest => by
    have hIH : ∀ (j' : Int) (rd : List Nat) (st : Int) (th : F32)
        (b : Int), 1 ≤ st → j' ≤ B → 0 < th.den → fle th T = true →
        bitapGood cfg patern loc B T b →
        0 < (bitapJGo cfg text patern s matchmask loc d last_rd finish fuel
            j' rd st th b).2.1.den ∧
        fle (bitapJGo cfg text patern s matchmask loc d last_rd finish fuel
            j' rd st th b).2.1 T = true ∧
        bitapGood cfg patern loc B T
          (bitapJGo cfg text patern s matchmask loc d last_rd finish fuel
            j' rd st th b).2.2 :=
      fun j' rd st th b h1 h2 h3 h4 h5 =>
        bitapJGo_invar cfg text patern s matchmask loc d last_rd finish
          T B fuel j' rd st th b hp h1 h2 hd h3 h4 hTd h5
    simp only [bitapJGo]
    by_cases hjs : j ≥ start
    · rw [if_pos hjs]
      exact bitapJGo_step cfg text patern s matchmask loc d last_rd finish
        T B fuel j _ _ start thr best hp hs hjs hjB hd hden hT hTd hbest
        hIH
    · rw [if_neg hjs]
      exact ⟨hden, hT, hbest⟩

theorem bitapDGo_invar (cfg : Config) (text patern : Str)
    (s : List (Char × Nat)) (matchmask : Nat) (loc : Int) (T : F32) :
    ∀ (fuel d : Nat) (bin_max : Int) (thr : F32) (best : Int)
      (last_rd : List Nat),
    patern ≠ [] → 0 < thr.den → fle thr T = true → 0 ≤ T.den →
    bitapGood cfg patern loc ((text.length : Int) + patern.length) T best →
    bitapGood cfg patern loc ((text.length : Int) + patern.length) T
      (bitapDGo cfg text patern s matchmask loc fuel d bin_max thr best
        last_rd)
  | 0, d, bin_max, thr, best, last_rd, _, _, _, _, hbest => by
    simp only [bitapDGo]
    exact hbest
  | fuel + 1, d, bin_max, thr, best, last_rd, hp, hden, hT, hTd, hbest => by
    simp only [bitapDGo]
    split
    next hdlt =>
      obtain ⟨r1, r2, r3⟩ := bitapJGo_invar cfg text patern s matchmask loc
        d last_rd
        (min (loc + bitapBinGo cfg loc d patern thr (bin_max.toNat + 66) 0
          bin_max bin_max) (text.length : Int) + (patern.length : Int))
        T ((text.length : Int) + patern.length)
        ((min (loc + bitapBinGo cfg loc d patern thr (bin_max.toNat + 66) 0
          bin_max bin_max) (text.length : Int) + (patern.length : Int)) +
          2).toNat
        (min (loc + bitapBinGo cfg loc d patern thr (bin_max.toNat + 66) 0
          bin_max bin_max) (text.length : Int) + (patern.length : Int))
        _ _ thr best hp (le_max_left 1 _) (by omega) hdlt hden hT hTd hbest
      split
      next => exact r3
      next =>
        exact bitapDGo_invar cfg text patern s matchmask loc T fuel (d + 1)
          _ _ _ _ hp r1 r2 hTd r3
    next => exact hbest

theorem match_bitap_good (cfg : Config) (text patern : Str) (loc r : Int)
    (hp : patern ≠ []) (hden : 0 < cfg.match_threshold.den)
    (h : match_bitap cfg text patern loc = PRes.ok r) :
    bitapGood cfg patern loc ((text.length : Int) + patern.length)
      cfg.match_threshold r := by
  simp only [match_bitap] at h
  by_cases hmb : ¬ (cfg.match_maxbits = 0 ∨
      patern.length ≤ cfg.match_maxbits)
  · rw [if_pos hmb] at h
    exact absurd h (by simp)
  · rw [if_neg hmb] at h
    rcases hk : kmp text patern loc.toNat with _ | best
    · rw [hk] at h
      simp only [] at h
      have hg := bitapDGo_invar cfg text patern (match_alphabet patern)
        (2 ^ (patern.length - 1) % 2 ^ 32) loc cfg.match_threshold
        (patern.length + 1) 0 ((patern.length + text.length : Nat) : Int)
        cfg.match_threshold (-1) [] hp hden (fle_refl _) (le_of_lt hden)
        (Or.inl rfl)
      rw [PRes.ok.injEq] at h
      exact h ▸ hg
    · rw [hk] at h
      simp only [] at h
      rcases hrk : rkmp text patern (loc.toNat + patern.length) with
          _ | best2
      · rw [hrk] at h
        simp only [] at h
        have ht1 : 0 < (min1 (match_bitap_score cfg 0 best loc patern)
            cfg.match_threshold).den :=
          min1_den_pos _ _ (score_den_pos cfg 0 best loc patern hp) hden
        have ht2 : fle (min1 (match_bitap_score cfg 0 best loc patern)
            cfg.match_threshold) cfg.match_threshold = true :=
          min1_le_right _ _
        have hg := bitapDGo_invar cfg text patern (match_alphabet patern)
          (2 ^ (patern.length - 1) % 2 ^ 32) loc cfg.match_threshold
          (patern.length + 1) 0 ((patern.length + text.length : Nat) : Int)
          (min1 (match_bitap_score cfg 0 best loc patern)
            cfg.match_threshold) (-1) [] hp ht1 ht2 (le_of_lt hden)
          (Or.inl rfl)
        rw [PRes.ok.injEq] at h
        exact h ▸ hg
      · rw [hrk] at h
        simp only [] at h
        have htp : 0 < (min1 (match_bitap_score cfg 0 best loc patern)
            cfg.match_threshold).den :=
          min1_den_pos _ _ (score_den_pos cfg 0 best loc patern hp) hden
        have ht1 : 0 < (min1 (min1 (match_bitap_score cfg 0 best loc
            patern) cfg.match_threshold)
            (match_bitap_score cfg 0 best2 loc patern)).den :=
          min1_den_pos _ _ htp (score_den_pos cfg 0 best2 loc patern hp)
        have ht2 : fle (min1 (min1 (match_bitap_score cfg 0 best loc
            patern) cfg.match_threshold)
            (match_bitap_score cfg 0 best2 loc patern))
            cfg.match_threshold = true :=
          fle_trans _ _ _ (le_of_lt ht1) htp (le_of_lt hden)
            (min1_le_left _ _) (min1_le_right _ _)
        have hg := bitapDGo_invar cfg text patern (match_alphabet patern)
          (2 ^ (patern.length - 1) % 2 ^ 32) loc cfg.match_threshold
          (patern.length + 1) 0 ((patern.length + text.length : Nat) : Int)
          (min1 (min1 (match_bitap_score cfg 0 best loc patern)
            cfg.match_threshold)
            (match_bitap_score cfg 0 best2 loc patern)) (-1) [] hp ht1 ht2
          (le_of_lt hden) (Or.inl rfl)
        rw [PRes.ok.injEq] at h
        exact h ▸ hg

/-- C7: amended statement.  `match_main` returns `-1` or a location in
`[0, utf8len(text) + len(patern)]`, strictly below the scalar bound
`len(text) + len(patern)` whenever the pattern is non-empty (a fuzzy bitap
match may start up to `len(patern)` positions past
`len(text) - len(patern)`; an empty pattern returns the incoming location
clamped to the UTF-8 byte length of the text, which can exceed the scalar
length on non-ASCII text).  Whenever the result comes from the bitap scan
itself (none of the early shortcuts fired) and is not `-1`, it was recorded
with some error count `e < len(patern)` whose score
`e/len(patern) + |loc - index|/match_distance` is at most
`match_threshold`; the shortcut returns are not subject to the threshold.
The hypothesis `0 < cfg.match_threshold.den` states that the threshold is a
well-formed score value (denominators of genuine `f32` scores are
positive). -/
theorem claim_C7_amended (cfg : Config) (text patern : Str)
    (loc0 loc r : Int) (hden : 0 < cfg.match_threshold.den) :
    (match_main cfg text patern loc0 = PRes.ok r →
      r = -1 ∨ (0 ≤ r ∧ r ≤ ((utf8Len text : Nat) : Int) + patern.length ∧
        (patern ≠ [] → r < (text.length : Int) + patern.length))) ∧
    (patern ≠ [] → match_bitap cfg text patern loc = PRes.ok r →
      r ≠ -1 →
      0 ≤ r ∧ r < (text.length : Int) + patern.length ∧
      ∃ e : Nat, e < patern.length ∧
        fle (match_bitap_score cfg e r loc patern)
          cfg.match_threshold = true) := by
  constructor
  · intro h
    simp only [match_main] at h
    have hle := length_le_utf8Len text
    by_cases h1 : patern.isEmpty
    · rw [if_pos h1] at h
      rw [PRes.ok.injEq] at h
      have hpe : patern = [] := by simpa using h1
      refine Or.inr ⟨by omega, by omega, fun hne => absurd hpe hne⟩
    · rw [if_neg h1] at h
      have hpne : patern ≠ [] := by simpa using h1
      have hpl : 0 < patern.length := List.length_pos.2 hpne
      by_cases h2 : text.isEmpty
      · rw [if_pos h2] at h
        rw [PRes.ok.injEq] at h
        exact Or.inl h.symm
      · rw [if_neg h2] at h
        by_cases h3 : text = patern
        · rw [if_pos h3] at h
          rw [PRes.ok.injEq] at h
          exact Or.inr ⟨by omega, by omega, fun _ => by omega⟩
        · rw [if_neg h3] at h
          by_cases h4 : (max 0 (min loc0 ((utf8Len text : Nat) : Int))).toNat +
              patern.length ≤ text.length ∧
              (text.take ((max 0 (min loc0 ((utf8Len text : Nat) : Int))).toNat +
                patern.length)).drop
                (max 0 (min loc0 ((utf8Len text : Nat) : Int))).toNat = patern
          · rw [if_pos h4] at h
            rw [PRes.ok.injEq] at h
            refine Or.inr ⟨by omega, by omega, fun _ => by omega⟩
          · rw [if_neg h4] at h
            rcases match_bitap_good cfg text patern _ r hpne hden h with
                hg | ⟨a, b, _⟩
            · exact Or.inl hg
            · exact Or.inr ⟨a, by omega, fun _ => b⟩
  · intro hpne hb hr
    rcases match_bitap_good cfg text patern loc r hpne hden hb with
        hg | ⟨a, b, c⟩
    · exact absurd hg hr
    · exact ⟨a, b, c⟩

theorem claim_C7_amended_witness :
    0 < dmpDefault.match_threshold.den ∧
    ((match_main dmpDefault ['a', 'b'] ['b'] 0 = PRes.ok 1 →
        (1 : Int) = -1 ∨ (0 ≤ (1 : Int) ∧
          (1 : Int) ≤ (2 : Int) + 1 ∧
          ((['b'] : Str) ≠ [] → (1 : Int) < (2 : Int) + 1))) ∧
      ((['b'] : Str) ≠ [] →
        match_bitap dmpDefault ['a', 'b'] ['b'] 0 = PRes.ok 1 →
        (1 : Int) ≠ -1 →
        0 ≤ (1 : Int) ∧ (1 : Int) < (2 : Int) + 1 ∧
        ∃ e : Nat, e < (['b'] : Str).length ∧
          fle (match_bitap_score dmpDefault e 1 0 ['b'])
            dmpDefault.match_threshold = true)) :=
  ⟨by decide,
   claim_C7_amended dmpDefault ['a', 'b'] ['b'] 0 0 1 (by decide)⟩

theorem claim_C2_amended_witness :
    nonEmptyTexts [Diff.Keep ['x'], Diff.Delete ['a'], Diff.Add ['a'],
      Diff.Keep ['y']] ∧
    (nonEmptyTexts (diff_cleanup_merge [Diff.Keep ['x'], Diff.Delete ['a'],
        Diff.Add ['a'], Diff.Keep ['y']]) ∧
      pairwiseAdj (diff_cleanup_merge [Diff.Keep ['x'], Diff.Delete ['a'],
        Diff.Add ['a'], Diff.Keep ['y']])) :=
  ⟨by simp [nonEmptyTexts, Diff.text],
   claim_C2_amended _ (by simp [nonEmptyTexts, Diff.text])⟩

theorem char_toNat_range (c : Char) :
    c.toNat < 55296 ∨ (57343 < c.toNat ∧ c.toNat < 1114112) := by
  rcases c.valid with h | ⟨h1, h2⟩
  · exact Or.inl h
  · exact Or.inr ⟨h1, h2⟩

theorem utf8Bytes_ne_nil (c : Char) : utf8Bytes c ≠ [] := by
  simp only [utf8Bytes]
  by_cases h1 : c.toNat < 128
  · rw [if_pos h1]; simp
  · rw [if_neg h1]
    by_cases h2 : c.toNat < 2048
    · rw [if_pos h2]; simp
    · rw [if_neg h2]
      by_cases h3 : c.toNat < 65536
      · rw [if_pos h3]; simp
      · rw [if_neg h3]; simp

theorem utf8Bytes_lt_256 (c : Char) : ∀ b ∈ utf8Bytes c, b < 256 := by
  have hv := char_toNat_range c
  simp only [utf8Bytes]
  by_cases h1 : c.toNat < 128
  · rw [if_pos h1]
    intro b hb
    simp at hb
    omega
  · rw [if_neg h1]
    by_cases h2 : c.toNat < 2048
    · rw [if_pos h2]
      intro b hb
      simp at hb
      rcases hb with h | h <;> omega
    · rw [if_neg h2]
      by_cases h3 : c.toNat < 65536
      · rw [if_pos h3]
        intro b hb
        simp at hb
        rcases hb with h | h | h <;> omega
      · rw [if_neg h3]
        intro b hb
        simp at hb
        rcases hb with h | h | h | h <;> omega

theorem utf8DecodeOne_bytes (c : Char) (rest : List Nat) :
    utf8DecodeOne (utf8Bytes c ++ rest) = some (c.toNat, rest) := by
  have hv := char_toNat_range c
  simp only [utf8Bytes]
  by_cases h1 : c.toNat < 128
  · rw [if_pos h1]
    simp only [List.cons_append, List.nil_append, utf8DecodeOne]
    rw [if_pos h1]
  · rw [if_neg h1]
    by_cases h2 : c.toNat < 2048
    · rw [if_pos h2]
      simp only [List.cons_append, List.nil_append, utf8DecodeOne]
      rw [if_neg (by omega), if_neg (by omega), if_pos (by omega)]
      rw [if_pos (by omega)]
      rw [if_pos (by omega)]
      have he : (192 + c.toNat / 64 - 192) * 64 + (128 + c.toNat % 64 - 128)
          = c.toNat := by omega
      rw [he]
    · rw [if_neg h2]
      by_cases h3 : c.toNat < 65536
      · rw [if_pos h3]
        simp only [List.cons_append, List.nil_append, utf8DecodeOne]
        rw [if_neg (by omega), if_neg (by omega), if_neg (by omega),
          if_pos (by omega)]
        rw [if_pos (by constructor <;> constructor <;> omega)]
        have he : (224 + c.toNat / 4096 - 224) * 4096 +
            (128 + c.toNat / 64 % 64 - 128) * 64 +
            (128 + c.toNat % 64 - 128) = c.toNat := by omega
        rw [he]
        rw [if_pos (by omega)]
      · rw [if_neg h3]
        simp only [List.cons_append, List.nil_append, utf8DecodeOne]
        rw [if_neg (by omega), if_neg (by omega), if_neg (by omega),
          if_neg (by omega)]
        rw [if_pos (by omega)]
        rw [if_pos (by refine ⟨⟨by omega, by omega⟩, ⟨by omega, by omega⟩,
          by omega, by omega⟩)]
        have he : (240 + c.toNat / 262144 - 240) * 262144 +
            (128 + c.toNat / 4096 % 64 - 128) * 4096 +
            (128 + c.toNat / 64 % 64 - 128) * 64 +
            (128 + c.toNat % 64 - 128) = c.toNat := by omega
        rw [he]
        rw [if_pos (by omega)]

theorem utf8Bytes_ascii (c : Char) (h : c.toNat < 128) :
    utf8Bytes c = [c.toNat] := by
  simp [utf8Bytes, h]

theorem strBytes_nil : strBytes [] = [] := rfl

theorem strBytes_cons (c : Char) (t : Str) :
    strBytes (c :: t) = utf8Bytes c ++ strBytes t := rfl

theorem strBytes_append (a b : Str) :
    strBytes (a ++ b) = strBytes a ++ strBytes b := by
  simp [strBytes]

theorem utf8DecodeGo_cons (fuel : Nat) (bs : List Nat) (h : bs ≠ []) :
    utf8DecodeGo (fuel + 1) bs =
      match utf8DecodeOne bs with
      | none => none
      | some nr =>
        match utf8DecodeGo fuel nr.2 with
        | none => none
        | some s => some (Char.ofNat nr.1 :: s) := by
  rcases bs with _ | ⟨b, bs'⟩
  · exact absurd rfl h
  · rfl

theorem utf8DecodeGo_strBytes : ∀ (fuel : Nat) (t : Str),
    (strBytes t).length < fuel → utf8DecodeGo fuel (strBytes t) = some t
  | fuel, [], _ => by cases fuel <;> rfl
  | 0, c :: t, h => absurd h (by omega)
  | fuel + 1, c :: t, h => by
    rw [strBytes_cons] at h ⊢
    have hne : utf8Bytes c ++ strBytes t ≠ [] := by
      simp [utf8Bytes_ne_nil c]
    rw [utf8DecodeGo_cons fuel _ hne, utf8DecodeOne_bytes]
    have hlt : (strBytes t).length < fuel := by
      have h1 : utf8Bytes c ≠ [] := utf8Bytes_ne_nil c
      have h2 : 0 < (utf8Bytes c).length := List.length_pos.2 h1
      rw [List.length_append] at h
      omega
    simp only []
    rw [utf8DecodeGo_strBytes fuel t hlt]
    simp only []
    rw [Char.ofNat_toNat]

theorem utf8Decode_strBytes (t : Str) : utf8Decode (strBytes t) = some t :=
  utf8DecodeGo_strBytes _ t (by omega)

theorem percentDecodeBytes_cons (b : Nat) (bs : List Nat) (hb : b ≠ 37) :
    percentDecodeBytes (b :: bs) = b :: percentDecodeBytes bs := by
  rcases bs with _ | ⟨b1, bs1⟩
  · simp [percentDecodeBytes, hb]
  · rcases bs1 with _ | ⟨b2, bs2⟩
    · simp [percentDecodeBytes, hb]
    · simp [percentDecodeBytes, hb]

theorem percentDecodeBytes_triple (h1 h2 v1 v2 : Nat) (bs : List Nat)
    (hh1 : hexVal (Char.ofNat h1) = some v1)
    (hh2 : hexVal (Char.ofNat h2) = some v2) :
    percentDecodeBytes (37 :: h1 :: h2 :: bs) =
      (v1 * 16 + v2) :: percentDecodeBytes bs := by
  simp [percentDecodeBytes, hh1, hh2]

theorem hexDigit_facts : ∀ n, n < 16 → (hexDigit n).toNat < 128 ∧
    (hexDigit n).toNat ≠ 37 ∧ hexDigit n ≠ '@' ∧ hexDigit n ≠ '\n' ∧
    hexVal (Char.ofNat (hexDigit n).toNat) = some n := by decide

theorem percentDecode_byteHex (b : Nat) (hb : b < 256) (R : List Nat) :
    percentDecodeBytes (strBytes (byteHex b) ++ R) =
      b :: percentDecodeBytes R := by
  obtain ⟨d1, d2, d3, d4, d5⟩ := hexDigit_facts (b / 16) (by omega)
  obtain ⟨e1, e2, e3, e4, e5⟩ := hexDigit_facts (b % 16) (by omega)
  have hs : strBytes (byteHex b) =
      [37, (hexDigit (b / 16)).toNat, (hexDigit (b % 16)).toNat] := by
    simp only [byteHex, strBytes_cons]
    rw [utf8Bytes_ascii _ (by decide), utf8Bytes_ascii _ d1,
      utf8Bytes_ascii _ e1]
    rfl
  rw [hs]
  simp only [List.cons_append, List.nil_append]
  rw [percentDecodeBytes_triple _ _ (b / 16) (b % 16) R d5 e5]
  congr 1
  omega

theorem percentDecode_escape : ∀ (bs : List Nat), (∀ b ∈ bs, b < 256) →
    ∀ (R : List Nat),
    percentDecodeBytes (strBytes (bs.flatMap byteHex) ++ R) =
      bs ++ percentDecodeBytes R
  | [], _, R => by simp [strBytes_nil]
  | b :: bs, h, R => by
    simp only [List.flatMap_cons, strBytes_append, List.append_assoc]
    rw [percentDecode_byteHex b (h b (by simp)) _]
    rw [percentDecode_escape bs (fun x hx => h x (by simp [hx])) R]
    rfl

theorem deltaLiteral_facts : ∀ c ∈ deltaLiteralSet,
    c.toNat < 128 ∧ c.toNat ≠ 37 ∧ c ≠ '\n' := by decide

theorem percentDecode_displayChunk (c : Char) (R : Str) :
    percentDecodeBytes (strBytes (displayEncodeChar c ++ R)) =
      utf8Bytes c ++ percentDecodeBytes (strBytes R) := by
  rw [strBytes_append]
  simp only [displayEncodeChar]
  by_cases h1 : c ∈ deltaLiteralSet
  · rw [if_pos h1]
    obtain ⟨ha, hb, _⟩ := deltaLiteral_facts c h1
    rw [strBytes_cons, strBytes_nil, utf8Bytes_ascii c ha]
    simp only [List.append_nil, List.cons_append, List.nil_append]
    rw [percentDecodeBytes_cons _ _ hb]
  · rw [if_neg h1]
    by_cases h2 : c = '%'
    · rw [if_pos h2]
      subst h2
      have hs : strBytes ['%', '2', '5'] = [37, 50, 53] := by decide
      rw [hs]
      simp only [List.cons_append, List.nil_append]
      rw [percentDecodeBytes_triple 50 53 2 5 _ (by decide) (by decide)]
      rfl
    · rw [if_neg h2]
      simp only [utf8PercentEncodeChar]
      by_cases h3 : inUserinfoSet c = true
      · rw [if_pos h3]
        exact percentDecode_escape (utf8Bytes c) (utf8Bytes_lt_256 c) _
      · rw [if_neg h3]
        simp only [inUserinfoSet, decide_eq_true_eq] at h3
        push_neg at h3
        have ha : c.toNat < 128 := by omega
        have hb : c.toNat ≠ 37 := by
          intro hc
          exact h2 (by rw [← Char.ofNat_toNat c, hc])
        rw [strBytes_cons, strBytes_nil, utf8Bytes_ascii c ha]
        simp only [List.append_nil, List.cons_append, List.nil_append]
        rw [percentDecodeBytes_cons _ _ hb]

theorem percentDecode_encode : ∀ (t : Str),
    percentDecodeBytes (strBytes (t.flatMap displayEncodeChar)) = strBytes t
  | [] => by simp [strBytes, percentDecodeBytes]
  | c :: t => by
    simp only [List.flatMap_cons]
    rw [percentDecode_displayChunk, percentDecode_encode t, strBytes_cons]

theorem percentDecodeStr_encode (t : Str) :
    percentDecodeStr (t.flatMap displayEncodeChar) = some t := by
  unfold percentDecodeStr
  rw [percentDecode_encode]
  exact utf8Decode_strBytes t

theorem char_toNat_ofNat (n : Nat) (h : n < 55296) :
    (Char.ofNat n).toNat = n := by
  unfold Char.ofNat
  rw [dif_pos]
  · rfl
  · exact Or.inl h

theorem natToDigitsGo_facts : ∀ (fuel n : Nat), n < fuel →
    natToDigitsGo fuel n ≠ [] ∧
    (∀ c ∈ natToDigitsGo fuel n, 48 ≤ c.toNat ∧ c.toNat ≤ 57)
  | 0, n, h => absurd h (by omega)
  | fuel + 1, n, h => by
    simp only [natToDigitsGo]
    by_cases h1 : n < 10
    · rw [if_pos h1]
      refine ⟨by simp, ?_⟩
      intro c hc
      rw [List.mem_singleton] at hc
      subst hc
      rw [char_toNat_ofNat _ (by omega)]
      omega
    · rw [if_neg h1]
      obtain ⟨ih1, ih2⟩ := natToDigitsGo_facts fuel (n / 10) (by omega)
      refine ⟨by simp, ?_⟩
      intro c hc
      rw [List.mem_append] at hc
      rcases hc with hc | hc
      · exact ih2 c hc
      · rw [List.mem_singleton] at hc
        subst hc
        rw [char_toNat_ofNat _ (by omega)]
        omega

theorem natToDigitsGo_foldl : ∀ (fuel n a : Nat), n < fuel →
    (natToDigitsGo fuel n).foldl
      (fun acc d => acc * 10 + (d.toNat - 48)) a =
    a * 10 ^ (natToDigitsGo fuel n).length + n
  | 0, n, _, h => absurd h (by omega)
  | fuel + 1, n, a, h => by
    simp only [natToDigitsGo]
    by_cases h1 : n < 10
    · rw [if_pos h1]
      simp only [List.foldl_cons, List.foldl_nil, List.length_singleton]
      rw [char_toNat_ofNat _ (by omega)]
      omega
    · rw [if_neg h1]
      rw [List.foldl_append]
      rw [natToDigitsGo_foldl fuel (n / 10) a (by omega)]
      simp only [List.foldl_cons, List.foldl_nil, List.length_append,
        List.length_singleton]
      rw [char_toNat_ofNat _ (by omega)]
      rw [pow_succ]
      have hd : (48 + n % 10) - 48 = n % 10 := by omega
      rw [hd]
      have : (a * 10 ^ (natToDigitsGo fuel (n / 10)).length + n / 10) * 10 =
          a * (10 ^ (natToDigitsGo fuel (n / 10)).length * 10) +
          (n / 10) * 10 := by ring
      rw [this]
      omega

theorem natRepr_ne_nil (n : Nat) : natRepr n ≠ [] :=
  (natToDigitsGo_facts (n + 1) n (by omega)).1

theorem natRepr_digits (n : Nat) :
    ∀ c ∈ natRepr n, 48 ≤ c.toNat ∧ c.toNat ≤ 57 :=
  (natToDigitsGo_facts (n + 1) n (by omega)).2

theorem natRepr_foldl (n : Nat) :
    (natRepr n).foldl (fun acc d => acc * 10 + (d.toNat - 48)) 0 = n := by
  have := natToDigitsGo_foldl (n + 1) n 0 (by omega)
  simpa [natRepr] using this

theorem splitOnChar_sepfree_append (sep : Char) :
    ∀ (A : Str), (∀ c ∈ A, c ≠ sep) → ∀ B,
    splitOnChar sep (A ++ sep :: B) = A :: splitOnChar sep B
  | [], _, B => by
    simp only [List.nil_append, splitOnChar]
    simp
  | c :: A', h, B => by
    simp only [List.cons_append, splitOnChar]
    rw [if_neg (h c (by simp))]
    have ih := splitOnChar_sepfree_append sep A'
      (fun x hx => h x (by simp [hx])) B
    rw [List.append_eq, ih]

theorem sepFree_nil : sepFree [] := by
  intro t ht
  rw [List.suffix_nil.mp ht]
  rfl

theorem sepFree_cons (c : Char) (s : Str)
    (h1 : (['@', '@', ' '].isPrefixOf (c :: s)) = false)
    (h2 : sepFree s) : sepFree (c :: s) := by
  intro t ht
  rw [List.suffix_cons_iff] at ht
  rcases ht with rfl | ht
  · exact h1
  · exact h2 t ht

theorem sepFree_tail (c : Char) (s : Str) (h : sepFree (c :: s)) :
    sepFree s := by
  intro t ht
  exact h t (ht.trans (List.suffix_cons c s))

theorem isPrefixOf_pat_cons (c : Char) (s : Str) (hc : c ≠ '@') :
    (['@', '@', ' '].isPrefixOf (c :: s)) = false := by
  simp [List.isPrefixOf, Ne.symm hc]

theorem sepFree_prefix_notat :
    ∀ (a : Str), (∀ c ∈ a, c ≠ '@') → ∀ b, sepFree b → sepFree (a ++ b)
  | [], _, b, hb => by simpa
  | c :: a', h, b, hb => by
    rw [List.cons_append]
    exact sepFree_cons c _ (isPrefixOf_pat_cons c _ (h c (by simp)))
      (sepFree_prefix_notat a' (fun x hx => h x (by simp [hx])) b hb)

theorem suffix_append_cases :
    ∀ (a r t : Str), t <:+ a ++ r →
    t <:+ r ∨ ∃ t', t = t' ++ r ∧ t' <:+ a ∧ t' ≠ []
  | [], r, t, h => Or.inl (by simpa using h)
  | c :: a', r, t, h => by
    rw [List.cons_append, List.suffix_cons_iff] at h
    rcases h with rfl | h
    · exact Or.inr ⟨c :: a', by simp, List.suffix_refl _, by simp⟩
    · rcases suffix_append_cases a' r t h with h1 | ⟨t', rfl, hs, hne⟩
      · exact Or.inl h1
      · exact Or.inr ⟨t', rfl, hs.trans (List.suffix_cons c a'), hne⟩

theorem sepFree_glue (a : Str) (x : Char) (b : Str)
    (ha : sepFree a) (hxb : sepFree (x :: b)) (hx1 : x ≠ '@')
    (hx2 : x ≠ ' ') : sepFree (a ++ x :: b) := by
  intro t ht
  rcases suffix_append_cases a (x :: b) t ht with h1 | ⟨t', rfl, hs, hne⟩
  · exact hxb t h1
  · rcases t' with _ | ⟨c1, t''⟩
    · exact absurd rfl hne
    · rcases t'' with _ | ⟨c2, t3⟩
      · simp [List.isPrefixOf, Ne.symm hx1]
      · rcases t3 with _ | ⟨c3, t4⟩
        · simp [List.isPrefixOf, Ne.symm hx2]
        · by_cases hm : c1 = '@' ∧ c2 = '@' ∧ c3 = ' '
          · obtain ⟨rfl, rfl, rfl⟩ := hm
            have := ha _ hs
            simp [List.isPrefixOf] at this
          · simp only [List.cons_append, List.isPrefixOf, Bool.and_eq_false_iff]
            rcases (by tauto :
                c1 ≠ '@' ∨ c2 ≠ '@' ∨ c3 ≠ ' ') with h | h | h
            · simp [Ne.symm h]
            · simp [Ne.symm h]
            · simp [Ne.symm h]

theorem sepFree_of_containsSub (s : Str)
    (h : containsSub ['@', '@', ' '] s = false) : sepFree s := by
  intro t ht
  obtain ⟨pre, rfl⟩ := ht
  simp only [containsSub, List.any_eq_false] at h
  have hi : pre.length ∈ List.range ((pre ++ t).length + 1) := by
    simp [List.length_append]
    omega
  have := h _ hi
  rw [List.drop_left] at this
  exact Bool.not_eq_true _ ▸ (eq_false_of_ne_true this)

theorem splitOnSubGo_fuel (sep : Str) (hsep : sep ≠ []) :
    ∀ (f1 : Nat) (s cur : Str) (f2 : Nat), s.length < f1 → s.length < f2 →
    splitOnSubGo sep f1 cur s = splitOnSubGo sep f2 cur s
  | 0, s, cur, f2, h1, _ => absurd h1 (by omega)
  | _ + 1, s, cur, 0, _, h2 => absurd h2 (by omega)
  | f1 + 1, s, cur, f2 + 1, h1, h2 => by
    simp only [splitOnSubGo]
    by_cases hp : sep.isPrefixOf s = true
    · rw [if_pos hp, if_pos hp]
      have hl : sep.length ≤ s.length :=
        (List.isPrefixOf_iff_prefix.mp hp).length_le
      have hsl : 0 < sep.length := List.length_pos.2 hsep
      rw [splitOnSubGo_fuel sep hsep f1 (s.drop sep.length) [] f2
        (by simp [List.length_drop]; omega) (by simp [List.length_drop]; omega)]
    · rw [if_neg hp, if_neg hp]
      rcases s with _ | ⟨c, rest⟩
      · rfl
      · simp only []
        exact splitOnSubGo_fuel sep hsep f1 rest (c :: cur) f2
          (by simpa using h1) (by simpa using h2)

theorem splitOnSubGo_free (sep : Str) (hsep : sep ≠ []) :
    ∀ (s cur : Str) (fuel : Nat), s.length < fuel →
    (∀ t, t <:+ s → sep.isPrefixOf t = false) →
    splitOnSubGo sep fuel cur s = [cur.reverse ++ s]
  | [], cur, fuel, hf, h => by
    rcases fuel with _ | f
    · exact absurd hf (by omega)
    · simp only [splitOnSubGo]
      rw [if_neg (by rw [h [] (List.suffix_refl _)]; simp)]
      simp
  | c :: s', cur, fuel, hf, h => by
    rcases fuel with _ | f
    · exact absurd hf (by omega)
    · simp only [splitOnSubGo]
      rw [if_neg (by rw [h _ (List.suffix_refl _)]; simp)]
      rw [splitOnSubGo_free sep hsep s' (c :: cur) f (by simpa using hf)
        (fun t ht => h t (ht.trans (List.suffix_cons c s')))]
      simp

theorem splitOnSubGo_succ (sep : Str) (fuel : Nat) (cur s : Str) :
    splitOnSubGo sep (fuel + 1) cur s =
      if sep.isPrefixOf s then
        cur.reverse :: splitOnSubGo sep fuel [] (s.drop sep.length)
      else
        match s with
        | [] => [cur.reverse]
        | c :: rest => splitOnSubGo sep fuel (c :: cur) rest := rfl

theorem splitOnSubGo_chunk :
    ∀ (A cur B : Str) (fuel : Nat),
    A.length + 3 + B.length < fuel →
    sepFree A →
    splitOnSubGo ['@', '@', ' '] fuel cur
      (A ++ '@' :: '@' :: ' ' :: B) =
      (cur.reverse ++ A) ::
        splitOnSubGo ['@', '@', ' '] (B.length + 1) [] B
  | [], cur, B, fuel, hf, _ => by
    rcases fuel with _ | f
    · exact absurd hf (by omega)
    · rw [List.nil_append]
      conv_lhs => rw [splitOnSubGo_succ]
      rw [if_pos (by simp [List.isPrefixOf])]
      show cur.reverse :: splitOnSubGo ['@', '@', ' '] f [] B =
        (cur.reverse ++ []) ::
          splitOnSubGo ['@', '@', ' '] (B.length + 1) [] B
      rw [splitOnSubGo_fuel _ (by simp) f B [] (B.length + 1)
        (by simp only [List.length_nil] at hf; omega) (by omega)]
      simp
  | c :: A', cur, B, fuel, hf, hsf => by
    rcases fuel with _ | f
    · exact absurd hf (by omega)
    · rw [List.cons_append]
      conv_lhs => rw [splitOnSubGo_succ]
      have hnp : (['@', '@', ' '].isPrefixOf
          (c :: (A' ++ '@' :: '@' :: ' ' :: B))) = false := by
        rcases A' with _ | ⟨c2, A''⟩
        · simp [List.isPrefixOf]
        · rcases A'' with _ | ⟨c3, A3⟩
          · simp only [List.nil_append, List.cons_append, List.isPrefixOf,
              Bool.and_eq_false_iff]
            simp [List.isPrefixOf]
          · by_cases hm : c = '@' ∧ c2 = '@' ∧ c3 = ' '
            · obtain ⟨rfl, rfl, rfl⟩ := hm
              have := hsf _ (List.suffix_refl _)
              simp [List.isPrefixOf] at this
            · rcases (by tauto : c ≠ '@' ∨ c2 ≠ '@' ∨ c3 ≠ ' ') with
                  h | h | h
              · simp [List.isPrefixOf, Ne.symm h]
              · simp [List.isPrefixOf, Ne.symm h]
              · simp [List.isPrefixOf, Ne.symm h]
      rw [if_neg (by rw [hnp]; simp)]
      show splitOnSubGo ['@', '@', ' '] f (c :: cur)
          (A' ++ '@' :: '@' :: ' ' :: B) =
        (cur.reverse ++ c :: A') ::
          splitOnSubGo ['@', '@', ' '] (B.length + 1) [] B
      rw [splitOnSubGo_chunk A' (c :: cur) B f
        (by simp only [List.length_cons] at hf; omega)
        (sepFree_tail c A' hsf)]
      simp

theorem splitOnSubGo_pieces :
    ∀ (L : List Str) (x cur : Str) (fuel : Nat),
    (x ++ L.flatMap (fun y => '@' :: '@' :: ' ' :: y)).length < fuel →
    sepFree x → (∀ y ∈ L, sepFree y) →
    splitOnSubGo ['@', '@', ' '] fuel cur
      (x ++ L.flatMap (fun y => '@' :: '@' :: ' ' :: y)) =
      (cur.reverse ++ x) :: L
  | [], x, cur, fuel, hf, hx, _ => by
    simp only [List.flatMap_nil, List.append_nil] at hf ⊢
    rw [splitOnSubGo_free _ (by simp) x cur fuel hf hx]
  | y :: L', x, cur, fuel, hf, hx, hL => by
    simp only [List.flatMap_cons] at hf ⊢
    have hr : x ++ ('@' :: '@' :: ' ' :: y) ++
        L'.flatMap (fun z => '@' :: '@' :: ' ' :: z) =
        x ++ '@' :: '@' :: ' ' ::
          (y ++ L'.flatMap (fun z => '@' :: '@' :: ' ' :: z)) := by
      simp
    rw [← List.append_assoc, hr]
    rw [splitOnSubGo_chunk x cur _ fuel
      (by simp only [List.length_append, List.length_cons] at hf ⊢
          omega) hx]
    rw [splitOnSubGo_pieces L' y []
      ((y ++ L'.flatMap (fun z => '@' :: '@' :: ' ' :: z)).length + 1)
      (by omega) (hL y (by simp)) (fun z hz => hL z (by simp [hz]))]
    simp

theorem splitOnSub_pieces (L : List Str) (h : ∀ y ∈ L, sepFree y) :
    splitOnSub ['@', '@', ' ']
      (L.flatMap (fun y => '@' :: '@' :: ' ' :: y)) = [] :: L := by
  unfold splitOnSub
  have := splitOnSubGo_pieces L [] []
    ((L.flatMap (fun y => '@' :: '@' :: ' ' :: y)).length + 1)
    (by simp) sepFree_nil h
  simpa using this

theorem byteHex_chars (b : Nat) (hb : b < 256) :
    ∀ ch ∈ byteHex b, ch ≠ '@' ∧ ch ≠ '\n' := by
  obtain ⟨_, _, d3, d4, _⟩ := hexDigit_facts (b / 16) (by omega)
  obtain ⟨_, _, e3, e4, _⟩ := hexDigit_facts (b % 16) (by omega)
  intro ch hch
  simp only [byteHex, List.mem_cons, List.mem_singleton,
    List.not_mem_nil, or_false] at hch
  rcases hch with rfl | rfl | rfl
  · exact ⟨by decide, by decide⟩
  · exact ⟨d3, d4⟩
  · exact ⟨e3, e4⟩

theorem escape_chars (c : Char) :
    ∀ ch ∈ (utf8Bytes c).flatMap byteHex, ch ≠ '@' ∧ ch ≠ '\n' := by
  intro ch hch
  rw [List.mem_flatMap] at hch
  obtain ⟨b, hb, hch⟩ := hch
  exact byteHex_chars b (utf8Bytes_lt_256 c b hb) ch hch

theorem displayEncode_noNl (c : Char) :
    ∀ ch ∈ displayEncodeChar c, ch ≠ '\n' := by
  intro ch hch
  simp only [displayEncodeChar] at hch
  by_cases h1 : c ∈ deltaLiteralSet
  · rw [if_pos h1] at hch
    rw [List.mem_singleton] at hch
    subst hch
    exact (deltaLiteral_facts _ h1).2.2
  · rw [if_neg h1] at hch
    by_cases h2 : c = '%'
    · rw [if_pos h2] at hch
      simp only [List.mem_cons, List.mem_singleton, List.not_mem_nil,
        or_false] at hch
      rcases hch with rfl | rfl | rfl <;> decide
    · rw [if_neg h2] at hch
      simp only [utf8PercentEncodeChar] at hch
      by_cases h3 : inUserinfoSet c = true
      · rw [if_pos h3] at hch
        exact (escape_chars c ch hch).2
      · rw [if_neg h3] at hch
        rw [List.mem_singleton] at hch
        subst hch
        intro hnl
        subst hnl
        exact h3 (by decide)

theorem enc_head (t : Str) (x : Char) (hx : x ≠ '%') (r : Str)
    (h : t.flatMap displayEncodeChar = x :: r) :
    ∃ t', t = x :: t' ∧ r = t'.flatMap displayEncodeChar := by
  rcases t with _ | ⟨c, t'⟩
  · simp at h
  · rw [List.flatMap_cons] at h
    simp only [displayEncodeChar] at h
    by_cases h1 : c ∈ deltaLiteralSet
    · rw [if_pos h1, List.singleton_append] at h
      injection h with ha hb
      exact ⟨t', by rw [← ha], hb.symm⟩
    · rw [if_neg h1] at h
      by_cases h2 : c = '%'
      · rw [if_pos h2, List.cons_append] at h
        injection h with ha _
        exact absurd ha.symm hx
      · rw [if_neg h2] at h
        simp only [utf8PercentEncodeChar] at h
        by_cases h3 : inUserinfoSet c = true
        · rw [if_pos h3] at h
          rcases hu : utf8Bytes c with _ | ⟨b, bs⟩
          · exact absurd hu (utf8Bytes_ne_nil c)
          · rw [hu, List.flatMap_cons] at h
            simp only [byteHex, List.cons_append] at h
            injection h with ha _
            exact absurd ha.symm hx
        · rw [if_neg h3, List.singleton_append] at h
          injection h with ha hb
          exact ⟨t', by rw [← ha], hb.symm⟩

theorem sepFree_enc : ∀ (t : Str), sepFree t →
    sepFree (t.flatMap displayEncodeChar)
  | [], _ => by
    rw [List.flatMap_nil]
    exact sepFree_nil
  | c :: t', h => by
    have ih := sepFree_enc t' (sepFree_tail c t' h)
    rw [List.flatMap_cons]
    simp only [displayEncodeChar]
    by_cases h1 : c ∈ deltaLiteralSet
    · rw [if_pos h1, List.singleton_append]
      refine sepFree_cons c _ ?_ ih
      by_cases hc : c = '@'
      · subst hc
        simp only [List.isPrefixOf, Bool.and_eq_false_iff]
        right
        rcases hE : t'.flatMap displayEncodeChar with _ | ⟨e, r⟩
        · rfl
        · by_cases he : e = '@'
          · subst he
            obtain ⟨t'', rfl, rfl⟩ := enc_head t' '@' (by decide) r hE
            simp only [List.isPrefixOf, Bool.and_eq_false_iff]
            right
            rcases hE2 : t''.flatMap displayEncodeChar with _ | ⟨e2, r2⟩
            · rfl
            · by_cases he2 : e2 = ' '
              · subst he2
                obtain ⟨t3, rfl, rfl⟩ := enc_head t'' ' ' (by decide) r2 hE2
                have := h _ (List.suffix_refl _)
                simp [List.isPrefixOf] at this
              · simp [List.isPrefixOf, Ne.symm he2]
          · simp [List.isPrefixOf, Ne.symm he]
      · exact isPrefixOf_pat_cons c _ hc
    · rw [if_neg h1]
      by_cases h2 : c = '%'
      · rw [if_pos h2]
        refine sepFree_cons _ _ (by simp [List.isPrefixOf]) ?_
        refine sepFree_cons _ _ (by simp [List.isPrefixOf]) ?_
        exact sepFree_cons _ _ (by simp [List.isPrefixOf]) ih
      · rw [if_neg h2]
        simp only [utf8PercentEncodeChar]
        by_cases h3 : inUserinfoSet c = true
        · rw [if_pos h3]
          exact sepFree_prefix_notat _
            (fun ch hch => (escape_chars c ch hch).1) _ ih
        · rw [if_neg h3]
          rw [List.singleton_append]
          refine sepFree_cons c _ ?_ ih
          refine isPrefixOf_pat_cons c _ ?_
          intro hc
          subst hc
          exact h3 (by decide)

theorem getD_drop_headD (tv : Str) (i : Nat) (d : Char) :
    tv.getD i d = (tv.drop i).headD d := by
  rw [List.getD_eq_getElem?_getD]
  rcases hd : tv.drop i with _ | ⟨c, rest⟩
  · rw [List.drop_eq_nil_iff] at hd
    rw [List.getElem?_eq_none (by omega)]
    rfl
  · have hg : tv[i]? = some c := by
      have h0 := List.getElem?_drop tv i 0
      rw [hd] at h0
      simpa using h0.symm
    rw [hg]
    rfl

theorem drop_add (tv : Str) (i k : Nat) :
    tv.drop (i + k) = (tv.drop i).drop k := by
  rw [List.drop_drop, Nat.add_comm]

theorem drop_append_len (a b : Str) (k : Nat) :
    (a ++ b).drop (a.length + k) = b.drop k := by
  rw [drop_add, List.drop_left]

theorem takeWhile_digits :
    ∀ (D : Str), (∀ c ∈ D, 48 ≤ c.toNat ∧ c.toNat ≤ 57) →
    ∀ (rest : Str),
    ¬ (48 ≤ (rest.headD ' ').toNat ∧ (rest.headD ' ').toNat ≤ 57) →
    (D ++ rest).takeWhile
      (fun d => 48 ≤ d.toNat ∧ d.toNat ≤ 57) = D
  | [], _, rest, hrest => by
    rcases rest with _ | ⟨r, rest'⟩
    · rfl
    · rw [List.nil_append, List.takeWhile_cons]
      rw [decide_eq_false (by simpa using hrest)]
      simp
  | d :: D', hD, rest, hrest => by
    rw [List.cons_append, List.takeWhile_cons]
    rw [decide_eq_true (hD d (by simp))]
    rw [takeWhile_digits D' (fun c hc => hD c (by simp [hc])) rest hrest]
    simp

theorem headerScanGo_end (tv : Str) (fuel i temp : Nat)
    (st : Nat × Nat × Nat × Nat) (h : tv.length ≤ i) :
    headerScanGo tv fuel i temp st = PRes.ok st := by
  rcases fuel with _ | f
  · rfl
  · simp only [headerScanGo]
    rw [if_neg (by omega)]

theorem headerScanGo_skip (tv : Str) (fuel i temp : Nat)
    (st : Nat × Nat × Nat × Nat) (hi : i < tv.length)
    (hc : (tv.getD i ' ').toNat < 48 ∨ 57 < (tv.getD i ' ').toNat) :
    headerScanGo tv (fuel + 1) i temp st =
      headerScanGo tv fuel (i + 1) temp st := by
  simp only [headerScanGo]
  rw [if_pos hi, if_pos hc]

theorem headerScanGo_run (tv : Str) (fuel i temp : Nat)
    (st : Nat × Nat × Nat × Nat) (n : Nat) (rest : Str)
    (hdrop : tv.drop i = natRepr n ++ rest)
    (hrest : ¬ (48 ≤ (rest.headD ' ').toNat ∧
      (rest.headD ' ').toNat ≤ 57)) :
    headerScanGo tv (fuel + 1) i temp st =
      (match (if (temp = 1 ∨ temp = 3) ∧ tv.getD (i - 1) ' ' ≠ ',' then
          temp + 1 else temp) with
       | 0 => headerScanGo tv fuel (i + (natRepr n).length + 1) 1
          (n - 1, st.2.1, st.2.2.1, st.2.2.2)
       | 1 => headerScanGo tv fuel (i + (natRepr n).length + 1) 2
          (st.1, n, st.2.2.1, st.2.2.2)
       | 2 => headerScanGo tv fuel (i + (natRepr n).length + 1) 3
          (st.1, st.2.1, n - 1, st.2.2.2)
       | 3 => headerScanGo tv fuel (i + (natRepr n).length + 1) 4
          (st.1, st.2.1, st.2.2.1, n)
       | _ => PRes.crash) := by
  have hne : natRepr n ≠ [] := natRepr_ne_nil n
  have hlen : i < tv.length := by
    by_contra hcon
    rw [not_lt] at hcon
    have : tv.drop i = [] := List.drop_eq_nil_iff.mpr hcon
    rw [hdrop] at this
    rcases List.append_eq_nil.mp this with ⟨h1, _⟩
    exact hne h1
  have hdig : 48 ≤ (tv.getD i ' ').toNat ∧ (tv.getD i ' ').toNat ≤ 57 := by
    rw [getD_drop_headD, hdrop]
    rcases hnr : natRepr n with _ | ⟨d0, D'⟩
    · exact absurd hnr hne
    · rw [List.cons_append, List.headD_cons]
      exact natRepr_digits n d0 (by rw [hnr]; simp)
  simp only [headerScanGo]
  rw [if_pos hlen]
  rw [if_neg (by omega)]
  rw [hdrop, takeWhile_digits (natRepr n) (natRepr_digits n) rest hrest]
  rw [natRepr_foldl n]

theorem lt_length_of_drop_ne_nil (tv : Str) (j : Nat)
    (h : tv.drop j ≠ []) : j < tv.length := by
  by_contra hc
  exact h (List.drop_eq_nil_iff.mpr (by omega))

theorem headerScanGo_half2 (tv : Str) (s2v : Nat) (o2 : Str)
    (ho2 : o2 = [] ∨ ∃ lv, o2 = ',' :: natRepr lv)
    (i temp : Nat) (htemp : temp = 1 ∨ temp = 2)
    (st : Nat × Nat × Nat × Nat)
    (hdrop : tv.drop i = natRepr s2v ++ (o2 ++ [' ', '@', '@']))
    (hprev : tv.getD (i - 1) ' ' = '+')
    (fuel : Nat) (hf : 4 ≤ fuel) :
    ∃ y, headerScanGo tv fuel i temp st =
      PRes.ok (st.1, st.2.1, s2v - 1, y) := by
  obtain ⟨f1, rfl⟩ : ∃ f, fuel = f + 1 := ⟨fuel - 1, by omega⟩
  have hrest1 : ¬ (48 ≤ ((o2 ++ [' ', '@', '@']).headD ' ').toNat ∧
      ((o2 ++ [' ', '@', '@']).headD ' ').toNat ≤ 57) := by
    rcases ho2 with rfl | ⟨lv, rfl⟩
    · simp only [List.nil_append, List.headD_cons]
      decide
    · simp only [List.cons_append, List.headD_cons]
      decide
  have hstep1 := headerScanGo_run tv f1 i temp st s2v _ hdrop hrest1
  have hcond : (if (temp = 1 ∨ temp = 3) ∧ tv.getD (i - 1) ' ' ≠ ',' then
      temp + 1 else temp) = 2 := by
    rcases htemp with rfl | rfl
    · rw [if_pos ⟨Or.inl rfl, by rw [hprev]; decide⟩]
    · rw [if_neg (by simp)]
  rw [hcond] at hstep1
  have hstep1' : headerScanGo tv (f1 + 1) i temp st =
      headerScanGo tv f1 (i + (natRepr s2v).length + 1) 3
        (st.1, st.2.1, s2v - 1, st.2.2.2) := hstep1
  rw [hstep1']
  have hdropj : tv.drop (i + (natRepr s2v).length + 1) =
      (o2 ++ [' ', '@', '@']).drop 1 := by
    rw [show i + (natRepr s2v).length + 1 =
      i + ((natRepr s2v).length + 1) from by omega]
    rw [drop_add, hdrop, drop_append_len]
  rcases ho2 with rfl | ⟨lv, rfl⟩
  · refine ⟨st.2.2.2, ?_⟩
    have hd1 : tv.drop (i + (natRepr s2v).length + 1) = ['@', '@'] := by
      simpa using hdropj
    obtain ⟨f2, rfl⟩ : ∃ f, f1 = f + 1 := ⟨f1 - 1, by omega⟩
    rw [headerScanGo_skip tv f2 _ 3 _
      (lt_length_of_drop_ne_nil tv _ (by rw [hd1]; simp))
      (by rw [getD_drop_headD, hd1]; decide)]
    have hd2 : tv.drop (i + (natRepr s2v).length + 1 + 1) = ['@'] := by
      rw [drop_add, hd1]
      rfl
    obtain ⟨f3, rfl⟩ : ∃ f, f2 = f + 1 := ⟨f2 - 1, by omega⟩
    rw [headerScanGo_skip tv f3 _ 3 _
      (lt_length_of_drop_ne_nil tv _ (by rw [hd2]; simp))
      (by rw [getD_drop_headD, hd2]; decide)]
    have hd3 : tv.drop (i + (natRepr s2v).length + 1 + 1 + 1) = [] := by
      rw [drop_add, hd2]
      rfl
    rw [headerScanGo_end tv f3 _ 3 _ (by
      have := List.drop_eq_nil_iff.mp hd3
      omega)]
  · refine ⟨lv, ?_⟩
    have hd1 : tv.drop (i + (natRepr s2v).length + 1) =
        natRepr lv ++ [' ', '@', '@'] := by
      rw [hdropj]
      simp
    have hprevj : tv.getD (i + (natRepr s2v).length + 1 - 1) ' ' = ',' := by
      rw [show i + (natRepr s2v).length + 1 - 1 =
        i + (natRepr s2v).length from by omega]
      rw [getD_drop_headD, drop_add, hdrop, List.drop_left]
      simp
    obtain ⟨f2, rfl⟩ : ∃ f, f1 = f + 1 := ⟨f1 - 1, by omega⟩
    have hstep2 := headerScanGo_run tv f2 (i + (natRepr s2v).length + 1) 3
      (st.1, st.2.1, s2v - 1, st.2.2.2) lv [' ', '@', '@'] hd1 (by decide)
    have hcond2 : (if (3 = 1 ∨ 3 = 3) ∧
        tv.getD (i + (natRepr s2v).length + 1 - 1) ' ' ≠ ',' then 3 + 1
        else 3) = 3 := by
      rw [if_neg (by rw [hprevj]; simp)]
    rw [hcond2] at hstep2
    have hstep2' : headerScanGo tv (f2 + 1)
        (i + (natRepr s2v).length + 1) 3
        (st.1, st.2.1, s2v - 1, st.2.2.2) =
      headerScanGo tv f2
        (i + (natRepr s2v).length + 1 + (natRepr lv).length + 1) 4
        (st.1, st.2.1, s2v - 1, lv) := hstep2
    rw [hstep2']
    have hd2 : tv.drop
        (i + (natRepr s2v).length + 1 + (natRepr lv).length + 1) =
        ['@', '@'] := by
      rw [show i + (natRepr s2v).length + 1 + (natRepr lv).length + 1 =
        (i + (natRepr s2v).length + 1) + ((natRepr lv).length + 1) from
        by omega]
      rw [drop_add, hd1, drop_append_len]
      rfl
    obtain ⟨f3, rfl⟩ : ∃ f, f2 = f + 1 := ⟨f2 - 1, by omega⟩
    rw [headerScanGo_skip tv f3 _ 4 _
      (lt_length_of_drop_ne_nil tv _ (by rw [hd2]; simp))
      (by rw [getD_drop_headD, hd2]; decide)]
    have hd3 : tv.drop
        (i + (natRepr s2v).length + 1 + (natRepr lv).length + 1 + 1) =
        ['@'] := by
      rw [drop_add, hd2]
      rfl
    obtain ⟨f4, rfl⟩ : ∃ f, f3 = f + 1 := ⟨f3 - 1, by omega⟩
    rw [headerScanGo_skip tv f4 _ 4 _
      (lt_length_of_drop_ne_nil tv _ (by rw [hd3]; simp))
      (by rw [getD_drop_headD, hd3]; decide)]
    have hd4 : tv.drop
        (i + (natRepr s2v).length + 1 + (natRepr lv).length + 1 + 1 + 1) =
        [] := by
      rw [drop_add, hd3]
      rfl
    rw [headerScanGo_end tv f4 _ 4 _ (by
      have := List.drop_eq_nil_iff.mp hd4
      omega)]

theorem headerScanGo_header (tv : Str) (s1v s2v : Nat) (o1 o2 : Str)
    (ho1 : o1 = [] ∨ ∃ lv, o1 = ',' :: natRepr lv)
    (ho2 : o2 = [] ∨ ∃ lv, o2 = ',' :: natRepr lv)
    (htv : tv = '-' :: (natRepr s1v ++ (o1 ++ (' ' :: '+' ::
      (natRepr s2v ++ (o2 ++ [' ', '@', '@']))))))
    (fuel : Nat) (hf : 8 ≤ fuel) :
    ∃ x y, headerScanGo tv fuel 0 0 (0, 0, 0, 0) =
      PRes.ok (s1v - 1, x, s2v - 1, y) := by
  obtain ⟨f1, rfl⟩ : ∃ f, fuel = f + 1 := ⟨fuel - 1, by omega⟩
  rw [headerScanGo_skip tv f1 0 0 _ (by rw [htv]; simp)
    (by rw [getD_drop_headD, List.drop_zero, htv, List.headD_cons]
        decide)]
  obtain ⟨f2, rfl⟩ : ∃ f, f1 = f + 1 := ⟨f1 - 1, by omega⟩
  have hdrop1 : tv.drop 1 = natRepr s1v ++
      (o1 ++ (' ' :: '+' ::
        (natRepr s2v ++ (o2 ++ [' ', '@', '@'])))) := by
    rw [htv]
    rfl
  have hrest1 : ¬ (48 ≤ (((o1 ++ (' ' :: '+' ::
      (natRepr s2v ++ (o2 ++ [' ', '@', '@']))))).headD ' ').toNat ∧
      (((o1 ++ (' ' :: '+' ::
      (natRepr s2v ++ (o2 ++ [' ', '@', '@']))))).headD ' ').toNat
        ≤ 57) := by
    rcases ho1 with rfl | ⟨lv, rfl⟩
    · simp only [List.nil_append, List.headD_cons]
      decide
    · simp only [List.cons_append, List.headD_cons]
      decide
  have hstep1 := headerScanGo_run tv f2 1 0 (0, 0, 0, 0) s1v _ hdrop1
    hrest1
  rw [if_neg (by simp)] at hstep1
  have hstep1' : headerScanGo tv (f2 + 1) 1 0 (0, 0, 0, 0) =
      headerScanGo tv f2 (1 + (natRepr s1v).length + 1) 1
        (s1v - 1, 0, 0, 0) := hstep1
  rw [hstep1']
  rcases ho1 with rfl | ⟨lv1, rfl⟩
  · have hdrop2 : tv.drop (1 + (natRepr s1v).length + 1) =
        '+' :: (natRepr s2v ++ (o2 ++ [' ', '@', '@'])) := by
      rw [show 1 + (natRepr s1v).length + 1 =
        1 + ((natRepr s1v).length + 1) from by omega]
      rw [drop_add, hdrop1]
      simp only [List.nil_append]
      rw [drop_append_len]
      rfl
    obtain ⟨f3, rfl⟩ : ∃ f, f2 = f + 1 := ⟨f2 - 1, by omega⟩
    rw [headerScanGo_skip tv f3 _ 1 _
      (lt_length_of_drop_ne_nil tv _ (by rw [hdrop2]; simp))
      (by rw [getD_drop_headD, hdrop2]; simp only [List.headD_cons]
          decide)]
    have hdrop3 : tv.drop (1 + (natRepr s1v).length + 1 + 1) =
        natRepr s2v ++ (o2 ++ [' ', '@', '@']) := by
      rw [drop_add, hdrop2]
      rfl
    have hprev3 : tv.getD (1 + (natRepr s1v).length + 1 + 1 - 1) ' ' =
        '+' := by
      rw [show 1 + (natRepr s1v).length + 1 + 1 - 1 =
        1 + (natRepr s1v).length + 1 from by omega]
      rw [getD_drop_headD, hdrop2, List.headD_cons]
    obtain ⟨y, hy⟩ := headerScanGo_half2 tv s2v o2 ho2
      (1 + (natRepr s1v).length + 1 + 1) 1 (Or.inl rfl)
      (s1v - 1, 0, 0, 0) hdrop3 hprev3 f3 (by omega)
    exact ⟨0, y, by rw [hy]⟩
  · have hdrop2 : tv.drop (1 + (natRepr s1v).length + 1) =
        natRepr lv1 ++ (' ' :: '+' ::
          (natRepr s2v ++ (o2 ++ [' ', '@', '@']))) := by
      rw [show 1 + (natRepr s1v).length + 1 =
        1 + ((natRepr s1v).length + 1) from by omega]
      rw [drop_add, hdrop1, drop_append_len]
      simp
    have hprev2 : tv.getD (1 + (natRepr s1v).length + 1 - 1) ' ' =
        ',' := by
      rw [show 1 + (natRepr s1v).length + 1 - 1 =
        1 + (natRepr s1v).length from by omega]
      rw [show 1 + (natRepr s1v).length =
        1 + ((natRepr s1v).length + 0) from by omega]
      rw [getD_drop_headD, drop_add, hdrop1, drop_append_len]
      simp
    obtain ⟨f3, rfl⟩ : ∃ f, f2 = f + 1 := ⟨f2 - 1, by omega⟩
    have hstep2 := headerScanGo_run tv f3
      (1 + (natRepr s1v).length + 1) 1 (s1v - 1, 0, 0, 0) lv1 _ hdrop2
      (by simp only [List.headD_cons]; decide)
    rw [if_neg (by rw [hprev2]; simp)] at hstep2
    have hstep2' : headerScanGo tv (f3 + 1)
        (1 + (natRepr s1v).length + 1) 1 (s1v - 1, 0, 0, 0) =
      headerScanGo tv f3
        (1 + (natRepr s1v).length + 1 + (natRepr lv1).length + 1) 2
        (s1v - 1, lv1, 0, 0) := hstep2
    rw [hstep2']
    have hdrop3 : tv.drop
        (1 + (natRepr s1v).length + 1 + (natRepr lv1).length + 1) =
        '+' :: (natRepr s2v ++ (o2 ++ [' ', '@', '@'])) := by
      rw [show 1 + (natRepr s1v).length + 1 + (natRepr lv1).length + 1 =
        (1 + (natRepr s1v).length + 1) + ((natRepr lv1).length + 1) from
        by omega]
      rw [drop_add, hdrop2, drop_append_len]
      rfl
    obtain ⟨f4, rfl⟩ : ∃ f, f3 = f + 1 := ⟨f3 - 1, by omega⟩
    rw [headerScanGo_skip tv f4 _ 2 _
      (lt_length_of_drop_ne_nil tv _ (by rw [hdrop3]; simp))
      (by rw [getD_drop_headD, hdrop3]; simp only [List.headD_cons]
          decide)]
    have hdrop4 : tv.drop
        (1 + (natRepr s1v).length + 1 + (natRepr lv1).length + 1 + 1) =
        natRepr s2v ++ (o2 ++ [' ', '@', '@']) := by
      rw [drop_add, hdrop3]
      rfl
    have hprev4 : tv.getD
        (1 + (natRepr s1v).length + 1 + (natRepr lv1).length + 1 + 1 - 1)
        ' ' = '+' := by
      rw [show 1 + (natRepr s1v).length + 1 + (natRepr lv1).length + 1 +
        1 - 1 = 1 + (natRepr s1v).length + 1 + (natRepr lv1).length + 1
        from by omega]
      rw [getD_drop_headD, hdrop3, List.headD_cons]
    obtain ⟨y, hy⟩ := headerScanGo_half2 tv s2v o2 ho2
      (1 + (natRepr s1v).length + 1 + (natRepr lv1).length + 1 + 1) 2
      (Or.inr rfl) (s1v - 1, lv1, 0, 0) hdrop4 hprev4 f4 (by omega)
    exact ⟨lv1, y, by rw [hy]⟩

theorem patchBodyGo_step_add (t : Str) (rest : List Str)
    (acc : List Diff) (l1 l2 : Nat) :
    patchBodyGo (('+' :: t.flatMap displayEncodeChar) :: rest) acc l1 l2 =
      patchBodyGo rest (acc ++ [Diff.Add t]) l1 (l2 + t.length) := by
  simp only [patchBodyGo]
  rw [if_pos trivial]
  rw [percentDecodeStr_encode t]

theorem patchBodyGo_step_del (t : Str) (rest : List Str)
    (acc : List Diff) (l1 l2 : Nat) :
    patchBodyGo (('-' :: t.flatMap displayEncodeChar) :: rest) acc l1 l2 =
      patchBodyGo rest (acc ++ [Diff.Delete t]) (l1 + t.length) l2 := by
  simp only [patchBodyGo]
  rw [if_pos trivial]
  rw [percentDecodeStr_encode t]
  rw [if_neg (by decide)]

theorem patchBodyGo_step_keep (t : Str) (rest : List Str)
    (acc : List Diff) (l1 l2 : Nat) :
    patchBodyGo ((' ' :: t.flatMap displayEncodeChar) :: rest) acc l1 l2 =
      patchBodyGo rest (acc ++ [Diff.Keep t]) (l1 + t.length)
        (l2 + t.length) := by
  simp only [patchBodyGo]
  rw [if_pos trivial]
  rw [percentDecodeStr_encode t]
  rw [if_neg (by decide), if_neg (by decide)]

theorem patchBodyGo_lines : ∀ (ds acc : List Diff) (l1 l2 : Nat),
    patchBodyGo (ds.map (fun d =>
      (match d with
        | Diff.Keep _ => ' '
        | Diff.Delete _ => '-'
        | Diff.Add _ => '+') :: d.text.flatMap displayEncodeChar))
      acc l1 l2 =
    PRes.ok (acc ++ ds, l1 + (diff_text1 ds).length,
      l2 + (diff_text2 ds).length)
  | [], acc, l1, l2 => by
    simp [patchBodyGo, diff_text1_nil, diff_text2_nil]
  | d :: ds', acc, l1, l2 => by
    rcases d with t | t | t
    · show patchBodyGo (('+' :: t.flatMap displayEncodeChar) ::
        ds'.map _) acc l1 l2 = _
      rw [patchBodyGo_step_add]
      rw [patchBodyGo_lines ds' (acc ++ [Diff.Add t]) l1 (l2 + t.length)]
      rw [diff_text1_cons, diff_text2_cons]
      simp only [PRes.ok.injEq, Prod.mk.injEq]
      refine ⟨by simp, by simp, by simp [List.length_append]; omega⟩
    · show patchBodyGo ((' ' :: t.flatMap displayEncodeChar) ::
        ds'.map _) acc l1 l2 = _
      rw [patchBodyGo_step_keep]
      rw [patchBodyGo_lines ds' (acc ++ [Diff.Keep t]) (l1 + t.length)
        (l2 + t.length)]
      rw [diff_text1_cons, diff_text2_cons]
      simp only [PRes.ok.injEq, Prod.mk.injEq]
      refine ⟨by simp, by simp [List.length_append]; omega,
        by simp [List.length_append]; omega⟩
    · show patchBodyGo (('-' :: t.flatMap displayEncodeChar) ::
        ds'.map _) acc l1 l2 = _
      rw [patchBodyGo_step_del]
      rw [patchBodyGo_lines ds' (acc ++ [Diff.Delete t]) (l1 + t.length)
        l2]
      rw [diff_text1_cons, diff_text2_cons]
      simp only [PRes.ok.injEq, Prod.mk.injEq]
      refine ⟨by simp, by simp [List.length_append]; omega, by simp⟩

theorem digit_ne_nl (c : Char) (h : 48 ≤ c.toNat) : c ≠ '\n' := by
  intro he
  subst he
  exact absurd h (by decide)

theorem splitOnChar_body : ∀ (ds : List Diff),
    splitOnChar '\n' (ds.flatMap (fun d =>
      (match d with
        | Diff.Keep _ => ' '
        | Diff.Delete _ => '-'
        | Diff.Add _ => '+') ::
          (d.text.flatMap displayEncodeChar ++ ['\n']))) =
    ds.map (fun d =>
      (match d with
        | Diff.Keep _ => ' '
        | Diff.Delete _ => '-'
        | Diff.Add _ => '+') :: d.text.flatMap displayEncodeChar) ++ [[]]
  | [] => by simp [splitOnChar]
  | d :: ds' => by
    rw [List.flatMap_cons, List.map_cons]
    rcases d with t | t | t
    · show splitOnChar '\n' (('+' :: (t.flatMap displayEncodeChar ++
        ['\n'])) ++ ds'.flatMap _) = ('+' :: t.flatMap displayEncodeChar)
        :: (ds'.map _ ++ [[]])
      have hsh : ('+' :: (t.flatMap displayEncodeChar ++ ['\n'])) ++
          ds'.flatMap (fun d =>
            (match d with
              | Diff.Keep _ => ' '
              | Diff.Delete _ => '-'
              | Diff.Add _ => '+') ::
                (d.text.flatMap displayEncodeChar ++ ['\n'])) =
          ('+' :: t.flatMap displayEncodeChar) ++ '\n' ::
            ds'.flatMap (fun d =>
              (match d with
                | Diff.Keep _ => ' '
                | Diff.Delete _ => '-'
                | Diff.Add _ => '+') ::
                  (d.text.flatMap displayEncodeChar ++ ['\n'])) := by
        simp
      rw [hsh, splitOnChar_sepfree_append '\n' _ ?hf1 _,
        splitOnChar_body ds']
      case hf1 =>
        intro c hc
        rcases List.mem_cons.mp hc with rfl | hc
        · decide
        · exact displayEncode_noNl _ c
            ((List.mem_flatMap.mp hc).choose_spec.2)
    · show splitOnChar '\n' ((' ' :: (t.flatMap displayEncodeChar ++
        ['\n'])) ++ ds'.flatMap _) = (' ' :: t.flatMap displayEncodeChar)
        :: (ds'.map _ ++ [[]])
      have hsh : (' ' :: (t.flatMap displayEncodeChar ++ ['\n'])) ++
          ds'.flatMap (fun d =>
            (match d with
              | Diff.Keep _ => ' '
              | Diff.Delete _ => '-'
              | Diff.Add _ => '+') ::
                (d.text.flatMap displayEncodeChar ++ ['\n'])) =
          (' ' :: t.flatMap displayEncodeChar) ++ '\n' ::
            ds'.flatMap (fun d =>
              (match d with
                | Diff.Keep _ => ' '
                | Diff.Delete _ => '-'
                | Diff.Add _ => '+') ::
                  (d.text.flatMap displayEncodeChar ++ ['\n'])) := by
        simp
      rw [hsh, splitOnChar_sepfree_append '\n' _ ?hf2 _,
        splitOnChar_body ds']
      case hf2 =>
        intro c hc
        rcases List.mem_cons.mp hc with rfl | hc
        · decide
        · exact displayEncode_noNl _ c
            ((List.mem_flatMap.mp hc).choose_spec.2)
    · show splitOnChar '\n' (('-' :: (t.flatMap displayEncodeChar ++
        ['\n'])) ++ ds'.flatMap _) = ('-' :: t.flatMap displayEncodeChar)
        :: (ds'.map _ ++ [[]])
      have hsh : ('-' :: (t.flatMap displayEncodeChar ++ ['\n'])) ++
          ds'.flatMap (fun d =>
            (match d with
              | Diff.Keep _ => ' '
              | Diff.Delete _ => '-'
              | Diff.Add _ => '+') ::
                (d.text.flatMap displayEncodeChar ++ ['\n'])) =
          ('-' :: t.flatMap displayEncodeChar) ++ '\n' ::
            ds'.flatMap (fun d =>
              (match d with
                | Diff.Keep _ => ' '
                | Diff.Delete _ => '-'
                | Diff.Add _ => '+') ::
                  (d.text.flatMap displayEncodeChar ++ ['\n'])) := by
        simp
      rw [hsh, splitOnChar_sepfree_append '\n' _ ?hf3 _,
        splitOnChar_body ds']
      case hf3 =>
        intro c hc
        rcases List.mem_cons.mp hc with rfl | hc
        · decide
        · exact displayEncode_noNl _ c
            ((List.mem_flatMap.mp hc).choose_spec.2)

theorem patch1_parse (s1v s2v : Nat) (o1 o2 : Str) (ds : List Diff)
    (ho1 : o1 = [] ∨ ∃ lv, o1 = ',' :: natRepr lv)
    (ho2 : o2 = [] ∨ ∃ lv, o2 = ',' :: natRepr lv) :
    patch1_from_text (('-' :: (natRepr s1v ++ (o1 ++ (' ' :: '+' ::
      (natRepr s2v ++ (o2 ++ [' ', '@', '@'])))))) ++ '\n' ::
      ds.flatMap (fun d =>
        (match d with
          | Diff.Keep _ => ' '
          | Diff.Delete _ => '-'
          | Diff.Add _ => '+') ::
            (d.text.flatMap displayEncodeChar ++ ['\n']))) =
    PRes.ok (Patch.mk ds (s1v - 1) (s2v - 1) (diff_text1 ds).length
      (diff_text2 ds).length) := by
  have hnl : ∀ c ∈ ('-' :: (natRepr s1v ++ (o1 ++ (' ' :: '+' ::
      (natRepr s2v ++ (o2 ++ ([' ', '@', '@'] : Str))))))), c ≠ '\n' := by
    intro c hc
    simp only [List.mem_cons, List.mem_append] at hc
    rcases hc with rfl | hc
    · decide
    rcases hc with hc | hc
    · exact digit_ne_nl c (natRepr_digits s1v c hc).1
    rcases hc with hc | hc
    · rcases ho1 with rfl | ⟨lv, rfl⟩
      · simp at hc
      · rcases List.mem_cons.mp hc with rfl | hc2
        · decide
        · exact digit_ne_nl c (natRepr_digits lv c hc2).1
    rcases hc with rfl | hc
    · decide
    rcases hc with rfl | hc
    · decide
    rcases hc with hc | hc
    · exact digit_ne_nl c (natRepr_digits s2v c hc).1
    rcases hc with hc | hc
    · rcases ho2 with rfl | ⟨lv, rfl⟩
      · simp at hc
      · rcases List.mem_cons.mp hc with rfl | hc2
        · decide
        · exact digit_ne_nl c (natRepr_digits lv c hc2).1
    · simp only [List.mem_cons, List.mem_singleton, List.not_mem_nil,
        or_false] at hc
      rcases hc with rfl | rfl | rfl <;> decide
  have hlines : splitOnChar '\n'
      (('-' :: (natRepr s1v ++ (o1 ++ (' ' :: '+' ::
        (natRepr s2v ++ (o2 ++ [' ', '@', '@'])))))) ++ '\n' ::
        ds.flatMap (fun d =>
          (match d with
            | Diff.Keep _ => ' '
            | Diff.Delete _ => '-'
            | Diff.Add _ => '+') ::
              (d.text.flatMap displayEncodeChar ++ ['\n']))) =
      ('-' :: (natRepr s1v ++ (o1 ++ (' ' :: '+' ::
        (natRepr s2v ++ (o2 ++ [' ', '@', '@'])))))) ::
        (ds.map (fun d =>
          (match d with
            | Diff.Keep _ => ' '
            | Diff.Delete _ => '-'
            | Diff.Add _ => '+') :: d.text.flatMap displayEncodeChar) ++
          [[]]) := by
    rw [splitOnChar_sepfree_append '\n' _ hnl, splitOnChar_body]
  have hLlen : 1 ≤ (natRepr s1v).length := by
    have := List.length_pos.2 (natRepr_ne_nil s1v)
    omega
  have hRlen : 1 ≤ (natRepr s2v).length := by
    have := List.length_pos.2 (natRepr_ne_nil s2v)
    omega
  have hW : ('-' :: (natRepr s1v ++ (o1 ++ (' ' :: '+' ::
      (natRepr s2v ++ (o2 ++ ([' ', '@', '@'] : Str))))))) =
      ('-' :: (natRepr s1v ++ (o1 ++ (' ' :: '+' ::
        (natRepr s2v ++ o2))))) ++ [' ', '@', '@'] := by
    simp
  have hlen : ('-' :: (natRepr s1v ++ (o1 ++ (' ' :: '+' ::
      (natRepr s2v ++ (o2 ++ ([' ', '@', '@'] : Str))))))).length =
      (('-' :: (natRepr s1v ++ (o1 ++ (' ' :: '+' ::
        (natRepr s2v ++ o2))))) : Str).length + 3 := by
    rw [hW, List.length_append]
    rfl
  have hg1 : ('-' :: (natRepr s1v ++ (o1 ++ (' ' :: '+' ::
      (natRepr s2v ++ (o2 ++ ([' ', '@', '@'] : Str))))))).getD
      (('-' :: (natRepr s1v ++ (o1 ++ (' ' :: '+' ::
        (natRepr s2v ++ (o2 ++ ([' ', '@', '@'] : Str))))))).length - 1)
      ' ' = '@' := by
    rw [getD_drop_headD, hlen,
      show (('-' :: (natRepr s1v ++ (o1 ++ (' ' :: '+' ::
        (natRepr s2v ++ o2))))) : Str).length + 3 - 1 =
      (('-' :: (natRepr s1v ++ (o1 ++ (' ' :: '+' ::
        (natRepr s2v ++ o2))))) : Str).length + 2 from by omega,
      hW, drop_append_len]
    rfl
  have hg2 : ('-' :: (natRepr s1v ++ (o1 ++ (' ' :: '+' ::
      (natRepr s2v ++ (o2 ++ ([' ', '@', '@'] : Str))))))).getD
      (('-' :: (natRepr s1v ++ (o1 ++ (' ' :: '+' ::
        (natRepr s2v ++ (o2 ++ ([' ', '@', '@'] : Str))))))).length - 2)
      ' ' = '@' := by
    rw [getD_drop_headD, hlen,
      show (('-' :: (natRepr s1v ++ (o1 ++ (' ' :: '+' ::
        (natRepr s2v ++ o2))))) : Str).length + 3 - 2 =
      (('-' :: (natRepr s1v ++ (o1 ++ (' ' :: '+' ::
        (natRepr s2v ++ o2))))) : Str).length + 1 from by omega,
      hW, drop_append_len]
    rfl
  simp only [patch1_from_text]
  rw [hlines]
  simp only [List.headD_cons]
  have hlen8 : 8 ≤ ('-' :: (natRepr s1v ++ (o1 ++ (' ' :: '+' ::
      (natRepr s2v ++ (o2 ++ ([' ', '@', '@'] : Str))))))).length := by
    simp only [List.length_cons, List.length_append]
    omega
  rw [if_neg (by
    simp only [not_or, not_lt]
    exact ⟨hlen8, not_ne_iff.mpr hg1, not_ne_iff.mpr hg2⟩)]
  obtain ⟨x, y, hhdr⟩ := headerScanGo_header _ s1v s2v o1 o2 ho1 ho2 rfl
    (('-' :: (natRepr s1v ++ (o1 ++ (' ' :: '+' ::
      (natRepr s2v ++ (o2 ++ ([' ', '@', '@'] : Str))))))).length + 2)
    (by rw [hlen]; omega)
  rw [hhdr]
  have hgen : ∀ (hd : Str) (L : List Str),
      List.drop 1 (List.take ((hd :: (L ++ [[]])).length - 1)
        (hd :: (L ++ [[]]))) = L := by
    intro hd L
    have h1 : (hd :: (L ++ [[]])).length - 1 = L.length + 1 := by
      simp [List.length_append]
    rw [h1, List.take_succ_cons, List.take_left]
    rfl
  have hbl := hgen ('-' :: (natRepr s1v ++ (o1 ++ (' ' :: '+' ::
      (natRepr s2v ++ (o2 ++ ([' ', '@', '@'] : Str)))))))
    (ds.map (fun d =>
      (match d with
        | Diff.Keep _ => ' '
        | Diff.Delete _ => '-'
        | Diff.Add _ => '+') :: d.text.flatMap displayEncodeChar))
  rw [hbl]
  rw [patchBodyGo_lines ds [] 0 0]
  simp

theorem patchToString_eq (p : Patch) :
    patchToString p = '@' :: '@' :: ' ' :: ('-' :: (natRepr (if p.length1 = 0 ∧ p.start1 + 1 = 1 then 0 else p.start1 + 1) ++ ((if p.length1 > 0 ∨ (if p.length1 = 0 ∧ p.start1 + 1 = 1 then 0 else p.start1 + 1) = 0 then ',' :: natRepr p.length1 else []) ++ (' ' :: '+' :: (natRepr (if p.length2 = 0 ∧ p.start2 + 1 = 1 then 0 else p.start2 + 1) ++ ((if p.length2 > 0 ∨ (if p.length2 = 0 ∧ p.start2 + 1 = 1 then 0 else p.start2 + 1) = 0 then ',' :: natRepr p.length2 else []) ++ (' ' :: '@' :: '@' :: '\n' :: p.diffs.flatMap (fun d =>
      (match d with
        | Diff.Keep _ => ' '
        | Diff.Delete _ => '-'
        | Diff.Add _ => '+') ::
        (d.text.flatMap displayEncodeChar ++ ['\n']))))))))) := by
  simp only [patchToString]
  simp [List.append_assoc]

theorem patchToString_drop3 (p : Patch) :
    (patchToString p).drop 3 = '-' :: (natRepr (if p.length1 = 0 ∧ p.start1 + 1 = 1 then 0 else p.start1 + 1) ++ ((if p.length1 > 0 ∨ (if p.length1 = 0 ∧ p.start1 + 1 = 1 then 0 else p.start1 + 1) = 0 then ',' :: natRepr p.length1 else []) ++ (' ' :: '+' :: (natRepr (if p.length2 = 0 ∧ p.start2 + 1 = 1 then 0 else p.start2 + 1) ++ ((if p.length2 > 0 ∨ (if p.length2 = 0 ∧ p.start2 + 1 = 1 then 0 else p.start2 + 1) = 0 then ',' :: natRepr p.length2 else []) ++ (' ' :: '@' :: '@' :: '\n' :: p.diffs.flatMap (fun d =>
      (match d with
        | Diff.Keep _ => ' '
        | Diff.Delete _ => '-'
        | Diff.Add _ => '+') ::
        (d.text.flatMap displayEncodeChar ++ ['\n'])))))))) := by
  rw [patchToString_eq]
  rfl

theorem digit_ne_at (c : Char) (h : c.toNat ≤ 57) : c ≠ '@' := by
  intro he
  subst he
  exact absurd h (by decide)

theorem sepFree_bodyflat : ∀ (ds : List Diff),
    (∀ d ∈ ds, sepFree (d.text.flatMap displayEncodeChar)) →
    sepFree (ds.flatMap (fun d =>
      (match d with
        | Diff.Keep _ => ' '
        | Diff.Delete _ => '-'
        | Diff.Add _ => '+') ::
        (d.text.flatMap displayEncodeChar ++ ['\n'])))
  | [], _ => by
    rw [List.flatMap_nil]
    exact sepFree_nil
  | d :: ds', h => by
    have ih := sepFree_bodyflat ds' (fun x hx => h x (by simp [hx]))
    have hd := h d (by simp)
    rw [List.flatMap_cons]
    rcases d with t | t | t
    · show sepFree (('+' :: (t.flatMap displayEncodeChar ++ ['\n'])) ++
        ds'.flatMap _)
      have hsh : ('+' :: (t.flatMap displayEncodeChar ++ ['\n'])) ++
          ds'.flatMap (fun d =>
            (match d with
        | Diff.Keep _ => ' '
        | Diff.Delete _ => '-'
        | Diff.Add _ => '+') ::
              (d.text.flatMap displayEncodeChar ++ ['\n'])) =
          '+' :: (t.flatMap displayEncodeChar ++ '\n' ::
            ds'.flatMap (fun d =>
              (match d with
        | Diff.Keep _ => ' '
        | Diff.Delete _ => '-'
        | Diff.Add _ => '+') ::
                (d.text.flatMap displayEncodeChar ++ ['\n']))) := by
        simp
      rw [hsh]
      refine sepFree_cons _ _ (isPrefixOf_pat_cons _ _ (by decide)) ?_
      exact sepFree_glue _ '\n' _ hd
        (sepFree_cons _ _ (isPrefixOf_pat_cons _ _ (by decide)) ih)
        (by decide) (by decide)
    · show sepFree ((' ' :: (t.flatMap displayEncodeChar ++ ['\n'])) ++
        ds'.flatMap _)
      have hsh : (' ' :: (t.flatMap displayEncodeChar ++ ['\n'])) ++
          ds'.flatMap (fun d =>
            (match d with
        | Diff.Keep _ => ' '
        | Diff.Delete _ => '-'
        | Diff.Add _ => '+') ::
              (d.text.flatMap displayEncodeChar ++ ['\n'])) =
          ' ' :: (t.flatMap displayEncodeChar ++ '\n' ::
            ds'.flatMap (fun d =>
              (match d with
        | Diff.Keep _ => ' '
        | Diff.Delete _ => '-'
        | Diff.Add _ => '+') ::
                (d.text.flatMap displayEncodeChar ++ ['\n']))) := by
        simp
      rw [hsh]
      refine sepFree_cons _ _ (isPrefixOf_pat_cons _ _ (by decide)) ?_
      exact sepFree_glue _ '\n' _ hd
        (sepFree_cons _ _ (isPrefixOf_pat_cons _ _ (by decide)) ih)
        (by decide) (by decide)
    · show sepFree (('-' :: (t.flatMap displayEncodeChar ++ ['\n'])) ++
        ds'.flatMap _)
      have hsh : ('-' :: (t.flatMap displayEncodeChar ++ ['\n'])) ++
          ds'.flatMap (fun d =>
            (match d with
        | Diff.Keep _ => ' '
        | Diff.Delete _ => '-'
        | Diff.Add _ => '+') ::
              (d.text.flatMap displayEncodeChar ++ ['\n'])) =
          '-' :: (t.flatMap displayEncodeChar ++ '\n' ::
            ds'.flatMap (fun d =>
              (match d with
        | Diff.Keep _ => ' '
        | Diff.Delete _ => '-'
        | Diff.Add _ => '+') ::
                (d.text.flatMap displayEncodeChar ++ ['\n']))) := by
        simp
      rw [hsh]
      refine sepFree_cons _ _ (isPrefixOf_pat_cons _ _ (by decide)) ?_
      exact sepFree_glue _ '\n' _ hd
        (sepFree_cons _ _ (isPrefixOf_pat_cons _ _ (by decide)) ih)
        (by decide) (by decide)

theorem tail_sepFree (p : Patch) (h : patchWellFormed p) :
    sepFree ((patchToString p).drop 3) := by
  rw [patchToString_drop3]
  have hre : '-' :: (natRepr (if p.length1 = 0 ∧ p.start1 + 1 = 1 then 0 else p.start1 + 1) ++ ((if p.length1 > 0 ∨ (if p.length1 = 0 ∧ p.start1 + 1 = 1 then 0 else p.start1 + 1) = 0 then ',' :: natRepr p.length1 else []) ++ (' ' :: '+' :: (natRepr (if p.length2 = 0 ∧ p.start2 + 1 = 1 then 0 else p.start2 + 1) ++ ((if p.length2 > 0 ∨ (if p.length2 = 0 ∧ p.start2 + 1 = 1 then 0 else p.start2 + 1) = 0 then ',' :: natRepr p.length2 else []) ++ (' ' :: '@' :: '@' :: '\n' :: p.diffs.flatMap (fun d =>
      (match d with
        | Diff.Keep _ => ' '
        | Diff.Delete _ => '-'
        | Diff.Add _ => '+') ::
        (d.text.flatMap displayEncodeChar ++ ['\n'])))))))) =
      ('-' :: (natRepr (if p.length1 = 0 ∧ p.start1 + 1 = 1 then 0 else p.start1 + 1) ++ ((if p.length1 > 0 ∨ (if p.length1 = 0 ∧ p.start1 + 1 = 1 then 0 else p.start1 + 1) = 0 then ',' :: natRepr p.length1 else []) ++ (' ' :: '+' :: (natRepr (if p.length2 = 0 ∧ p.start2 + 1 = 1 then 0 else p.start2 + 1) ++ ((if p.length2 > 0 ∨ (if p.length2 = 0 ∧ p.start2 + 1 = 1 then 0 else p.start2 + 1) = 0 then ',' :: natRepr p.length2 else []) ++ [' '])))))) ++
      ('@' :: '@' :: '\n' :: p.diffs.flatMap (fun d =>
      (match d with
        | Diff.Keep _ => ' '
        | Diff.Delete _ => '-'
        | Diff.Add _ => '+') ::
        (d.text.flatMap displayEncodeChar ++ ['\n']))) := by
    simp
  rw [hre]
  refine sepFree_prefix_notat _ ?_ _ ?_
  · intro c hc
    simp only [List.mem_cons, List.mem_append] at hc
    rcases hc with rfl | hc
    · decide
    rcases hc with hc | hc
    · exact digit_ne_at c (natRepr_digits _ c hc).2
    rcases hc with hc | hc
    · by_cases hb : p.length1 > 0 ∨ (if p.length1 = 0 ∧
          p.start1 + 1 = 1 then 0 else p.start1 + 1) = 0
      · rw [if_pos hb] at hc
        rcases List.mem_cons.mp hc with rfl | hc2
        · decide
        · exact digit_ne_at c (natRepr_digits _ c hc2).2
      · rw [if_neg hb] at hc
        simp at hc
    rcases hc with rfl | hc
    · decide
    rcases hc with rfl | hc
    · decide
    rcases hc with hc | hc
    · exact digit_ne_at c (natRepr_digits _ c hc).2
    rcases hc with hc | hc
    · by_cases hb : p.length2 > 0 ∨ (if p.length2 = 0 ∧
          p.start2 + 1 = 1 then 0 else p.start2 + 1) = 0
      · rw [if_pos hb] at hc
        rcases List.mem_cons.mp hc with rfl | hc2
        · decide
        · exact digit_ne_at c (natRepr_digits _ c hc2).2
      · rw [if_neg hb] at hc
        simp at hc
    · rcases hc with rfl | hc
      · decide
      · simp at hc
  · refine sepFree_cons _ _ (by simp [List.isPrefixOf]) ?_
    refine sepFree_cons _ _ (by simp [List.isPrefixOf]) ?_
    refine sepFree_cons _ _ (isPrefixOf_pat_cons _ _ (by decide)) ?_
    exact sepFree_bodyflat p.diffs (fun d hd =>
      sepFree_enc _ (sepFree_of_containsSub _
        (Bool.not_eq_true _ ▸ eq_false_of_ne_true (by
          rw [h.2.2 d hd]
          simp))))

theorem patch1_roundtrip (p : Patch) (h : patchWellFormed p) :
    patch1_from_text ((patchToString p).drop 3) = PRes.ok p := by
  obtain ⟨hl1, hl2, _⟩ := h
  rw [patchToString_drop3]
  have hre : '-' :: (natRepr (if p.length1 = 0 ∧ p.start1 + 1 = 1 then 0 else p.start1 + 1) ++ ((if p.length1 > 0 ∨ (if p.length1 = 0 ∧ p.start1 + 1 = 1 then 0 else p.start1 + 1) = 0 then ',' :: natRepr p.length1 else []) ++ (' ' :: '+' :: (natRepr (if p.length2 = 0 ∧ p.start2 + 1 = 1 then 0 else p.start2 + 1) ++ ((if p.length2 > 0 ∨ (if p.length2 = 0 ∧ p.start2 + 1 = 1 then 0 else p.start2 + 1) = 0 then ',' :: natRepr p.length2 else []) ++ (' ' :: '@' :: '@' :: '\n' :: p.diffs.flatMap (fun d =>
      (match d with
        | Diff.Keep _ => ' '
        | Diff.Delete _ => '-'
        | Diff.Add _ => '+') ::
        (d.text.flatMap displayEncodeChar ++ ['\n'])))))))) =
      ('-' :: (natRepr (if p.length1 = 0 ∧ p.start1 + 1 = 1 then 0 else p.start1 + 1) ++ ((if p.length1 > 0 ∨ (if p.length1 = 0 ∧ p.start1 + 1 = 1 then 0 else p.start1 + 1) = 0 then ',' :: natRepr p.length1 else []) ++ (' ' :: '+' :: (natRepr (if p.length2 = 0 ∧ p.start2 + 1 = 1 then 0 else p.start2 + 1) ++ ((if p.length2 > 0 ∨ (if p.length2 = 0 ∧ p.start2 + 1 = 1 then 0 else p.start2 + 1) = 0 then ',' :: natRepr p.length2 else []) ++ ([' ', '@', '@'] : Str))))))) ++ '\n' :: p.diffs.flatMap (fun d =>
      (match d with
        | Diff.Keep _ => ' '
        | Diff.Delete _ => '-'
        | Diff.Add _ => '+') ::
        (d.text.flatMap displayEncodeChar ++ ['\n'])) := by
    simp
  rw [hre]
  have ho1 : (if p.length1 > 0 ∨ (if p.length1 = 0 ∧ p.start1 + 1 = 1 then 0 else p.start1 + 1) = 0 then ',' :: natRepr p.length1 else []) = [] ∨
      ∃ lv, (if p.length1 > 0 ∨ (if p.length1 = 0 ∧ p.start1 + 1 = 1 then 0 else p.start1 + 1) = 0 then ',' :: natRepr p.length1 else []) = ',' :: natRepr lv := by
    by_cases hb : p.length1 > 0 ∨ (if p.length1 = 0 ∧ p.start1 + 1 = 1 then 0 else p.start1 + 1) = 0
    · exact Or.inr ⟨p.length1, if_pos hb⟩
    · exact Or.inl (if_neg hb)
  have ho2 : (if p.length2 > 0 ∨ (if p.length2 = 0 ∧ p.start2 + 1 = 1 then 0 else p.start2 + 1) = 0 then ',' :: natRepr p.length2 else []) = [] ∨
      ∃ lv, (if p.length2 > 0 ∨ (if p.length2 = 0 ∧ p.start2 + 1 = 1 then 0 else p.start2 + 1) = 0 then ',' :: natRepr p.length2 else []) = ',' :: natRepr lv := by
    by_cases hb : p.length2 > 0 ∨ (if p.length2 = 0 ∧ p.start2 + 1 = 1 then 0 else p.start2 + 1) = 0
    · exact Or.inr ⟨p.length2, if_pos hb⟩
    · exact Or.inl (if_neg hb)
  rw [patch1_parse (if p.length1 = 0 ∧ p.start1 + 1 = 1 then 0 else p.start1 + 1) (if p.length2 = 0 ∧ p.start2 + 1 = 1 then 0 else p.start2 + 1) (if p.length1 > 0 ∨ (if p.length1 = 0 ∧ p.start1 + 1 = 1 then 0 else p.start1 + 1) = 0 then ',' :: natRepr p.length1 else []) (if p.length2 > 0 ∨ (if p.length2 = 0 ∧ p.start2 + 1 = 1 then 0 else p.start2 + 1) = 0 then ',' :: natRepr p.length2 else []) p.diffs ho1 ho2]
  have hs1 : (if p.length1 = 0 ∧ p.start1 + 1 = 1 then 0 else p.start1 + 1) - 1 = p.start1 := by
    by_cases hc : p.length1 = 0 ∧ p.start1 + 1 = 1
    · rw [if_pos hc]
      obtain ⟨_, h2⟩ := hc
      omega
    · rw [if_neg hc]
      omega
  have hs2 : (if p.length2 = 0 ∧ p.start2 + 1 = 1 then 0 else p.start2 + 1) - 1 = p.start2 := by
    by_cases hc : p.length2 = 0 ∧ p.start2 + 1 = 1
    · rw [if_pos hc]
      obtain ⟨_, h2⟩ := hc
      omega
    · rw [if_neg hc]
      omega
  rw [hs1, hs2, ← hl1, ← hl2]

theorem patch_to_text_shape : ∀ (ps : List Patch),
    patch_to_text ps =
      (ps.map (fun p => (patchToString p).drop 3)).flatMap
        (fun y => '@' :: '@' :: ' ' :: y)
  | [] => rfl
  | q :: qs => by
    show patchToString q ++ patch_to_text qs = _
    rw [patch_to_text_shape qs, List.map_cons, List.flatMap_cons]
    congr 1

theorem patchFromTextGo_pieces : ∀ (qs : List Patch) (i : Nat)
    (acc : List Patch), (∀ p ∈ qs, patchWellFormed p) →
    patchFromTextGo (qs.map (fun p => (patchToString p).drop 3)) i acc =
      PRes.ok (acc ++ qs)
  | [], i, acc, _ => by simp [patchFromTextGo]
  | q :: qs', i, acc, h => by
    rw [List.map_cons]
    simp only [patchFromTextGo]
    rw [if_neg (by rw [patchToString_drop3]; simp)]
    rw [patch1_roundtrip q (h q (by simp))]
    simp only []
    rw [patchFromTextGo_pieces qs' (i + 1) (acc ++ [q])
      (fun p hp => h p (by simp [hp]))]
    simp

/-- C3: amended statement.  For every list of patches whose `length1` and
`length2` fields agree with the scalar lengths of their diff texts and
whose diff texts never contain the separator substring `"@@ "`,
`patch_from_text` inverts `patch_to_text` exactly.  (For other patches the
parser recomputes the length fields from the body lines, so serialisation
is not inverted bit-exactly.) -/
theorem claim_C3_amended (ps : List Patch)
    (h : ∀ p ∈ ps, patchWellFormed p) :
    patch_from_text (patch_to_text ps) = PRes.ok ps := by
  unfold patch_from_text
  rw [patch_to_text_shape ps]
  rw [splitOnSub_pieces _ (fun y hy => by
    rw [List.mem_map] at hy
    obtain ⟨p, hp, rfl⟩ := hy
    exact tail_sepFree p (h p hp))]
  simp only [patchFromTextGo]
  rw [if_pos (show ([] : Str).isEmpty = true from rfl)]
  rw [if_pos trivial]
  rw [patchFromTextGo_pieces ps 1 [] h]
  simp

theorem claim_C3_amended_witness :
    (∀ p ∈ [Patch.mk [Diff.Keep ['a']] 0 0 1 1], patchWellFormed p) ∧
    patch_from_text (patch_to_text [Patch.mk [Diff.Keep ['a']] 0 0 1 1]) =
      PRes.ok [Patch.mk [Diff.Keep ['a']] 0 0 1 1] :=
  ⟨by
    intro p hp
    rw [List.mem_singleton] at hp
    subst hp
    exact ⟨rfl, rfl, fun d hd => by
      rw [List.mem_singleton] at hd
      subst hd
      decide⟩,
   claim_C3_amended _ (by
    intro p hp
    rw [List.mem_singleton] at hp
    subst hp
    exact ⟨rfl, rfl, fun d hd => by
      rw [List.mem_singleton] at hd
      subst hd
      decide⟩)⟩

end Dmp